import Mathlib

/-!
# R3BRoot digitizers: Tamex channel response and fiber digitizer

A shallow embedding of

* `neuland/digitizing/R3BDigitizingTamex.cxx`: PMT-level peaks, width-bearing
  peaks, the pile-up pass `Channel::PeakPilingUp`, the threshold filter
  `Channel::ApplyThreshold`, `Channel::AddHit` and the signal construction;
* `fiber/digi/R3BFiberDigitizer.cxx`: the `Digitize` lambda of
  `R3BFiberDigitizer::Exec`.

Modelling conventions.

* `double` / `Double_t` quantities are rationals (`ℚ`); there is no NaN and
  no infinity.  The definitions named after the source compute exactly.
  Where the rounding of an arithmetic result decides a later comparison (the
  sums and the difference of `Peak`, which `Peak::operator==` compares again,
  and the difference of times that the fiber digitizer compares with its
  gate), the operations are given a second time with the rounding `fl`
  explicit (`Peak.overlapsRounded`, `Peak.plusEqRounded`,
  `registerHitRounded`): `IEEE754.binary64` is the rounding to the nearest
  `double`, and at `fl = id` they are the exact definitions.  The one
  declared narrowing to single precision (`Float_t xpos` in the fiber
  digitizer) is modelled by an explicit rounding to the nearest binary32
  value.
* `std::sort` leaves elements of equal key in an unspecified order: `sortHits`
  keeps their input order, and `SortedArrangement` states what the language
  guarantees of the result.
* A `std::vector` is a `List`; an iterator is an index into it.
* The random generator is an explicit stream of standard normal deviates
  together with the number of deviates consumed so far.
-/

namespace R3B.Digitizing.Neuland.Tamex

/-! ## Parameters, hits, peaks -/

/-- The numeric fields of `Tamex::Params` that the translated code reads. -/
structure Params where
  fPMTThresh : ℚ
  fSaturationCoefficient : ℚ
  fExperimentalDataIsCorrectedForSaturation : Bool
  fTimeMax : ℚ
  fTimeMin : ℚ
  fEnergyGain : ℚ
  fPedestal : ℚ
  fQdcMin : ℚ
  fEResRel : ℚ
  fTimeRes : ℚ
deriving DecidableEq, Repr

/-- A PMT-level peak (`PMTPeak`): amplitude and leading-edge time. -/
structure PMTPeak where
  fQdc : ℚ
  fLETime : ℚ
deriving DecidableEq, Repr

/-- The inline members of the class header that the translated code calls:
the calibration functions `Peak::QdcToWidth` and `Peak::WidthToQdc` and the
PMT-level overlap predicate `PMTPeak::operator==`.  The header is not among
the translated sources, so they are parameters of the development. -/
structure Calibration where
  QdcToWidth : ℚ → Params → ℚ
  WidthToQdc : ℚ → Params → ℚ
  pmtPeakEq : PMTPeak → PMTPeak → Bool

/-- The fields of `Digitizing::Channel::Hit` read by the Tamex channel. -/
structure Hit where
  time : ℚ
  light : ℚ
deriving DecidableEq, Repr

/-- The constructor `PMTPeak::PMTPeak(Hit, const Channel&)`: the saturation
transform of the light yield, and the hit time. -/
def PMTPeak.ofHit (pmtHit : Hit) (par : Params) : PMTPeak :=
  { fQdc :=
      if par.fExperimentalDataIsCorrectedForSaturation then
        pmtHit.light / (1 + par.fSaturationCoefficient * pmtHit.light)
      else pmtHit.light
    fLETime := pmtHit.time }

/-- The operator `PMTPeak::operator+=`. -/
def PMTPeak.plusEq (self rhs : PMTPeak) : PMTPeak :=
  { fQdc := self.fQdc + rhs.fQdc
    fLETime := if self.fLETime < rhs.fLETime then self.fLETime else rhs.fLETime }

/-- A width-bearing peak (`Peak`, the FQT peak).  The pointer `fChannel` is
represented by the parameter set and calibration of the owning channel, which
the operations take as arguments. -/
structure Peak where
  fQdc : ℚ
  fLETime : ℚ
  fWidth : ℚ
  fTETime : ℚ
deriving DecidableEq, Repr

/-- The constructor `Peak::Peak(const PMTPeak&, Channel*)` for a bound channel. -/
def Peak.ofPMTPeak (cal : Calibration) (par : Params) (pmtPeak : PMTPeak) : Peak :=
  let fWidth := cal.QdcToWidth pmtPeak.fQdc par
  { fQdc := pmtPeak.fQdc
    fLETime := pmtPeak.fLETime
    fWidth := fWidth
    fTETime := pmtPeak.fLETime + fWidth }

/-- The overlap predicate `Peak::operator==` (the warning it may log has no
effect on the result). -/
def Peak.overlaps (self sig : Peak) : Bool :=
  decide (self.fLETime ≤ sig.fLETime + sig.fWidth) &&
    decide (sig.fLETime ≤ self.fLETime + self.fWidth)

/-- The operator `Peak::operator+=` for a bound channel. -/
def Peak.plusEq (cal : Calibration) (par : Params) (self sig : Peak) : Peak :=
  let fLETime := if self.fLETime < sig.fLETime then self.fLETime else sig.fLETime
  let fTETime := if self.fTETime > sig.fTETime then self.fTETime else sig.fTETime
  let fWidth := fTETime - fLETime
  { fQdc := cal.WidthToQdc fWidth par
    fLETime := fLETime
    fWidth := fWidth
    fTETime := fTETime }

/-! ## The pile-up pass -/

/-- The loop of `Channel::PeakPilingUp`, for the iterator at index `it`:
while `it != begin`, if `*it == *(it - 1)` then `*(it - 1) += *it` and element
`it` is erased; then `--it`.  After the erase the iterator keeps its index, so
the decrement lands on the element that has just absorbed its right
neighbour. -/
def PeakPilingUp.loop {α : Type} (eq : α → α → Bool) (plusEq : α → α → α) :
    Nat → List α → List α
  | 0, peaks => peaks
  | it + 1, peaks =>
    match peaks[it + 1]?, peaks[it]? with
    | some cur, some prev =>
      if eq cur prev then
        loop eq plusEq it ((peaks.set it (plusEq prev cur)).eraseIdx (it + 1))
      else loop eq plusEq it peaks
    | _, _ => peaks

/-- The template `Channel::PeakPilingUp`, generic in the peak type through its
`operator==` (`eq`) and `operator+=` (`plusEq`). -/
def PeakPilingUp {α : Type} (eq : α → α → Bool) (plusEq : α → α → α)
    (peaks : List α) : List α :=
  if peaks.length = 0 then peaks
  else PeakPilingUp.loop eq plusEq (peaks.length - 1) peaks

/-- The instance of `PeakPilingUp` at `Peak`. -/
def PeakPilingUpFQT (cal : Calibration) (par : Params) (peaks : List Peak) : List Peak :=
  PeakPilingUp Peak.overlaps (Peak.plusEq cal par) peaks

/-! ## The threshold filter -/

/-- The scan of `std::remove_if`: `kept` holds, in order, the elements seen so
far for which the predicate is false. -/
def ApplyThreshold.remove_if {α : Type} (pred : α → Bool) : List α → List α → List α
  | kept, [] => kept
  | kept, peak :: rest =>
    if pred peak then remove_if pred kept rest else remove_if pred (kept ++ [peak]) rest

/-- The template `Channel::ApplyThreshold` (erase-remove idiom), generic in the
peak type through its accessor `GetQDC`. -/
def ApplyThreshold {α : Type} (GetQDC : α → ℚ) (par : Params) (peaks : List α) : List α :=
  ApplyThreshold.remove_if (fun peak => decide (GetQDC peak < par.fPMTThresh)) [] peaks

/-! ## The channel -/

/-- The two sides of a paddle (`ChannelSide`). -/
inductive ChannelSide where
  | left
  | right
deriving DecidableEq, Repr

/-- The state of a `Tamex::Channel`.  The two flags stand for the cached
values of the base class `Digitizing::Channel` (signals and trigger time),
whose header is not among the translated sources: `Is_ValidSignals` reads
`signalsValid`. -/
structure Channel where
  side : ChannelSide
  par_ : Params
  fPMTPeaks : List PMTPeak
  fFQTPeaks : List Peak
  signalsValid : Bool
  trigTimeValid : Bool
deriving DecidableEq, Repr

/-- Modelled from the spec: the base-class method `InvalidateSignals`, which
marks the cached signals stale. -/
def Channel.InvalidateSignals (ch : Channel) : Channel :=
  { ch with signalsValid := false }

/-- Modelled from the spec: the base-class method `InvalidateTrigTime`, which
marks the cached trigger time stale. -/
def Channel.InvalidateTrigTime (ch : Channel) : Channel :=
  { ch with trigTimeValid := false }

/-- The method `Channel::AddHit`. -/
def Channel.AddHit (ch : Channel) (newHit : Hit) : Channel :=
  if newHit.time < ch.par_.fTimeMin ∨ newHit.time > ch.par_.fTimeMax then ch
  else
    let ch := ch.InvalidateSignals
    let ch := ch.InvalidateTrigTime
    { ch with fPMTPeaks := ch.fPMTPeaks ++ [PMTPeak.ofHit newHit ch.par_] }

/-- Modelled from the spec: the random generator `TRandom3` as "a source of
Gaussian deviates": a stream of standard normal deviates and the number of
deviates drawn so far. -/
structure TRandom3 where
  deviates : Nat → ℚ
  drawn : Nat

/-- Modelled from the spec: `TRandom3::Gaus(mean, sigma)` consumes the next
standard deviate `z` of the stream and returns `mean + sigma * z`. -/
def TRandom3.Gaus (rnd : TRandom3) (mean sigma : ℚ) : ℚ × TRandom3 :=
  (mean + sigma * rnd.deviates rnd.drawn, { rnd with drawn := rnd.drawn + 1 })

/-- The output record `Signal`. -/
structure Signal where
  qdcUnSat : ℚ
  qdc : ℚ
  tdc : ℚ
  side : ChannelSide
deriving DecidableEq, Repr

/-- The method `Channel::ToQdc`: energy smearing. -/
def ToQdc (par : Params) (qdc : ℚ) (rnd : TRandom3) : ℚ × TRandom3 :=
  rnd.Gaus qdc (par.fEResRel * qdc)

/-- The method `Channel::ToTdc`: time smearing. -/
def ToTdc (par : Params) (time : ℚ) (rnd : TRandom3) : ℚ × TRandom3 :=
  let g := rnd.Gaus 0 par.fTimeRes
  (time + g.1, g.2)

/-- The method `Channel::ToUnSatQdc`: reverse saturation. -/
def ToUnSatQdc (par : Params) (qdc : ℚ) : ℚ :=
  if par.fExperimentalDataIsCorrectedForSaturation then
    qdc / (1 - par.fSaturationCoefficient * qdc)
  else qdc

/-- The method `Channel::CreateSignal`. -/
def CreateSignal (par : Params) (side : ChannelSide) (peak : Peak) (rnd : TRandom3) :
    Signal × TRandom3 :=
  let peakQdc := peak.fQdc
  let peakTime := peak.fLETime
  let q := ToQdc par peakQdc rnd
  let t := ToTdc par peakTime q.2
  ({ qdcUnSat := ToUnSatQdc par q.1, qdc := q.1, tdc := t.1, side := side }, t.2)

/-- Modelled from the spec: `std::sort` of the PMT-level peaks by
`PMTPeak::operator<` (declared in the header), i.e. by leading-edge time
ascending.  The order `std::sort` gives to peaks of equal time is
unspecified; here equal times keep their arrival order. -/
def sortPMTPeaks (pmtPeaks : List PMTPeak) : List PMTPeak :=
  pmtPeaks.insertionSort (fun a b => a.fLETime ≤ b.fLETime)

/-- The method `Channel::ConstructFQTPeaks`, applied to the channel's own
`fPMTPeaks` (which it sorts, piles up and filters in place): the updated
PMT-level peaks and the FQT peaks built from them. -/
def ConstructFQTPeaks (cal : Calibration) (par : Params) (pmtPeaks : List PMTPeak) :
    List PMTPeak × List Peak :=
  let pmtPeaks := sortPMTPeaks pmtPeaks
  let pmtPeaks := PeakPilingUp cal.pmtPeakEq PMTPeak.plusEq pmtPeaks
  let pmtPeaks := ApplyThreshold PMTPeak.fQdc par pmtPeaks
  (pmtPeaks, pmtPeaks.map (Peak.ofPMTPeak cal par))

/-- The loop of `Channel::ConstructSignals` that turns each FQT peak into a
signal, threading the random generator. -/
def createSignals (par : Params) (side : ChannelSide) :
    List Peak → TRandom3 → List Signal × TRandom3
  | [], rnd => ([], rnd)
  | peak :: rest, rnd =>
    let s := CreateSignal par side peak rnd
    let r := createSignals par side rest s.2
    (s.1 :: r.1, r.2)

/-- The method `Channel::ConstructSignals`: the signals, the channel after the
call and the random generator after the call. -/
def Channel.ConstructSignals (cal : Calibration) (ch : Channel) (rnd : TRandom3) :
    List Signal × Channel × TRandom3 :=
  let c := ConstructFQTPeaks cal ch.par_ ch.fPMTPeaks
  let fFQTPeaks := PeakPilingUpFQT cal ch.par_ c.2
  let s := createSignals ch.par_ ch.side fFQTPeaks rnd
  (s.1, { ch with fPMTPeaks := c.1, fFQTPeaks := fFQTPeaks }, s.2)

end R3B.Digitizing.Neuland.Tamex

namespace R3BFiberDigitizer

/-! ## The fiber digitizer -/

/-- The data members of `R3BFiberDigitizer` read by `Exec`. -/
structure Config where
  esigma : ℚ
  tsigma : ℚ
  ysigma : ℚ
  fiber_thickness : ℚ
  fiber_nbr : Nat
  air_layer : ℚ
  detector_width : ℚ
deriving DecidableEq, Repr

/-- The constructor `R3BFiberDigitizer(name, e, t, y)`. -/
def Config.ofSigmas (e t y : ℚ) : Config :=
  let fiber_thickness : ℚ := 0.10000
  let fiber_nbr : Nat := 512
  let air_layer : ℚ := 0.01
  { esigma := e
    tsigma := t
    ysigma := y
    fiber_thickness := fiber_thickness
    fiber_nbr := fiber_nbr
    air_layer := air_layer
    detector_width := fiber_nbr * fiber_thickness * (1 + air_layer) }

/-- The constructor `R3BFiberDigitizer(name)`. -/
def Config.default : Config := Config.ofSigmas 0.001 0.01 1

/-- The local struct `TempHit` of the `Digitize` lambda. -/
structure TempHit where
  fiberID : Int
  Energy : ℚ
  Time : ℚ
  Y : ℚ
deriving DecidableEq, Repr

/-- The three per-channel arrays of vectors `energy`, `time` and `y`. -/
structure Storage where
  energy : List (List ℚ)
  time : List (List ℚ)
  y : List (List ℚ)
deriving DecidableEq, Repr

/-- The storage after the initialisation loop: every channel holds the
placeholder cluster with time 99999, energy 0 and position 0. -/
def Storage.init (NumOfFibers : Nat) : Storage :=
  { energy := List.replicate NumOfFibers [0]
    time := List.replicate NumOfFibers [99999]
    y := List.replicate NumOfFibers [0] }

/-- The assignment `v[i].back() = x`; `none` stands for the undefined behaviour
of an index outside the array or of `back()` on an empty vector. -/
def setBack (v : List (List ℚ)) (i : Nat) (x : ℚ) : Option (List (List ℚ)) :=
  match v[i]? with
  | some (c :: cs) => some (v.set i ((c :: cs).dropLast ++ [x]))
  | _ => none

/-- The read `v[i].back()`, with `none` as in `setBack`. -/
def getBack (v : List (List ℚ)) (i : Nat) : Option ℚ :=
  match v[i]? with
  | some cs => cs.getLast?
  | none => none

/-- The call `v[i].push_back(x)`, with `none` for an index outside the array. -/
def pushBack (v : List (List ℚ)) (i : Nat) (x : ℚ) : Option (List (List ℚ)) :=
  match v[i]? with
  | some cs => some (v.set i (cs ++ [x]))
  | none => none

/-- One iteration of the registration loop (`for (TempHit& Hit : TempHits)`). -/
def registerHit (s : Storage) (Hit : TempHit) : Option Storage :=
  if Hit.Energy < 0.0000001 then some s
  else if Hit.fiberID < 0 then none
  else
    let fiberID := Hit.fiberID.toNat
    do
      let tback ← getBack s.time fiberID
      if Hit.Time - tback < 30 then
        let eback ← getBack s.energy fiberID
        let energy ← setBack s.energy fiberID (eback + Hit.Energy)
        let yback ← getBack s.y fiberID
        let y ← setBack s.y fiberID (if tback > Hit.Time then Hit.Y else yback)
        let time ← setBack s.time fiberID (if tback > Hit.Time then Hit.Time else tback)
        pure { energy := energy, time := time, y := y }
      else
        let energy ← pushBack s.energy fiberID Hit.Energy
        let time ← pushBack s.time fiberID Hit.Time
        let y ← pushBack s.y fiberID Hit.Y
        pure { energy := energy, time := time, y := y }

/-- The registration loop over the time-ordered hits. -/
def registerHits : Storage → List TempHit → Option Storage
  | s, [] => some s
  | s, Hit :: rest =>
    match registerHit s Hit with
    | some s1 => registerHits s1 rest
    | none => none

/-- The call of `std::sort` with the comparator `lhs.Time < rhs.Time`.  The
order `std::sort` gives to hits of equal time is unspecified; here equal times
keep their input order. -/
def sortHits (TempHits : List TempHit) : List TempHit :=
  TempHits.insertionSort (fun lhs rhs => lhs.Time ≤ rhs.Time)

/-- The search for the binary exponent of `a > 0`: `a` is halved while it is
at least 2 and doubled while it is below 1, and the exponent is adjusted by
one at each step, for at most `fuel` steps. -/
def ilog2Aux : Nat → ℚ → ℤ → ℤ
  | 0, _, acc => acc
  | fuel + 1, a, acc =>
    if 2 ≤ a then ilog2Aux fuel (a / 2) (acc + 1)
    else if a < 1 then ilog2Aux fuel (a * 2) (acc - 1)
    else acc

/-- The binary exponent of `q ≠ 0`: the `k` with `2 ^ k ≤ |q| < 2 ^ (k + 1)`.
The sum of numerator and denominator bounds the number of steps of the
search. -/
def ilog2 (q : ℚ) : ℤ :=
  ilog2Aux (q.num.natAbs + q.den) |q| 0

/-- Rounding to the nearest integer, ties to even. -/
def roundHalfEven (q : ℚ) : ℤ :=
  let f := ⌊q⌋
  let r := q - f
  if r < 1 / 2 then f else if 1 / 2 < r then f + 1 else if f % 2 = 0 then f else f + 1

/-- The narrowing conversion of a `double` to `Float_t` (IEEE 754 binary32,
24-bit significand, least normal exponent -126, round to nearest, ties to
even), for magnitudes below the overflow threshold. -/
def toFloat32 (q : ℚ) : ℚ :=
  if q = 0 then 0
  else
    let e := max (ilog2 q) (-126)
    let ulp : ℚ := 2 ^ (e - 23)
    roundHalfEven (q / ulp) * ulp

/-- The value of the expression assigned to `xpos` for channel `i`, before the
narrowing to `Float_t`. -/
def xposExact (cfg : Config) (i : Nat) : ℚ :=
  -cfg.detector_width / 2 + cfg.fiber_thickness / 2 + (i + i * cfg.air_layer) * cfg.fiber_thickness

/-- The local `Float_t xpos` for channel `i`. -/
def xpos (cfg : Config) (i : Nat) : ℚ :=
  toFloat32 (xposExact cfg i)

/-- The arguments of one `R3BBunchedFiberHitData` the emission loop creates,
before smearing: the detector id, the x position, the means of the three
Gaussian draws (with sigmas `ysigma`, `esigma` and `tsigma`) and the fiber
id.  The remaining constructor arguments are the constant 0.  The order in
which the three draws are taken is that of the evaluation of the constructor
arguments, which the language leaves unspecified. -/
structure FiberHit where
  detId : Int
  x : ℚ
  yMean : ℚ
  elossMean : ℚ
  timeMean : ℚ
  fiberId : Nat
deriving DecidableEq, Repr

/-- The inner emission loop for channel `i`: `k` is the index of `energyl` in
`energy[i]`, `none` the exception of `at(k)` out of range. -/
def emitChannel (cfg : Config) (i : Nat) (time y : List ℚ) :
    Nat → List ℚ → Option (List FiberHit)
  | _, [] => some []
  | k, energyl :: rest =>
    if energyl > 0.0000001 then
      match y[k]?, time[k]?, emitChannel cfg i time y (k + 1) rest with
      | some yk, some tk, some hits =>
        some ({ detId := 1, x := xpos cfg i, yMean := yk, elossMean := energyl,
                timeMean := tk, fiberId := i } :: hits)
      | _, _, _ => none
    else emitChannel cfg i time y (k + 1) rest

/-- The outer emission loop, for the channels `i, i + 1, ...` whose vectors
are the entries of the three lists. -/
def emitFrom (cfg : Config) : Nat → List (List ℚ) → List (List ℚ) → List (List ℚ) →
    Option (List FiberHit)
  | i, e :: es, t :: ts, y :: ys =>
    match emitChannel cfg i t y 0 e, emitFrom cfg (i + 1) es ts ys with
    | some hits, some more => some (hits ++ more)
    | _, _ => none
  | _, [], [], [] => some []
  | _, _, _, _ => none

/-- The emission loop `for (Int_t i = 0; i < NumOfFibers; ++i)`. -/
def emit (cfg : Config) (s : Storage) : Option (List FiberHit) :=
  emitFrom cfg 0 s.energy s.time s.y

/-- The `Digitize` lambda of `R3BFiberDigitizer::Exec` on the points of one
event (given by the four values `TempHit` keeps of each): the hits appended to
the cleared output array, or `none` when the run meets undefined behaviour. -/
def Digitize (cfg : Config) (Points : List TempHit) (NumOfFibers : Nat) :
    Option (List FiberHit) :=
  if Points.length = 0 then some []
  else
    match registerHits (Storage.init NumOfFibers) (sortHits Points) with
    | some s => emit cfg s
    | none => none

/-- The method `R3BFiberDigitizer::Exec` with `fFiPoints` set. -/
def Exec (cfg : Config) (Points : List TempHit) : Option (List FiberHit) :=
  Digitize cfg Points cfg.fiber_nbr

end R3BFiberDigitizer

namespace R3B.Digitizing.Neuland.Tamex

/-! ## The pile-up pass as a fold, and auxiliary notions -/

/-- One step of the pile-up pass read as a fold from the right: `x` is the
element left of the part `acc` already processed; when the first element `y`
of `acc` satisfies `y == x` it is accumulated into `x` and removed, otherwise
`x` is put in front. -/
def pileStep {α : Type} (eq : α → α → Bool) (plusEq : α → α → α) (x : α) (acc : List α) :
    List α :=
  match acc with
  | [] => [x]
  | y :: ys => if eq y x then plusEq x y :: ys else x :: y :: ys

/-- The pulse `a` neither starts nor ends after `b`. -/
def Peak.before (a b : Peak) : Prop := a.fLETime ≤ b.fLETime ∧ a.fTETime ≤ b.fTETime

/-- An instance of the header members for evaluating the code at concrete
inputs: width and amplitude are equal, and two PMT-level peaks overlap when
their times differ by less than `PMTPeak::peakWidth = 15.0`. -/
def Calibration.unit : Calibration :=
  { QdcToWidth := fun qdc _ => qdc
    WidthToQdc := fun width _ => width
    pmtPeakEq := fun a b => decide (|a.fLETime - b.fLETime| < 15) }

/-- A parameter set for evaluating the code at concrete inputs: threshold 1,
no saturation correction, time window from 1 to 1000, relative energy
resolution one half. -/
def Params.sample : Params :=
  { fPMTThresh := 1
    fSaturationCoefficient := 0
    fExperimentalDataIsCorrectedForSaturation := false
    fTimeMax := 1000
    fTimeMin := 1
    fEnergyGain := 1
    fPedestal := 0
    fQdcMin := 1
    fEResRel := 1 / 2
    fTimeRes := 1 / 10 }

/-- Three pulses sorted by leading-edge time, each with
`fTETime = fLETime + fWidth`: a long one from 0 to 100, a short one from 20 to
21 inside it, and one from 50 to 60 that starts after the short one ends. -/
def nestedPulses : List Peak :=
  [⟨100, 0, 100, 100⟩, ⟨1, 20, 1, 21⟩, ⟨10, 50, 10, 60⟩]

/-- Two coincident pulses from 10 to 30, each of amplitude `q`. -/
def twinPulses (q : ℚ) : List Peak :=
  [⟨q, 10, 20, 30⟩, ⟨q, 10, 20, 30⟩]

/-- The sum of the amplitudes of a sequence of pulses. -/
def totalQdc (peaks : List Peak) : ℚ := (peaks.map Peak.fQdc).sum

/-- The constructor `Channel::Channel(side, par)`: no peaks, nothing cached. -/
def Channel.new (side : ChannelSide) (par : Params) : Channel :=
  { side := side
    par_ := par
    fPMTPeaks := []
    fFQTPeaks := []
    signalsValid := false
    trigTimeValid := false }

/-- A random generator all of whose standard deviates are `z`. -/
def TRandom3.constant (z : ℚ) : TRandom3 :=
  { deviates := fun _ => z
    drawn := 0 }

end R3B.Digitizing.Neuland.Tamex

namespace R3BFiberDigitizer

/-- The three vectors `energy[i]`, `time[i]` and `y[i]` of one channel. -/
structure Clusters where
  energy : List ℚ
  time : List ℚ
  y : List ℚ
deriving DecidableEq, Repr

/-- The vectors of a channel after the initialisation loop: the placeholder. -/
def Clusters.placeholder : Clusters :=
  { energy := [0]
    time := [99999]
    y := [0] }

/-- The storage whose channels hold the given vectors. -/
def Storage.ofClusters (cs : List Clusters) : Storage :=
  { energy := cs.map Clusters.energy
    time := cs.map Clusters.time
    y := cs.map Clusters.y }

/-- The body of the registration loop, for a hit that passes the energy test,
on the vectors of the hit's own channel when none of them is empty. -/
def Clusters.register (cl : Clusters) (Hit : TempHit) : Clusters :=
  let tback := cl.time.getLastD 0
  if Hit.Time - tback < 30 then
    { energy := cl.energy.dropLast ++ [cl.energy.getLastD 0 + Hit.Energy]
      time := cl.time.dropLast ++ [if tback > Hit.Time then Hit.Time else tback]
      y := cl.y.dropLast ++ [if tback > Hit.Time then Hit.Y else cl.y.getLastD 0] }
  else
    { energy := cl.energy ++ [Hit.Energy]
      time := cl.time ++ [Hit.Time]
      y := cl.y ++ [Hit.Y] }

/-- The effect of one iteration of the registration loop on the vectors of
channel `c`: a hit below the energy cut or of another channel leaves them as
they are. -/
def Clusters.step (c : Nat) (cl : Clusters) (Hit : TempHit) : Clusters :=
  if Hit.Energy < 0.0000001 ∨ Hit.fiberID ≠ c then cl else cl.register Hit

/-- None of the three vectors of the channel is empty. -/
def Clusters.Nonempty (cl : Clusters) : Prop :=
  cl.energy ≠ [] ∧ cl.time ≠ [] ∧ cl.y ≠ []

/-- An event with two hits on channel 10, at times 100 and `100 + d`, given in
reverse time order, and one hit on channel 3. -/
def gatePoints (d : ℚ) : List TempHit :=
  [⟨10, 0.3, 100 + d, 2⟩, ⟨3, 0.2, 50, 0⟩, ⟨10, 0.5, 100, 1⟩]

/-- The geometric mapping in the words of the specification:
`x = -totalWidth/2 + pitch/2 + channelIndex × pitch` with
`pitch = fiberThickness × (1 + airLayerFraction)` and
`totalWidth = numChannels × pitch`. -/
def specGeometricMapping (numChannels : Nat) (fiberThickness airLayerFraction : ℚ)
    (channelIndex : Nat) : ℚ :=
  let pitch := fiberThickness * (1 + airLayerFraction)
  let totalWidth := numChannels * pitch
  (-totalWidth / 2 + pitch / 2 + channelIndex * pitch)

end R3BFiberDigitizer

namespace R3B.Digitizing.Neuland.Tamex

/-! ## Cached peaks and the parameter object -/

/-- Modelled from the spec: the base-class method `Is_ValidSignals`, which
tells whether the cached signals are valid. -/
def Channel.Is_ValidSignals (ch : Channel) : Bool :=
  ch.signalsValid

/-- The method `Channel::GetFQTPeaks`: the peaks returned, the channel after
the call and the random generator after the call.  The signals that
`ConstructSignals` returns are discarded. -/
def Channel.GetFQTPeaks (cal : Calibration) (ch : Channel) (rnd : TRandom3) :
    List Peak × Channel × TRandom3 :=
  if !ch.Is_ValidSignals then
    let r := ch.ConstructSignals cal rnd
    (r.2.1.fFQTPeaks, r.2.1, r.2.2)
  else (ch.fFQTPeaks, ch, rnd)

/-- The method `Channel::GetPMTPeaks`, with the same results as
`Channel.GetFQTPeaks`. -/
def Channel.GetPMTPeaks (cal : Calibration) (ch : Channel) (rnd : TRandom3) :
    List PMTPeak × Channel × TRandom3 :=
  if !ch.Is_ValidSignals then
    let r := ch.ConstructSignals cal rnd
    (r.2.1.fPMTPeaks, r.2.1, r.2.2)
  else (ch.fPMTPeaks, ch, rnd)

/-- The leading-edge time of the peak that the nested accumulation
`x₁ += (x₂ += (... += xₖ))` of a group of PMT-level peaks gives. -/
def groupLETime : List PMTPeak → ℚ
  | [] => 0
  | [x] => x.fLETime
  | x :: y :: rest =>
    if x.fLETime < groupLETime (y :: rest) then x.fLETime else groupLETime (y :: rest)

/-- The PMT-level peak that the nested accumulation of a group of peaks gives:
the sum of the amplitudes and `groupLETime`. -/
def mergeGroup (g : List PMTPeak) : PMTPeak :=
  { fQdc := (g.map PMTPeak.fQdc).sum
    fLETime := groupLETime g }

/-- A channel with the parameters `Params.sample` that has received one hit of
light 2 at time 10. -/
def Channel.oneHit : Channel :=
  (Channel.new ChannelSide.left Params.sample).AddHit ⟨10, 2⟩

/-! ## Counting the overlap tests, and the smeared signal -/

/-- The loop of `Channel::PeakPilingUp` as in `PeakPilingUp.loop`, together
with the number of evaluations of `operator==` made so far. -/
def PeakPilingUp.loopCounting {α : Type} (eq : α → α → Bool) (plusEq : α → α → α) :
    Nat → List α → Nat → List α × Nat
  | 0, peaks, tests => (peaks, tests)
  | it + 1, peaks, tests =>
    match peaks[it + 1]?, peaks[it]? with
    | some cur, some prev =>
      if eq cur prev then
        loopCounting eq plusEq it ((peaks.set it (plusEq prev cur)).eraseIdx (it + 1))
          (tests + 1)
      else loopCounting eq plusEq it peaks (tests + 1)
    | _, _ => (peaks, tests)

/-- The template `Channel::PeakPilingUp` together with the number of
evaluations of `operator==` it makes. -/
def PeakPilingUp.counting {α : Type} (eq : α → α → Bool) (plusEq : α → α → α)
    (peaks : List α) : List α × Nat :=
  if peaks.length = 0 then (peaks, 0)
  else PeakPilingUp.loopCounting eq plusEq (peaks.length - 1) peaks 0

/-- The signal `CreateSignal` builds from a pulse when the standard deviate
drawn for the amplitude is `zq` and the one drawn for the time is `zt`. -/
def smearedSignal (par : Params) (side : ChannelSide) (peak : Peak) (zq zt : ℚ) : Signal :=
  { qdcUnSat := ToUnSatQdc par (peak.fQdc + par.fEResRel * peak.fQdc * zq)
    qdc := peak.fQdc + par.fEResRel * peak.fQdc * zq
    tdc := peak.fLETime + (0 + par.fTimeRes * zt)
    side := side }

/-- The parameters `Params.sample` with the saturation correction enabled and
the saturation coefficient `k`. -/
def Params.saturating (k : ℚ) : Params :=
  { Params.sample with
    fSaturationCoefficient := k
    fExperimentalDataIsCorrectedForSaturation := true }

end R3B.Digitizing.Neuland.Tamex

namespace R3BFiberDigitizer

/-! ## Auxiliary notions for the registration and emission loops -/

/-- The three vectors of the channel have the same length. -/
def Clusters.Aligned (cl : Clusters) : Prop :=
  cl.energy.length = cl.time.length ∧ cl.y.length = cl.time.length

/-- The output hits of channel `i` for the clusters given by three lists of
equal length: one hit for each cluster whose energy exceeds 1e-7, in order. -/
def emittedOf (cfg : Config) (i : Nat) : List ℚ → List ℚ → List ℚ → List FiberHit
  | energyl :: es, tk :: ts, yk :: ys =>
    if energyl > 0.0000001 then
      { detId := 1, x := xpos cfg i, yMean := yk, elossMean := energyl, timeMean := tk,
        fiberId := i } :: emittedOf cfg i es ts ys
    else emittedOf cfg i es ts ys
  | _, _, _ => []

/-- The output hits of channel `i` when its vectors are `cl`. -/
def Clusters.emitted (cfg : Config) (i : Nat) (cl : Clusters) : List FiberHit :=
  emittedOf cfg i cl.energy cl.time cl.y

/-- The output hits of the channels `i, i + 1, ...` whose vectors are the
entries of the list, channel by channel. -/
def emittedFrom (cfg : Config) : Nat → List Clusters → List FiberHit
  | _, [] => []
  | i, cl :: rest => cl.emitted cfg i ++ emittedFrom cfg (i + 1) rest

/-- The hits of a list that pass the energy test of the registration loop and
lie on channel `c`, in the order of the list. -/
def channelHits (c : Nat) (hits : List TempHit) : List TempHit :=
  hits.filter (fun h : TempHit => decide (¬ h.Energy < 0.0000001) && decide (h.fiberID = (c : ℤ)))

/-- The hits of a list that pass the energy test of the registration loop. -/
def acceptedHits (hits : List TempHit) : List TempHit :=
  hits.filter (fun h : TempHit => decide (¬ h.Energy < 0.0000001))

/-- The vectors of channel `c` after the registration loop has run over
`hits`, when every access of the loop is defined. -/
def channelClusters (c : Nat) (hits : List TempHit) : Clusters :=
  (channelHits c hits).foldl Clusters.register Clusters.placeholder

/-- An event of three hits on channel 10 at times 0, 20 and 40: each is less
than 30 after the one before, the last is 40 after the first. -/
def walkingPoints : List TempHit :=
  [⟨10, 0.5, 0, 1⟩, ⟨10, 0.3, 20, 2⟩, ⟨10, 0.2, 40, 3⟩]

/-- The number of clusters channel `c` holds in the storage the registration
loop has produced (0 when the loop has met undefined behaviour). -/
def clusterCount (s : Option Storage) (c : Nat) : Nat :=
  match s with
  | some s => (s.time[c]?.getD []).length
  | none => 0

/-- The three vectors of channel `c` read from the storage the registration
loop has produced. -/
def Storage.channel (s : Storage) (c : Nat) : Option Clusters :=
  match s.energy[c]?, s.time[c]?, s.y[c]? with
  | some energy, some time, some y => some { energy := energy, time := time, y := y }
  | _, _, _ => none

/-- Every entry of the channel's energy vector is 0 or exceeds 1e-7. -/
def Clusters.Clean (cl : Clusters) : Prop :=
  ∀ e ∈ cl.energy, e = 0 ∨ e > 0.0000001

/-- The entries of a list of energies that the emission loop lets pass. -/
def passing (es : List ℚ) : List ℚ :=
  es.filter (fun e => decide (e > 0.0000001))

end R3BFiberDigitizer

namespace IEEE754

/-- The rounding of an exact result to `double` (IEEE 754 binary64, 53-bit
significand, least normal exponent -1022, round to nearest, ties to even),
for magnitudes below the overflow threshold. -/
def binary64 (q : ℚ) : ℚ :=
  if q = 0 then 0
  else
    let e := max (R3BFiberDigitizer.ilog2 q) (-1022)
    let ulp : ℚ := 2 ^ (e - 52)
    R3BFiberDigitizer.roundHalfEven (q / ulp) * ulp

end IEEE754

namespace R3B.Digitizing.Neuland.Tamex

/-! ## The width-bearing peak in double arithmetic

The three operations of `Peak` whose rounded results are compared again by
`Peak::operator==`, with the rounding `fl` of each arithmetic result explicit:
`fl` is `IEEE754.binary64` for the compiled code and the identity for exact
arithmetic, where they are `Peak.ofPMTPeak`, `Peak.overlaps` and
`Peak.plusEq`. -/

/-- The constructor `Peak::Peak(const PMTPeak&, Channel*)` for a bound channel,
the sum `fLETime + fWidth` rounded by `fl`. -/
def Peak.ofPMTPeakRounded (fl : ℚ → ℚ) (cal : Calibration) (par : Params)
    (pmtPeak : PMTPeak) : Peak :=
  let fWidth := cal.QdcToWidth pmtPeak.fQdc par
  { fQdc := pmtPeak.fQdc
    fLETime := pmtPeak.fLETime
    fWidth := fWidth
    fTETime := fl (pmtPeak.fLETime + fWidth) }

/-- The overlap predicate `Peak::operator==`, the two sums
`fLETime + fWidth` rounded by `fl`. -/
def Peak.overlapsRounded (fl : ℚ → ℚ) (self sig : Peak) : Bool :=
  decide (self.fLETime ≤ fl (sig.fLETime + sig.fWidth)) &&
    decide (sig.fLETime ≤ fl (self.fLETime + self.fWidth))

/-- The operator `Peak::operator+=` for a bound channel, the difference
`fTETime - fLETime` rounded by `fl`. -/
def Peak.plusEqRounded (fl : ℚ → ℚ) (cal : Calibration) (par : Params)
    (self sig : Peak) : Peak :=
  let fLETime := if self.fLETime < sig.fLETime then self.fLETime else sig.fLETime
  let fTETime := if self.fTETime > sig.fTETime then self.fTETime else sig.fTETime
  let fWidth := fl (fTETime - fLETime)
  { fQdc := cal.WidthToQdc fWidth par
    fLETime := fLETime
    fWidth := fWidth
    fTETime := fTETime }

/-- The instance of `PeakPilingUp` at `Peak` in the arithmetic rounded by
`fl`. -/
def PeakPilingUpRounded (fl : ℚ → ℚ) (cal : Calibration) (par : Params)
    (peaks : List Peak) : List Peak :=
  PeakPilingUp (Peak.overlapsRounded fl) (Peak.plusEqRounded fl cal par) peaks

/-- What the pass keeps true of a pulse `p` of its output, for the input
`peaks`: the leading time is unchanged by the rounding, the width is not
negative, the leading time and the trailing time are those of input pulses,
and either the trailing time is the rounded sum of leading time and width (an
input pulse) or the width is the rounded difference of trailing and leading
time (a merged pulse). -/
def Peak.Piled (fl : ℚ → ℚ) (peaks : List Peak) (p : Peak) : Prop :=
  fl p.fLETime = p.fLETime ∧ 0 ≤ p.fWidth ∧
  (∃ c ∈ peaks, p.fLETime = c.fLETime) ∧ (∃ b ∈ peaks, p.fTETime = b.fTETime) ∧
  (p.fTETime = fl (p.fLETime + p.fWidth) ∨ p.fWidth = fl (p.fTETime - p.fLETime))

/-- The pulse from the `double` nearest `le` to the `double` nearest `te`,
with the exact difference of the two as width and as amplitude. -/
def doublePulse (le te : ℚ) : Peak :=
  { fQdc := IEEE754.binary64 te - IEEE754.binary64 le
    fLETime := IEEE754.binary64 le
    fWidth := IEEE754.binary64 te - IEEE754.binary64 le
    fTETime := IEEE754.binary64 te }

/-- Three pulses sorted by leading and by trailing time; the third begins one
unit in the last place after the second ends. -/
def adjoiningPulses : List Peak :=
  [doublePulse 0.7 1.3, doublePulse 1.1 2.9, doublePulse 2.9000000000000004 5.800000000000001]

/-- Three pulses sorted by leading and by trailing time; the first two
overlap, the third begins well after the second ends. -/
def separatedPulses : List Peak :=
  [doublePulse 0.7 1.3, doublePulse 1.1 2.9, doublePulse 3.1 5.8]

/-- Three pulses sorted by leading time, each beginning where the one before
ends. -/
def ascendingChain : List Peak :=
  [doublePulse 0.8 1.1, doublePulse 1.1 3.9, doublePulse 3.9 4.3]

/-- Three pulses, not sorted by time, each meeting the next: the first begins
where the second ends, the second begins where the third ends. -/
def descendingChain : List Peak :=
  [doublePulse 3.9 4.3, doublePulse 1.1 3.9, doublePulse 0.8 1.1]

/-! ## The guards for a peak that is not bound to a channel -/

/-- The text of the fatal log of `Peak::Peak` and `Peak::operator+=`. -/
def PeakObject.unboundError : String :=
  "channel is not bound to FQTPeak object!"

/-- A `Peak` object in full: the numeric fields and the pointer `fChannel`,
`none` for `nullptr` and otherwise represented by the parameter set of the
channel it points to. -/
structure PeakObject where
  fields : Peak
  fChannel : Option Params
deriving DecidableEq, Repr

/-- The constructor `Peak::Peak(const PMTPeak&, Channel*)` with its guard:
for a null channel pointer the fatal log (past which the constructor would
read the parameters through the null pointer), otherwise the peak bound to
the channel. -/
def PeakObject.ofPMTPeak (cal : Calibration) (pmtPeak : PMTPeak) (channel : Option Params) :
    Except String PeakObject :=
  match channel with
  | none => Except.error PeakObject.unboundError
  | some par => Except.ok { fields := Peak.ofPMTPeak cal par pmtPeak, fChannel := some par }

/-- The overlap predicate `Peak::operator==`, which does not read the
pointer. -/
def PeakObject.overlaps (self sig : PeakObject) : Bool :=
  self.fields.overlaps sig.fields

/-- The operator `Peak::operator+=` with its guard: for a null `fChannel` the
fatal log (past which the operator would read the parameters through the null
pointer), otherwise the accumulation, which leaves the pointer as it is. -/
def PeakObject.plusEq (cal : Calibration) (self sig : PeakObject) : Except String PeakObject :=
  match self.fChannel with
  | none => Except.error PeakObject.unboundError
  | some par =>
    Except.ok { fields := Peak.plusEq cal par self.fields sig.fields, fChannel := some par }

end R3B.Digitizing.Neuland.Tamex

namespace R3BFiberDigitizer

/-! ## The registration loop in double arithmetic

The registration loop with the rounding `fl` of its two arithmetic results
explicit, the difference `Hit.Time - time[fiberID].back()` that is compared
with the gate and the sum `energy[fiberID].back() + Hit.Energy`: `fl` is
`IEEE754.binary64` for the compiled code and the identity for exact
arithmetic, where the loop is `registerHits`. -/

/-- One iteration of the registration loop, the difference of the times and
the sum of the energies rounded by `fl`. -/
def registerHitRounded (fl : ℚ → ℚ) (s : Storage) (Hit : TempHit) : Option Storage :=
  if Hit.Energy < 0.0000001 then some s
  else if Hit.fiberID < 0 then none
  else
    let fiberID := Hit.fiberID.toNat
    do
      let tback ← getBack s.time fiberID
      if fl (Hit.Time - tback) < 30 then
        let eback ← getBack s.energy fiberID
        let energy ← setBack s.energy fiberID (fl (eback + Hit.Energy))
        let yback ← getBack s.y fiberID
        let y ← setBack s.y fiberID (if tback > Hit.Time then Hit.Y else yback)
        let time ← setBack s.time fiberID (if tback > Hit.Time then Hit.Time else tback)
        pure { energy := energy, time := time, y := y }
      else
        let energy ← pushBack s.energy fiberID Hit.Energy
        let time ← pushBack s.time fiberID Hit.Time
        let y ← pushBack s.y fiberID Hit.Y
        pure { energy := energy, time := time, y := y }

/-- The registration loop over the time-ordered hits, in the arithmetic
rounded by `fl`. -/
def registerHitsRounded (fl : ℚ → ℚ) : Storage → List TempHit → Option Storage
  | s, [] => some s
  | s, Hit :: rest =>
    match registerHitRounded fl s Hit with
    | some s1 => registerHitsRounded fl s1 rest
    | none => none

/-- The body of the registration loop in the arithmetic rounded by `fl`, for
a hit that passes the energy test, on the vectors of the hit's own channel
when none of them is empty. -/
def Clusters.registerRounded (fl : ℚ → ℚ) (cl : Clusters) (Hit : TempHit) : Clusters :=
  let tback := cl.time.getLastD 0
  if fl (Hit.Time - tback) < 30 then
    { energy := cl.energy.dropLast ++ [fl (cl.energy.getLastD 0 + Hit.Energy)]
      time := cl.time.dropLast ++ [if tback > Hit.Time then Hit.Time else tback]
      y := cl.y.dropLast ++ [if tback > Hit.Time then Hit.Y else cl.y.getLastD 0] }
  else
    { energy := cl.energy ++ [Hit.Energy]
      time := cl.time ++ [Hit.Time]
      y := cl.y ++ [Hit.Y] }

/-- The effect of one iteration of the registration loop in the arithmetic
rounded by `fl` on the vectors of channel `c`. -/
def Clusters.stepRounded (fl : ℚ → ℚ) (c : Nat) (cl : Clusters) (Hit : TempHit) : Clusters :=
  if Hit.Energy < 0.0000001 ∨ Hit.fiberID ≠ c then cl else cl.registerRounded fl Hit

/-- Two hits on channel 10 at the `double` nearest 0.2 and the `double`
nearest 30.2. -/
def edgePoints : List TempHit :=
  [⟨10, 0.5, IEEE754.binary64 0.2, 1⟩, ⟨10, 0.3, IEEE754.binary64 30.2, 2⟩]

/-! ## The results `std::sort` may give -/

/-- What the language guarantees of the vector `sorted` that the call of
`std::sort` with the comparator `lhs.Time < rhs.Time` leaves for the hits
`TempHits`: it is a rearrangement of them in which no hit comes before a hit
of smaller time.  The order of hits of equal time is unspecified. -/
def SortedArrangement (TempHits sorted : List TempHit) : Prop :=
  sorted.Perm TempHits ∧ sorted.Sorted (fun lhs rhs => lhs.Time ≤ rhs.Time)

end R3BFiberDigitizer

/-! # Properties of the Tamex channel -/

namespace R3B.Digitizing.Neuland.Tamex

theorem loop_append {α : Type} (eq : α → α → Bool) (plusEq : α → α → α) (L : List α) :
    ∀ (c : α) (rest : List α),
      PeakPilingUp.loop eq plusEq L.length (L ++ c :: rest)
        = L.foldr (pileStep eq plusEq) (c :: rest) := by
  induction L using List.reverseRecOn with
  | nil => intro c rest; simp [PeakPilingUp.loop]
  | append_singleton L p ih =>
    intro c rest
    have h1 : (L ++ [p] ++ c :: rest)[L.length + 1]? = some c := by
      rw [List.append_assoc, List.getElem?_append_right (by omega)]
      simp
    have h0 : (L ++ [p] ++ c :: rest)[L.length]? = some p := by
      rw [List.append_assoc, List.getElem?_append_right (by omega)]
      simp
    have hlen : (L ++ [p]).length = L.length + 1 := by simp
    rw [hlen, PeakPilingUp.loop, h1, h0]
    simp only [List.foldr_append, List.foldr_cons, List.foldr_nil, pileStep]
    have hset : ((L ++ [p] ++ c :: rest).set L.length (plusEq p c)).eraseIdx (L.length + 1)
        = L ++ plusEq p c :: rest := by
      simp [List.set_append_right, List.eraseIdx_append_of_length_le]
    by_cases h : eq c p = true
    · simp only [h, if_true, hset]
      exact ih _ _
    · simp only [h, if_false]
      rw [List.append_assoc]
      exact ih _ _

theorem PeakPilingUp_eq_foldr {α : Type} (eq : α → α → Bool) (plusEq : α → α → α)
    (peaks : List α) :
    PeakPilingUp eq plusEq peaks = peaks.foldr (pileStep eq plusEq) [] := by
  induction peaks using List.reverseRecOn with
  | nil => simp [PeakPilingUp]
  | append_singleton L c _ =>
    have := loop_append eq plusEq L c []
    simp [PeakPilingUp, this, pileStep]

theorem Peak.overlaps_comm (a b : Peak) : a.overlaps b = b.overlaps a := by
  simp only [Peak.overlaps]
  exact Bool.and_comm _ _

theorem foldr_pileStep_fixed {α : Type} (eq : α → α → Bool) (plusEq : α → α → α) :
    ∀ l : List α, l.Chain' (fun a b => eq b a = false) →
      l.foldr (pileStep eq plusEq) [] = l
  | [], _ => rfl
  | [x], _ => rfl
  | x :: y :: ys, h => by
    have ih := foldr_pileStep_fixed eq plusEq (y :: ys) (List.Chain'.tail h)
    have hxy : eq y x = false := (List.chain'_cons.mp h).1
    rw [List.foldr_cons, ih]
    simp [pileStep, hxy]

theorem PeakPilingUpFQT_eq_foldr (cal : Calibration) (par : Params) (peaks : List Peak) :
    PeakPilingUpFQT cal par peaks
      = peaks.foldr (pileStep Peak.overlaps (Peak.plusEq cal par)) [] :=
  PeakPilingUp_eq_foldr _ _ _

theorem PeakPilingUpFQT_nestedPulses (cal : Calibration) (par : Params) :
    PeakPilingUpFQT cal par nestedPulses
      = [⟨cal.WidthToQdc 100 par, 0, 100, 100⟩, ⟨10, 50, 10, 60⟩] := by
  rw [PeakPilingUpFQT_eq_foldr]
  norm_num [nestedPulses, pileStep, Peak.overlaps, Peak.plusEq]

/-- C1, counterexample: `nestedPulses` is sorted by leading-edge time, and
whatever the calibration the output of `PeakPilingUp` on it consists of two
adjacent pulses that satisfy the overlap predicate; the times are integers,
and the same holds in `double` arithmetic. -/
theorem PeakPilingUp_adjacent_overlap_counterexample :
    nestedPulses.Sorted (fun a b => a.fLETime ≤ b.fLETime) ∧
    (∀ p ∈ nestedPulses, p.fTETime = p.fLETime + p.fWidth) ∧
    (¬ ∃ (cal : Calibration) (par : Params),
        (PeakPilingUpFQT cal par nestedPulses).Chain' (fun a b => a.overlaps b = false)) ∧
    List.zipWith (fun a b => Peak.overlapsRounded IEEE754.binary64 a b)
        (PeakPilingUpRounded IEEE754.binary64 Calibration.unit Params.sample nestedPulses)
        (PeakPilingUpRounded IEEE754.binary64 Calibration.unit Params.sample nestedPulses).tail
      = [true] := by
  refine ⟨by decide!, by decide!, ?_, by decide!⟩
  rintro ⟨cal, par, h⟩
  rw [PeakPilingUpFQT_nestedPulses] at h
  revert h
  norm_num [Peak.overlaps]

theorem foldr_pileStep_mem (cal : Calibration) (par : Params) :
    ∀ peaks : List Peak,
      ∀ p ∈ peaks.foldr (pileStep Peak.overlaps (Peak.plusEq cal par)) [],
        p ∈ peaks ∨ p.fQdc = cal.WidthToQdc p.fWidth par
  | [], p, hp => by simp at hp
  | x :: xs, p, hp => by
    have ih := foldr_pileStep_mem cal par xs
    rw [List.foldr_cons] at hp
    generalize List.foldr (pileStep Peak.overlaps (Peak.plusEq cal par)) [] xs = out at *
    cases out with
    | nil =>
      simp only [pileStep, List.mem_singleton] at hp
      exact Or.inl (hp ▸ List.mem_cons_self _ _)
    | cons y ys =>
      by_cases hov : Peak.overlaps y x = true
      · simp only [pileStep, hov, if_true] at hp
        rcases List.mem_cons.mp hp with rfl | hp
        · exact Or.inr rfl
        · exact (ih p (List.mem_cons_of_mem _ hp)).imp (List.mem_cons_of_mem _) id
      · have hov2 : Peak.overlaps y x = false := by simpa using hov
        simp only [pileStep, hov2, Bool.false_eq_true, if_false] at hp
        rcases List.mem_cons.mp hp with rfl | hp
        · exact Or.inl (List.mem_cons_self _ _)
        · exact (ih p hp).imp (List.mem_cons_of_mem _) id

theorem PeakPilingUpFQT_twinPulses (cal : Calibration) (par : Params) (q : ℚ) :
    PeakPilingUpFQT cal par (twinPulses q) = [⟨cal.WidthToQdc 20 par, 10, 20, 30⟩] := by
  rw [PeakPilingUpFQT_eq_foldr]
  norm_num [twinPulses, pileStep, Peak.overlaps, Peak.plusEq]

/-- C2 (amended): every pulse in the output of `PeakPilingUp` either is one of
the input pulses, unchanged, or is the result of a merge and has the amplitude
`WidthToQdc` gives to its width; and when no two neighbouring input pulses
satisfy the overlap predicate the output is the input, so the sum of the
amplitudes is the same. -/
theorem PeakPilingUp_amplitude (cal : Calibration) (par : Params) (peaks : List Peak) :
    (∀ p ∈ PeakPilingUpFQT cal par peaks,
        p ∈ peaks ∨ p.fQdc = cal.WidthToQdc p.fWidth par) ∧
    (peaks.Chain' (fun a b => b.overlaps a = false) →
        PeakPilingUpFQT cal par peaks = peaks ∧
        totalQdc (PeakPilingUpFQT cal par peaks) = totalQdc peaks) := by
  rw [PeakPilingUpFQT_eq_foldr]
  refine ⟨foldr_pileStep_mem cal par peaks, fun h => ?_⟩
  rw [foldr_pileStep_fixed _ _ peaks h]
  exact ⟨rfl, rfl⟩

/-- C2, counterexample: no calibration makes `PeakPilingUp` keep the sum of
the amplitudes on both `twinPulses 1` and `twinPulses 2`: the two coincident
pulses are merged into one of amplitude `WidthToQdc 20`, which cannot equal
both 2 and 4. -/
theorem PeakPilingUp_amplitude_sum_counterexample :
    ¬ ∃ (cal : Calibration) (par : Params),
        totalQdc (PeakPilingUpFQT cal par (twinPulses 1)) = totalQdc (twinPulses 1) ∧
        totalQdc (PeakPilingUpFQT cal par (twinPulses 2)) = totalQdc (twinPulses 2) := by
  rintro ⟨cal, par, h1, h2⟩
  rw [PeakPilingUpFQT_twinPulses] at h1 h2
  norm_num [totalQdc, twinPulses] at h1 h2
  rw [h1] at h2
  norm_num at h2

/-- C3, counterexample: `nestedPulses` is sorted by leading-edge time, and
whatever the calibration a second `PeakPilingUp` changes the output of the
first: the first pass leaves two pulses, the second merges them into one; the
times are integers, and the same holds in `double` arithmetic. -/
theorem PeakPilingUp_not_idempotent_counterexample :
    nestedPulses.Sorted (fun a b => a.fLETime ≤ b.fLETime) ∧
    (¬ ∃ (cal : Calibration) (par : Params),
        PeakPilingUpFQT cal par (PeakPilingUpFQT cal par nestedPulses)
          = PeakPilingUpFQT cal par nestedPulses) ∧
    (PeakPilingUpRounded IEEE754.binary64 Calibration.unit Params.sample nestedPulses).length
      = 2 ∧
    (PeakPilingUpRounded IEEE754.binary64 Calibration.unit Params.sample
      (PeakPilingUpRounded IEEE754.binary64 Calibration.unit Params.sample
        nestedPulses)).length = 1 := by
  refine ⟨by decide!, ?_, by decide!, by decide!⟩
  rintro ⟨cal, par, h⟩
  have hlen := congrArg List.length h
  rw [PeakPilingUpFQT_nestedPulses, PeakPilingUpFQT_eq_foldr] at hlen
  revert hlen
  norm_num [pileStep, Peak.overlaps, Peak.plusEq]

theorem remove_if_eq_filter {α : Type} (pred : α → Bool) :
    ∀ (peaks kept : List α),
      ApplyThreshold.remove_if pred kept peaks = kept ++ peaks.filter (fun p => !pred p)
  | [], kept => by simp [ApplyThreshold.remove_if]
  | p :: rest, kept => by
    by_cases h : pred p = true
    · simp [ApplyThreshold.remove_if, h, remove_if_eq_filter pred rest]
    · simp [ApplyThreshold.remove_if, h, remove_if_eq_filter pred rest]

theorem ApplyThreshold_eq_filter {α : Type} (GetQDC : α → ℚ) (par : Params) (peaks : List α) :
    ApplyThreshold GetQDC par peaks
      = peaks.filter (fun p => decide (par.fPMTThresh ≤ GetQDC p)) := by
  rw [ApplyThreshold, remove_if_eq_filter, List.nil_append]
  congr 1
  funext p
  by_cases h : GetQDC p < par.fPMTThresh
  · simp [h, not_le.mpr h]
  · simp [h, not_lt.mp h]

/-- C9: `ApplyThreshold` removes exactly the peaks whose amplitude is strictly
below `fPMTThresh`: its result is the subsequence of the peaks with amplitude
at least the threshold, in their original order; in particular a peak whose
amplitude equals the threshold is kept. -/
theorem ApplyThreshold_keeps_exactly {α : Type} (GetQDC : α → ℚ) (par : Params)
    (peaks : List α) :
    ApplyThreshold GetQDC par peaks
        = peaks.filter (fun p => decide (par.fPMTThresh ≤ GetQDC p)) ∧
    (ApplyThreshold GetQDC par peaks).Sublist peaks ∧
    (∀ p, p ∈ ApplyThreshold GetQDC par peaks ↔ p ∈ peaks ∧ ¬ GetQDC p < par.fPMTThresh) ∧
    (∀ p ∈ peaks, GetQDC p = par.fPMTThresh → p ∈ ApplyThreshold GetQDC par peaks) := by
  rw [ApplyThreshold_eq_filter]
  refine ⟨rfl, List.filter_sublist _, ?_, ?_⟩
  · intro p
    simp [List.mem_filter]
  · intro p hp h
    simp [List.mem_filter, hp, h]

/-- C10: `AddHit` returns the channel state unchanged (peak list, validity of
the cached signals and of the trigger time, and all the rest) exactly when the
hit time is `< fTimeMin` or `> fTimeMax`; the model has no failing path.  The
comparisons are strict: for a window with `fTimeMin ≤ fTimeMax`, a hit whose
time equals `fTimeMin` or `fTimeMax` is appended as a new PMT-level peak. -/
theorem AddHit_ignores_outside_window (ch : Channel) (newHit : Hit) :
    ((newHit.time < ch.par_.fTimeMin ∨ newHit.time > ch.par_.fTimeMax) →
        ch.AddHit newHit = ch) ∧
    (ch.AddHit newHit = ch ↔
        (newHit.time < ch.par_.fTimeMin ∨ newHit.time > ch.par_.fTimeMax)) ∧
    (ch.par_.fTimeMin ≤ ch.par_.fTimeMax →
      (newHit.time = ch.par_.fTimeMin ∨ newHit.time = ch.par_.fTimeMax) →
        ch.AddHit newHit ≠ ch ∧
        (ch.AddHit newHit).fPMTPeaks = ch.fPMTPeaks ++ [PMTPeak.ofHit newHit ch.par_]) := by
  have hout : (newHit.time < ch.par_.fTimeMin ∨ newHit.time > ch.par_.fTimeMax) →
      ch.AddHit newHit = ch := by
    intro h
    simp [Channel.AddHit, h]
  have hin : ¬ (newHit.time < ch.par_.fTimeMin ∨ newHit.time > ch.par_.fTimeMax) →
      ch.AddHit newHit ≠ ch ∧
      (ch.AddHit newHit).fPMTPeaks = ch.fPMTPeaks ++ [PMTPeak.ofHit newHit ch.par_] := by
    intro h
    have hp : (ch.AddHit newHit).fPMTPeaks = ch.fPMTPeaks ++ [PMTPeak.ofHit newHit ch.par_] := by
      simp [Channel.AddHit, h, Channel.InvalidateSignals, Channel.InvalidateTrigTime]
    refine ⟨fun heq => ?_, hp⟩
    rw [heq] at hp
    have := congrArg List.length hp
    simp at this
  refine ⟨hout, ⟨fun heq => ?_, hout⟩, fun hw hb => hin ?_⟩
  · by_contra h
    exact (hin h).1 heq
  · rcases hb with hb | hb
    · rw [hb]
      exact fun h => h.elim (lt_irrefl _) (fun h2 => absurd hw (not_le.mpr h2))
    · rw [hb]
      exact fun h => h.elim (fun h1 => absurd hw (not_le.mpr h1)) (lt_irrefl _)

theorem ConstructFQTPeaks_fst_thresh (cal : Calibration) (par : Params)
    (pmtPeaks : List PMTPeak) :
    ∀ p ∈ (ConstructFQTPeaks cal par pmtPeaks).1, par.fPMTThresh ≤ p.fQdc := by
  intro p hp
  simp only [ConstructFQTPeaks, ApplyThreshold_eq_filter, List.mem_filter,
    decide_eq_true_eq] at hp
  exact hp.2

/-- C4 (amended): every PMT-level peak that `ConstructFQTPeaks` keeps, and
every FQT pulse it builds from one, has amplitude not below `fPMTThresh`. -/
theorem ConstructFQTPeaks_above_threshold (cal : Calibration) (par : Params)
    (pmtPeaks : List PMTPeak) :
    (∀ p ∈ (ConstructFQTPeaks cal par pmtPeaks).1, par.fPMTThresh ≤ p.fQdc) ∧
    (∀ p ∈ (ConstructFQTPeaks cal par pmtPeaks).2, par.fPMTThresh ≤ p.fQdc) := by
  refine ⟨ConstructFQTPeaks_fst_thresh cal par pmtPeaks, ?_⟩
  intro p hp
  have h1 := ConstructFQTPeaks_fst_thresh cal par pmtPeaks
  simp only [ConstructFQTPeaks, List.mem_map] at hp h1
  obtain ⟨q, hq, rfl⟩ := hp
  exact h1 q hq

/-- C4, counterexample: a channel with threshold 1 and relative energy
resolution 1/2 that has received one hit of light 1 at time 10, inside its time
window, returns, when the amplitude deviate drawn is -1, one signal of `qdc`
1/2, below the threshold, whatever the calibration. -/
theorem ConstructSignals_below_threshold_counterexample :
    (∀ cal : Calibration,
      ((Channel.ConstructSignals cal ((Channel.new ChannelSide.left Params.sample).AddHit ⟨10, 1⟩)
          (TRandom3.constant (-1))).1.map Signal.qdc) = [1 / 2]) ∧
    (1 / 2 : ℚ) < Params.sample.fPMTThresh := by
  refine ⟨fun cal => ?_, by norm_num [Params.sample]⟩
  norm_num [Channel.ConstructSignals, Channel.new, Channel.AddHit, Params.sample,
    Channel.InvalidateSignals, Channel.InvalidateTrigTime, PMTPeak.ofHit, ConstructFQTPeaks,
    sortPMTPeaks, PeakPilingUp, PeakPilingUp.loop, ApplyThreshold, ApplyThreshold.remove_if,
    PeakPilingUpFQT, Peak.ofPMTPeak, createSignals, CreateSignal, ToQdc, ToTdc, ToUnSatQdc,
    TRandom3.Gaus, TRandom3.constant]

end R3B.Digitizing.Neuland.Tamex

/-! # Properties of the fiber digitizer -/

namespace R3BFiberDigitizer

theorem getBack_map (f : Clusters → List ℚ) (cs : List Clusters) (i : Nat) (cl : Clusters)
    (hcs : cs[i]? = some cl) (hne : f cl ≠ []) :
    getBack (cs.map f) i = some ((f cl).getLastD 0) := by
  simp only [getBack, List.getElem?_map, hcs, Option.map_some']
  cases h : f cl with
  | nil => exact absurd h hne
  | cons a l => simp [List.getLast?_eq_getLast, List.getLastD]

theorem setBack_map (f : Clusters → List ℚ) (cs : List Clusters) (i : Nat) (cl cl1 : Clusters)
    (x : ℚ) (hcs : cs[i]? = some cl) (hne : f cl ≠ []) (h1 : f cl1 = (f cl).dropLast ++ [x]) :
    setBack (cs.map f) i x = some ((cs.set i cl1).map f) := by
  simp only [setBack, List.getElem?_map, hcs, Option.map_some']
  cases h : f cl with
  | nil => exact absurd h hne
  | cons a l => simp [List.map_set, h1, h]

theorem pushBack_map (f : Clusters → List ℚ) (cs : List Clusters) (i : Nat) (cl cl1 : Clusters)
    (x : ℚ) (hcs : cs[i]? = some cl) (h1 : f cl1 = f cl ++ [x]) :
    pushBack (cs.map f) i x = some ((cs.set i cl1).map f) := by
  simp [pushBack, List.getElem?_map, hcs, List.map_set, h1]

theorem registerHit_ofClusters (cs : List Clusters) (Hit : TempHit) (i : Nat) (cl : Clusters)
    (hE : ¬ Hit.Energy < 0.0000001) (hid : Hit.fiberID = i) (hcs : cs[i]? = some cl)
    (hne : cl.Nonempty) :
    registerHit (Storage.ofClusters cs) Hit
      = some (Storage.ofClusters (cs.set i (cl.register Hit))) := by
  obtain ⟨hne1, hne2, hne3⟩ := hne
  have hnat : Hit.fiberID.toNat = i := by rw [hid]; simp
  have hneg : ¬ Hit.fiberID < 0 := by rw [hid]; simp
  simp only [registerHit, if_neg hE, if_neg hneg, hnat, Storage.ofClusters]
  rw [getBack_map Clusters.time cs i cl hcs hne2]
  simp only [Option.bind_eq_bind, Option.some_bind]
  by_cases hg : Hit.Time - cl.time.getLastD 0 < 30
  · simp only [if_pos hg, Clusters.register]
    rw [getBack_map Clusters.energy cs i cl hcs hne1, getBack_map Clusters.y cs i cl hcs hne3]
    simp only [Option.some_bind]
    rw [setBack_map Clusters.energy cs i cl
        { energy := cl.energy.dropLast ++ [cl.energy.getLastD 0 + Hit.Energy]
          time := cl.time.dropLast ++
            [if cl.time.getLastD 0 > Hit.Time then Hit.Time else cl.time.getLastD 0]
          y := cl.y.dropLast ++
            [if cl.time.getLastD 0 > Hit.Time then Hit.Y else cl.y.getLastD 0] } _ hcs hne1 rfl,
      setBack_map Clusters.y cs i cl
        { energy := cl.energy.dropLast ++ [cl.energy.getLastD 0 + Hit.Energy]
          time := cl.time.dropLast ++
            [if cl.time.getLastD 0 > Hit.Time then Hit.Time else cl.time.getLastD 0]
          y := cl.y.dropLast ++
            [if cl.time.getLastD 0 > Hit.Time then Hit.Y else cl.y.getLastD 0] } _ hcs hne3 rfl,
      setBack_map Clusters.time cs i cl
        { energy := cl.energy.dropLast ++ [cl.energy.getLastD 0 + Hit.Energy]
          time := cl.time.dropLast ++
            [if cl.time.getLastD 0 > Hit.Time then Hit.Time else cl.time.getLastD 0]
          y := cl.y.dropLast ++
            [if cl.time.getLastD 0 > Hit.Time then Hit.Y else cl.y.getLastD 0] } _ hcs hne2 rfl]
    rfl
  · simp only [if_neg hg, Clusters.register]
    rw [pushBack_map Clusters.energy cs i cl
        { energy := cl.energy ++ [Hit.Energy], time := cl.time ++ [Hit.Time],
          y := cl.y ++ [Hit.Y] } _ hcs rfl,
      pushBack_map Clusters.time cs i cl
        { energy := cl.energy ++ [Hit.Energy], time := cl.time ++ [Hit.Time],
          y := cl.y ++ [Hit.Y] } _ hcs rfl,
      pushBack_map Clusters.y cs i cl
        { energy := cl.energy ++ [Hit.Energy], time := cl.time ++ [Hit.Time],
          y := cl.y ++ [Hit.Y] } _ hcs rfl]
    rfl

theorem Clusters.register_nonempty (cl : Clusters) (Hit : TempHit) :
    (cl.register Hit).Nonempty := by
  simp only [Clusters.register, Clusters.Nonempty]
  split_ifs <;> simp

theorem Clusters.step_nonempty (c : Nat) (cl : Clusters) (Hit : TempHit) (h : cl.Nonempty) :
    (Clusters.step c cl Hit).Nonempty := by
  unfold Clusters.step
  split_ifs
  · exact h
  · exact Clusters.register_nonempty cl Hit

theorem registerHit_step (cs : List Clusters) (Hit : TempHit)
    (hr : 0 ≤ Hit.fiberID ∧ Hit.fiberID < cs.length) (hne : ∀ cl ∈ cs, cl.Nonempty) :
    ∃ cs1, registerHit (Storage.ofClusters cs) Hit = some (Storage.ofClusters cs1) ∧
      cs1.length = cs.length ∧
      ∀ c, cs1[c]? = (cs[c]?).map (fun cl => Clusters.step c cl Hit) := by
  by_cases hE : Hit.Energy < 0.0000001
  · refine ⟨cs, by simp [registerHit, hE], rfl, fun c => ?_⟩
    simp [Clusters.step, hE]
  · have hi : Hit.fiberID.toNat < cs.length := by omega
    have hid : Hit.fiberID = (Hit.fiberID.toNat : ℤ) := (Int.toNat_of_nonneg hr.1).symm
    have hcs : cs[Hit.fiberID.toNat]? = some cs[Hit.fiberID.toNat] :=
      List.getElem?_eq_getElem hi
    refine ⟨cs.set Hit.fiberID.toNat (cs[Hit.fiberID.toNat].register Hit),
      registerHit_ofClusters cs Hit _ _ hE hid hcs (hne _ (List.getElem_mem _)),
      List.length_set _ _ _, fun c => ?_⟩
    rw [List.getElem?_set]
    by_cases hc : Hit.fiberID.toNat = c
    · subst hc
      simp [hi, Clusters.step, hE, ← hid]
    · have hc2 : Hit.fiberID ≠ (c : ℤ) := by
        intro h
        apply hc
        rw [h]
        simp
      rw [if_neg hc]
      cases cs[c]? with
      | none => rfl
      | some cl => simp [Clusters.step, hc2]

theorem registerHits_channels :
    ∀ (hits : List TempHit) (cs : List Clusters),
      (∀ h ∈ hits, 0 ≤ h.fiberID ∧ h.fiberID < cs.length) → (∀ cl ∈ cs, cl.Nonempty) →
      ∃ cs1, registerHits (Storage.ofClusters cs) hits = some (Storage.ofClusters cs1) ∧
        cs1.length = cs.length ∧
        ∀ c, cs1[c]? = (cs[c]?).map (fun cl => hits.foldl (Clusters.step c) cl)
  | [], cs, _, _ => ⟨cs, rfl, rfl, fun c => by simp⟩
  | Hit :: rest, cs, hr, hne => by
    obtain ⟨cs1, h1, hlen1, hch1⟩ :=
      registerHit_step cs Hit (hr Hit (List.mem_cons_self _ _)) hne
    have hne1 : ∀ cl ∈ cs1, cl.Nonempty := by
      intro cl hcl
      obtain ⟨c, hc⟩ := List.mem_iff_getElem?.mp hcl
      rw [hch1 c] at hc
      cases hcc : cs[c]? with
      | none => rw [hcc] at hc; simp at hc
      | some cl0 =>
        rw [hcc] at hc
        simp only [Option.map_some', Option.some.injEq] at hc
        rw [← hc]
        exact Clusters.step_nonempty c cl0 Hit (hne cl0 (List.mem_iff_getElem?.mpr ⟨c, hcc⟩))
    obtain ⟨cs2, h2, hlen2, hch2⟩ := registerHits_channels rest cs1
      (fun h hh => by rw [hlen1]; exact hr h (List.mem_cons_of_mem _ hh)) hne1
    refine ⟨cs2, by simp [registerHits, h1, h2], hlen2.trans hlen1, fun c => ?_⟩
    rw [hch2 c, hch1 c]
    cases cs[c]? <;> simp

theorem foldl_step_eq_filter (c : Nat) :
    ∀ (hits : List TempHit) (cl : Clusters),
      hits.foldl (Clusters.step c) cl
        = (hits.filter (fun h : TempHit =>
            decide (¬ h.Energy < 0.0000001) && decide (h.fiberID = (c : ℤ)))).foldl
            Clusters.register cl
  | [], _ => rfl
  | Hit :: rest, cl => by
    rw [List.foldl_cons, foldl_step_eq_filter c rest]
    by_cases h1 : Hit.fiberID = c
    · by_cases h2 : Hit.Energy < 0.0000001
      · simp [List.filter_cons, Clusters.step, h1, h2]
      · simp [List.filter_cons, Clusters.step, h1, h2, not_lt.mp h2]
    · simp [List.filter_cons, Clusters.step, h1]

theorem Storage.init_eq_ofClusters (NumOfFibers : Nat) :
    Storage.init NumOfFibers
      = Storage.ofClusters (List.replicate NumOfFibers Clusters.placeholder) := by
  simp [Storage.init, Storage.ofClusters, Clusters.placeholder]

theorem registerHits_init (NumOfFibers : Nat) (hits : List TempHit)
    (hr : ∀ h ∈ hits, 0 ≤ h.fiberID ∧ h.fiberID < NumOfFibers) :
    ∃ cs1, registerHits (Storage.init NumOfFibers) hits = some (Storage.ofClusters cs1) ∧
      cs1.length = NumOfFibers ∧
      ∀ c, c < NumOfFibers → cs1[c]? = some
        ((hits.filter (fun h : TempHit =>
            decide (¬ h.Energy < 0.0000001) && decide (h.fiberID = (c : ℤ)))).foldl
            Clusters.register Clusters.placeholder) := by
  obtain ⟨cs1, h1, hlen, hch⟩ := registerHits_channels hits
    (List.replicate NumOfFibers Clusters.placeholder)
    (by simpa using hr)
    (by
      intro cl hcl
      rw [List.eq_of_mem_replicate hcl]
      simp [Clusters.Nonempty, Clusters.placeholder])
  refine ⟨cs1, by rw [Storage.init_eq_ofClusters]; exact h1, by simpa using hlen, fun c hc => ?_⟩
  rw [hch c, List.getElem?_replicate, if_pos hc, Option.map_some', foldl_step_eq_filter]

theorem Clusters.register_placeholder (Hit : TempHit) (ht : Hit.Time < 99999) :
    Clusters.placeholder.register Hit
      = { energy := [Hit.Energy], time := [Hit.Time], y := [Hit.Y] } := by
  have h1 : Hit.Time - 99999 < 30 := by linarith
  simp [Clusters.register, Clusters.placeholder, List.getLastD, h1, ht]

theorem Clusters.register_single (e t y : ℚ) (Hit : TempHit) :
    ({ energy := [e], time := [t], y := [y] } : Clusters).register Hit
      = if Hit.Time - t < 30 then
          { energy := [e + Hit.Energy]
            time := [if t > Hit.Time then Hit.Time else t]
            y := [if t > Hit.Time then Hit.Y else y] }
        else { energy := [e, Hit.Energy], time := [t, Hit.Time], y := [y, Hit.Y] } := by
  simp [Clusters.register, List.getLastD]

theorem perm_pair {α : Type} [DecidableEq α] {l : List α} {a b : α} (h : l.Perm [a, b]) :
    l = [a, b] ∨ l = [b, a] := by
  have hlen := h.length_eq
  obtain ⟨x, y, rfl⟩ := List.length_eq_two.mp hlen
  have hx : x ∈ [a, b] := h.subset (List.mem_cons_self _ _)
  simp only [List.mem_cons, List.mem_singleton, List.not_mem_nil, or_false] at hx
  rcases hx with rfl | rfl
  · have := (List.perm_cons x).mp h
    rw [List.perm_singleton] at this
    left; rw [this]
  · have h2 : [x, y].Perm [x, a] := h.trans (List.Perm.swap _ _ _)
    have := (List.perm_cons x).mp h2
    rw [List.perm_singleton] at this
    right; rw [this]

/-- C6, the code at the claim's example and at the failing input.  Two hits
on channel 10 at times 100 and 105 with energies 0.5 and 0.3 give one output
hit with amplitude mean 0.8, the time and the position of the earlier hit.
Two hits on channel 10 at times 100000 and 100005 are merged into the
placeholder: the one output hit has amplitude mean 0.8 but time mean 99999 and
position mean 0, which are those of neither hit. -/
theorem Exec_merge_rule_at_placeholder :
    Exec Config.default [⟨10, 0.5, 100, 1⟩, ⟨10, 0.3, 105, 2⟩]
      = some [{ detId := 1, x := xpos Config.default 10, yMean := 1, elossMean := 0.8,
                timeMean := 100, fiberId := 10 }] ∧
    Exec Config.default [⟨10, 0.5, 100000, 1⟩, ⟨10, 0.3, 100005, 2⟩]
      = some [{ detId := 1, x := xpos Config.default 10, yMean := 0, elossMean := 0.8,
                timeMean := 99999, fiberId := 10 }] := by
  constructor <;> decide!

/-- C7 (amended): for a digitizer whose `detector_width` is
`fiber_nbr * fiber_thickness * (1 + air_layer)`, as both constructors set it,
the expression assigned to `xpos` for channel `i` equals
`-totalWidth/2 + fiberThickness/2 + i * pitch` with
`pitch = fiberThickness * (1 + airLayerFraction)` and
`totalWidth = numChannels * pitch`, and the x position emitted is that value
narrowed to `Float_t`. -/
theorem xpos_formula (cfg : Config) (i : Nat)
    (hw : cfg.detector_width = cfg.fiber_nbr * cfg.fiber_thickness * (1 + cfg.air_layer)) :
    xposExact cfg i
        = -(cfg.fiber_nbr * (cfg.fiber_thickness * (1 + cfg.air_layer))) / 2
          + cfg.fiber_thickness / 2 + i * (cfg.fiber_thickness * (1 + cfg.air_layer)) ∧
    xpos cfg i
        = toFloat32 (-(cfg.fiber_nbr * (cfg.fiber_thickness * (1 + cfg.air_layer))) / 2
          + cfg.fiber_thickness / 2 + i * (cfg.fiber_thickness * (1 + cfg.air_layer))) := by
  have h : xposExact cfg i
      = -(cfg.fiber_nbr * (cfg.fiber_thickness * (1 + cfg.air_layer))) / 2
        + cfg.fiber_thickness / 2 + i * (cfg.fiber_thickness * (1 + cfg.air_layer)) := by
    rw [xposExact, hw]
    ring
  exact ⟨h, by rw [xpos, h]⟩

/-- C7, witness: the amended formula at the constructor's values and channel
511, the last one, whose `xpos` expression has the value 25.805. -/
theorem xpos_formula_witness :
    Config.default.detector_width
        = Config.default.fiber_nbr * Config.default.fiber_thickness
          * (1 + Config.default.air_layer) ∧
    xposExact Config.default 511 = 25.805 :=
  ⟨by decide!, (xpos_formula Config.default 511 (by decide!)).1.trans (by decide!)⟩

/-- C7, counterexample: at the constructor's values the x position of channel
0 is not the value of the specification's formula, neither before nor after
the narrowing to `Float_t`: the code adds half a fiber thickness, the formula
half a pitch, and the two differ by 0.0005. -/
theorem xpos_formula_counterexample :
    specGeometricMapping 512 0.1 0.01 0 - xposExact Config.default 0 = 0.0005 ∧
    xposExact Config.default 0 ≠ specGeometricMapping 512 0.1 0.01 0 ∧
    xpos Config.default 0 ≠ specGeometricMapping 512 0.1 0.01 0 ∧
    |xpos Config.default 0 - specGeometricMapping 512 0.1 0.01 0| > 0.0004 := by
  refine ⟨by decide!, by decide!, by decide!, by decide!⟩

/-- C8 (amended): with the constructor's values the expression assigned to
`xpos` for channel 0 is exactly `-25.856 + 0.05 = -(512*0.1*1.01)/2 + 0.05`,
and the x position emitted, its narrowing to `Float_t`, is
`-845611/32768 = -25.80599975585937...`, within 2.5e-7 of that value. -/
theorem xpos_channel_zero :
    xposExact Config.default 0 = -25.856 + 0.05 ∧
    (-25.856 + 0.05 : ℚ) = -(512 * 0.1 * 1.01) / 2 + 0.05 ∧
    xpos Config.default 0 = -845611 / 32768 ∧
    |xpos Config.default 0 - (-25.856 + 0.05)| ≤ 0.00000025 := by
  refine ⟨by decide!, by decide!, by decide!, by decide!⟩

/-- C8, counterexample: the x position emitted for channel 0 differs from
`-25.856 + 0.05` by more than 1e-9; indeed no multiple of `2⁻¹⁹`, the spacing
of the binary32 values between 16 and 32 in magnitude, lies within 1e-9 of
it. -/
theorem xpos_channel_zero_counterexample :
    |xpos Config.default 0 - (-25.856 + 0.05)| > 0.000000001 ∧
    ∀ m : ℤ, |(m : ℚ) / 2 ^ 19 - (-25.856 + 0.05)| > 0.000000001 := by
  refine ⟨by decide!, fun m => ?_⟩
  rw [gt_iff_lt, lt_abs]
  rcases le_or_lt m (-13529777) with h | h
  · right
    have hq : (m : ℚ) ≤ -13529777 := by exact_mod_cast h
    have : (m : ℚ) / 2 ^ 19 ≤ -13529777 / 2 ^ 19 := by
      apply div_le_div_of_nonneg_right hq
      positivity
    norm_num at this ⊢
    linarith
  · left
    have hq : (-13529776 : ℚ) ≤ m := by exact_mod_cast (by omega : (-13529776 : ℤ) ≤ m)
    have : (-13529776 : ℚ) / 2 ^ 19 ≤ (m : ℚ) / 2 ^ 19 := by
      apply div_le_div_of_nonneg_right hq
      positivity
    norm_num at this ⊢
    linarith

end R3BFiberDigitizer

/-! # The Tamex channel: hits, overlap, cached peaks, merged pulses -/

namespace R3B.Digitizing.Neuland.Tamex

/-- C11: for every hit with `fTimeMin ≤ time ≤ fTimeMax`, `AddHit` appends
exactly one PMT-level peak at the end of the peak list, leaves the earlier
peaks as they are, marks the cached signals (and the trigger time) stale and
changes nothing else; the new peak has the hit time as leading time and the
amplitude `light / (1 + fSaturationCoefficient * light)` when the saturation
correction is enabled and `light` otherwise. -/
theorem AddHit_appends_peak (ch : Channel) (newHit : Hit)
    (hmin : ch.par_.fTimeMin ≤ newHit.time) (hmax : newHit.time ≤ ch.par_.fTimeMax) :
    ∃ peak : PMTPeak,
      ch.AddHit newHit
        = { ch with fPMTPeaks := ch.fPMTPeaks ++ [peak], signalsValid := false,
                    trigTimeValid := false } ∧
      (ch.AddHit newHit).fPMTPeaks.length = ch.fPMTPeaks.length + 1 ∧
      (ch.AddHit newHit).fPMTPeaks.take ch.fPMTPeaks.length = ch.fPMTPeaks ∧
      (ch.AddHit newHit).Is_ValidSignals = false ∧
      peak.fLETime = newHit.time ∧
      (ch.par_.fExperimentalDataIsCorrectedForSaturation = true →
        peak.fQdc = newHit.light / (1 + ch.par_.fSaturationCoefficient * newHit.light)) ∧
      (ch.par_.fExperimentalDataIsCorrectedForSaturation = false →
        peak.fQdc = newHit.light) := by
  have hw : ¬ (newHit.time < ch.par_.fTimeMin ∨ newHit.time > ch.par_.fTimeMax) := by
    rintro (h | h)
    · exact absurd hmin (not_le.mpr h)
    · exact absurd hmax (not_le.mpr h)
  have hadd : ch.AddHit newHit
      = { ch with fPMTPeaks := ch.fPMTPeaks ++ [PMTPeak.ofHit newHit ch.par_],
                  signalsValid := false, trigTimeValid := false } := by
    simp [Channel.AddHit, hw, Channel.InvalidateSignals, Channel.InvalidateTrigTime]
  refine ⟨PMTPeak.ofHit newHit ch.par_, hadd, ?_, ?_, ?_, rfl, ?_, ?_⟩
  · rw [hadd]; simp
  · rw [hadd]; simp
  · rw [hadd]; rfl
  · intro h; simp [PMTPeak.ofHit, h]
  · intro h; simp [PMTPeak.ofHit, h]

/-- C11, witness: a hit of light 3 at time 1, the lower bound of the window of
`Params.sample`, added to a channel that holds one peak and valid signals. -/
theorem AddHit_appends_peak_witness :
    ({ side := ChannelSide.left, par_ := Params.sample, fPMTPeaks := [⟨2, 5⟩],
       fFQTPeaks := [], signalsValid := true, trigTimeValid := true } : Channel).AddHit ⟨1, 3⟩
      = { side := ChannelSide.left, par_ := Params.sample, fPMTPeaks := [⟨2, 5⟩, ⟨3, 1⟩],
          fFQTPeaks := [], signalsValid := false, trigTimeValid := false } := by
  obtain ⟨peak, hadd, _, _, _, ht, _, hq⟩ := AddHit_appends_peak
    { side := ChannelSide.left, par_ := Params.sample, fPMTPeaks := [⟨2, 5⟩],
      fFQTPeaks := [], signalsValid := true, trigTimeValid := true } ⟨1, 3⟩
    (by decide!) (by decide!)
  have hp : peak = ⟨3, 1⟩ := by
    cases peak
    simp only [PMTPeak.mk.injEq]
    exact ⟨hq rfl, ht⟩
  rw [hadd, hp]
  rfl

/-- C12: the overlap predicate `Peak::operator==` is symmetric, and for two
pulses with `fTETime = fLETime + fWidth` it holds exactly when
`a.fLETime ≤ b.fTETime` and `b.fLETime ≤ a.fTETime`, that is when the closed
intervals from leading to trailing edge share a point; in particular two
pulses that touch at an end point overlap. -/
theorem Peak_overlaps_iff_intervals_meet (a b : Peak)
    (ha : a.fTETime = a.fLETime + a.fWidth) (hb : b.fTETime = b.fLETime + b.fWidth) :
    a.overlaps b = b.overlaps a ∧
    (a.overlaps b = true ↔ a.fLETime ≤ b.fTETime ∧ b.fLETime ≤ a.fTETime) ∧
    (0 ≤ a.fWidth → 0 ≤ b.fWidth →
      (a.overlaps b = true ↔
        ∃ t : ℚ, a.fLETime ≤ t ∧ t ≤ a.fTETime ∧ b.fLETime ≤ t ∧ t ≤ b.fTETime)) ∧
    (a.fTETime = b.fLETime → 0 ≤ a.fWidth → 0 ≤ b.fWidth → a.overlaps b = true) := by
  have hiff : a.overlaps b = true ↔ a.fLETime ≤ b.fTETime ∧ b.fLETime ≤ a.fTETime := by
    simp [Peak.overlaps, ha, hb]
  refine ⟨Peak.overlaps_comm a b, hiff, ?_, ?_⟩
  · intro hwa hwb
    rw [hiff]
    constructor
    · rintro ⟨h1, h2⟩
      refine ⟨max a.fLETime b.fLETime, le_max_left _ _, ?_, le_max_right _ _, ?_⟩
      · exact max_le (by rw [ha]; linarith) h2
      · exact max_le h1 (by rw [hb]; linarith)
    · rintro ⟨t, h1, h2, h3, h4⟩
      exact ⟨le_trans h1 h4, le_trans h3 h2⟩
  · intro htouch hwa hwb
    rw [hiff]
    constructor
    · rw [hb, ← htouch, ha]
      linarith
    · exact le_of_eq htouch.symm

/-- C12, witness: the pulse from 0 to 10 and the pulse from 10 to 15, which
touch at 10, overlap in both orders. -/
theorem Peak_overlaps_iff_intervals_meet_witness :
    Peak.overlaps ⟨1, 0, 10, 10⟩ ⟨1, 10, 5, 15⟩ = true ∧
    Peak.overlaps ⟨1, 10, 5, 15⟩ ⟨1, 0, 10, 10⟩ = true := by
  have h := Peak_overlaps_iff_intervals_meet ⟨1, 0, 10, 10⟩ ⟨1, 10, 5, 15⟩
    (by decide!) (by decide!)
  have h1 := h.2.2.2 (by decide!) (by decide!) (by decide!)
  exact ⟨h1, h.1 ▸ h1⟩

theorem createSignals_length (par : Params) (side : ChannelSide) :
    ∀ (peaks : List Peak) (rnd : TRandom3),
      (createSignals par side peaks rnd).1.length = peaks.length ∧
      (createSignals par side peaks rnd).2.drawn = rnd.drawn + 2 * peaks.length
  | [], rnd => by simp [createSignals]
  | peak :: rest, rnd => by
    have ih := createSignals_length par side rest (CreateSignal par side peak rnd).2
    simp only [createSignals, List.length_cons]
    refine ⟨by rw [ih.1], ?_⟩
    rw [ih.2]
    simp only [CreateSignal, ToTdc, ToQdc, TRandom3.Gaus]
    ring

theorem sortPMTPeaks_pair (p1 p2 : PMTPeak) (h : p1.fLETime < p2.fLETime) :
    sortPMTPeaks [p1, p2] = [p1, p2] ∧ sortPMTPeaks [p2, p1] = [p1, p2] := by
  constructor
  · simp [sortPMTPeaks, List.insertionSort, List.orderedInsert, le_of_lt h]
  · simp [sortPMTPeaks, List.insertionSort, List.orderedInsert, not_le.mpr h]

/-- C13: a channel that has received exactly two hits, in either order of
arrival, with leading times 10 and 12, whose PMT-level amplitudes pass the
threshold (each one, and their sum, which is the amplitude when
`PMTPeak::operator==` piles the two up), and whose pulses have overlapping
intervals, returns exactly one signal from `ConstructSignals`. -/
theorem ConstructSignals_two_overlapping_hits (cal : Calibration) (ch : Channel)
    (rnd : TRandom3) (h1 h2 : Hit)
    (ht1 : h1.time = 10) (ht2 : h2.time = 12)
    (hpeaks : ch.fPMTPeaks = [PMTPeak.ofHit h1 ch.par_, PMTPeak.ofHit h2 ch.par_] ∨
      ch.fPMTPeaks = [PMTPeak.ofHit h2 ch.par_, PMTPeak.ofHit h1 ch.par_])
    (hq1 : ch.par_.fPMTThresh ≤ (PMTPeak.ofHit h1 ch.par_).fQdc)
    (hq2 : ch.par_.fPMTThresh ≤ (PMTPeak.ofHit h2 ch.par_).fQdc)
    (hq12 : ch.par_.fPMTThresh
      ≤ (PMTPeak.ofHit h1 ch.par_).fQdc + (PMTPeak.ofHit h2 ch.par_).fQdc)
    (hov : (Peak.ofPMTPeak cal ch.par_ (PMTPeak.ofHit h2 ch.par_)).overlaps
      (Peak.ofPMTPeak cal ch.par_ (PMTPeak.ofHit h1 ch.par_)) = true) :
    (ch.ConstructSignals cal rnd).1.length = 1 := by
  have hlt : (PMTPeak.ofHit h1 ch.par_).fLETime < (PMTPeak.ofHit h2 ch.par_).fLETime := by
    simp only [PMTPeak.ofHit, ht1, ht2]
    norm_num
  have hsort : sortPMTPeaks ch.fPMTPeaks
      = [PMTPeak.ofHit h1 ch.par_, PMTPeak.ofHit h2 ch.par_] := by
    rcases hpeaks with h | h
    · rw [h]; exact (sortPMTPeaks_pair _ _ hlt).1
    · rw [h]; exact (sortPMTPeaks_pair _ _ hlt).2
  simp only [Channel.ConstructSignals, (createSignals_length _ _ _ _).1, ConstructFQTPeaks,
    hsort, PeakPilingUpFQT, PeakPilingUp_eq_foldr, ApplyThreshold_eq_filter]
  by_cases hpm : cal.pmtPeakEq (PMTPeak.ofHit h2 ch.par_) (PMTPeak.ofHit h1 ch.par_) = true
  · have hq : ch.par_.fPMTThresh
        ≤ (PMTPeak.plusEq (PMTPeak.ofHit h1 ch.par_) (PMTPeak.ofHit h2 ch.par_)).fQdc := hq12
    simp [pileStep, hpm, hq]
  · simp [pileStep, hpm, hq1, hq2, hov]

/-- C13, witness: hits of light 20 at time 12 and of light 5 at time 10, in
this order of arrival, on a channel with the parameters `Params.sample`; with
the calibration `Calibration.unit` the pulses last from 10 to 15 and from 12
to 32. -/
theorem ConstructSignals_two_overlapping_hits_witness :
    ((((Channel.new ChannelSide.left Params.sample).AddHit ⟨12, 20⟩).AddHit ⟨10, 5⟩).ConstructSignals
      Calibration.unit (TRandom3.constant 0)).1.length = 1 :=
  ConstructSignals_two_overlapping_hits Calibration.unit
    (((Channel.new ChannelSide.left Params.sample).AddHit ⟨12, 20⟩).AddHit ⟨10, 5⟩)
    (TRandom3.constant 0) ⟨10, 5⟩ ⟨12, 20⟩ rfl rfl (by decide!) (by decide!) (by decide!)
    (by decide!) (by decide!)

/-- C14: a channel whose only PMT-level peak, built from its one accumulated
hit by the saturation transform, has an amplitude strictly below `fPMTThresh`
returns no signal from `ConstructSignals`, and draws no random deviate. -/
theorem ConstructSignals_below_threshold_empty (cal : Calibration) (ch : Channel)
    (rnd : TRandom3) (hit : Hit)
    (hpeaks : ch.fPMTPeaks = [PMTPeak.ofHit hit ch.par_])
    (hlow : (PMTPeak.ofHit hit ch.par_).fQdc < ch.par_.fPMTThresh) :
    (ch.ConstructSignals cal rnd).1 = [] ∧
    (ch.ConstructSignals cal rnd).2.1.fFQTPeaks = [] ∧
    (ch.ConstructSignals cal rnd).2.2.drawn = rnd.drawn := by
  have hF : (ConstructFQTPeaks cal ch.par_ ch.fPMTPeaks).2 = [] := by
    simp [ConstructFQTPeaks, hpeaks, sortPMTPeaks, PeakPilingUp_eq_foldr, pileStep,
      ApplyThreshold_eq_filter, not_le.mpr hlow]
  simp [Channel.ConstructSignals, hF, PeakPilingUpFQT, PeakPilingUp, createSignals]

/-- C14, witness: one hit of light 1/2 at time 10 on a channel with threshold
1 and no saturation correction. -/
theorem ConstructSignals_below_threshold_empty_witness :
    (((Channel.new ChannelSide.left Params.sample).AddHit ⟨10, 1 / 2⟩).ConstructSignals
      Calibration.unit (TRandom3.constant 0)).1 = [] :=
  (ConstructSignals_below_threshold_empty Calibration.unit
    ((Channel.new ChannelSide.left Params.sample).AddHit ⟨10, 1 / 2⟩)
    (TRandom3.constant 0) ⟨10, 1 / 2⟩ (by decide!) (by decide!)).1

theorem ConstructSignals_flags (cal : Calibration) (ch : Channel) (rnd : TRandom3) :
    (ch.ConstructSignals cal rnd).2.1.signalsValid = ch.signalsValid ∧
    (ch.ConstructSignals cal rnd).2.2.drawn
      = rnd.drawn + 2 * (ch.ConstructSignals cal rnd).2.1.fFQTPeaks.length := by
  refine ⟨rfl, ?_⟩
  simp only [Channel.ConstructSignals]
  exact (createSignals_length _ _ _ _).2

/-- C15, the code at the failing input, and what holds in general.  On the
channel `Channel.oneHit`, whose cache is stale, the first `GetFQTPeaks` returns
one peak, draws two deviates and leaves the cache stale; the second call
returns the same peak but runs the pipeline again and draws two more
deviates.  In general a call that finds the cache stale leaves it stale and
draws two deviates for each peak it returns, and only a call that finds the
cache valid changes nothing and draws nothing. -/
theorem GetFQTPeaks_recomputes :
    ((Channel.oneHit.GetFQTPeaks Calibration.unit (TRandom3.constant 0)).1
        = [⟨2, 10, 2, 12⟩] ∧
      (Channel.oneHit.GetFQTPeaks Calibration.unit (TRandom3.constant 0)).2.1.Is_ValidSignals
        = false ∧
      (Channel.oneHit.GetFQTPeaks Calibration.unit (TRandom3.constant 0)).2.2.drawn = 2 ∧
      (Channel.GetFQTPeaks Calibration.unit
          (Channel.oneHit.GetFQTPeaks Calibration.unit (TRandom3.constant 0)).2.1
          (Channel.oneHit.GetFQTPeaks Calibration.unit (TRandom3.constant 0)).2.2).1
        = [⟨2, 10, 2, 12⟩] ∧
      (Channel.GetFQTPeaks Calibration.unit
          (Channel.oneHit.GetFQTPeaks Calibration.unit (TRandom3.constant 0)).2.1
          (Channel.oneHit.GetFQTPeaks Calibration.unit (TRandom3.constant 0)).2.2).2.2.drawn
        = 4) ∧
    (∀ (cal : Calibration) (ch : Channel) (rnd : TRandom3), ch.Is_ValidSignals = false →
      (ch.GetFQTPeaks cal rnd).2.1.Is_ValidSignals = false ∧
      (ch.GetFQTPeaks cal rnd).2.2.drawn
        = rnd.drawn + 2 * (ch.GetFQTPeaks cal rnd).1.length ∧
      (ch.GetPMTPeaks cal rnd).2.1.Is_ValidSignals = false ∧
      (ch.GetPMTPeaks cal rnd).2.2.drawn
        = rnd.drawn + 2 * (ch.GetPMTPeaks cal rnd).2.1.fFQTPeaks.length) ∧
    (∀ (cal : Calibration) (ch : Channel) (rnd : TRandom3), ch.Is_ValidSignals = true →
      (ch.GetFQTPeaks cal rnd).1 = ch.fFQTPeaks ∧ (ch.GetFQTPeaks cal rnd).2.1 = ch ∧
      (ch.GetFQTPeaks cal rnd).2.2.drawn = rnd.drawn ∧
      (ch.GetPMTPeaks cal rnd).1 = ch.fPMTPeaks ∧ (ch.GetPMTPeaks cal rnd).2.1 = ch ∧
      (ch.GetPMTPeaks cal rnd).2.2.drawn = rnd.drawn) := by
  refine ⟨⟨by decide!, by decide!, by decide!, by decide!, by decide!⟩, ?_, ?_⟩
  · intro cal ch rnd h
    have hf := ConstructSignals_flags cal ch rnd
    simp only [Channel.Is_ValidSignals] at h
    have e1 : ch.GetFQTPeaks cal rnd
        = ((ch.ConstructSignals cal rnd).2.1.fFQTPeaks, (ch.ConstructSignals cal rnd).2.1,
            (ch.ConstructSignals cal rnd).2.2) := by
      simp [Channel.GetFQTPeaks, Channel.Is_ValidSignals, h]
    have e2 : ch.GetPMTPeaks cal rnd
        = ((ch.ConstructSignals cal rnd).2.1.fPMTPeaks, (ch.ConstructSignals cal rnd).2.1,
            (ch.ConstructSignals cal rnd).2.2) := by
      simp [Channel.GetPMTPeaks, Channel.Is_ValidSignals, h]
    rw [e1, e2]
    exact ⟨hf.1.trans h, hf.2, hf.1.trans h, hf.2⟩
  · intro cal ch rnd h
    simp only [Channel.Is_ValidSignals] at h
    simp [Channel.GetFQTPeaks, Channel.GetPMTPeaks, Channel.Is_ValidSignals, h]

/-- C17: for two pulses that each satisfy `fTETime = fLETime + fWidth`,
whatever the sign of the width, and that satisfy the overlap predicate, the
pulse `Peak::operator+=` produces (in either order of the operands) has
`fTETime ≥ fLETime` and `fWidth = fTETime - fLETime ≥ 0`. -/
theorem Peak_plusEq_width_nonneg (cal : Calibration) (par : Params) (a b : Peak)
    (ha : a.fTETime = a.fLETime + a.fWidth) (hb : b.fTETime = b.fLETime + b.fWidth)
    (hov : b.overlaps a = true) :
    ((Peak.plusEq cal par a b).fLETime ≤ (Peak.plusEq cal par a b).fTETime ∧
      (Peak.plusEq cal par a b).fWidth
        = (Peak.plusEq cal par a b).fTETime - (Peak.plusEq cal par a b).fLETime ∧
      0 ≤ (Peak.plusEq cal par a b).fWidth) ∧
    ((Peak.plusEq cal par b a).fLETime ≤ (Peak.plusEq cal par b a).fTETime ∧
      (Peak.plusEq cal par b a).fWidth
        = (Peak.plusEq cal par b a).fTETime - (Peak.plusEq cal par b a).fLETime ∧
      0 ≤ (Peak.plusEq cal par b a).fWidth) := by
  simp only [Peak.overlaps, Bool.and_eq_true, decide_eq_true_eq] at hov
  obtain ⟨h1, h2⟩ := hov
  rw [← ha] at h1
  rw [← hb] at h2
  simp only [Peak.plusEq]
  refine ⟨⟨?_, trivial, ?_⟩, ⟨?_, trivial, ?_⟩⟩ <;> split_ifs <;> linarith

/-- C17, witness: a pulse of negative width, from 5 back to 3, merged with the
pulse from 0 to 10 that it overlaps, gives the pulse from 0 to 10 of width
10. -/
theorem Peak_plusEq_width_nonneg_witness :
    (Peak.plusEq Calibration.unit Params.sample ⟨10, 0, 10, 10⟩ ⟨1, 5, -2, 3⟩).fWidth = 10 ∧
    0 ≤ (Peak.plusEq Calibration.unit Params.sample ⟨10, 0, 10, 10⟩ ⟨1, 5, -2, 3⟩).fWidth :=
  ⟨by decide!,
   (Peak_plusEq_width_nonneg Calibration.unit Params.sample ⟨10, 0, 10, 10⟩ ⟨1, 5, -2, 3⟩
      (by decide!) (by decide!) (by decide!)).1.2.2⟩

theorem foldr_pileStep_groups (eq : PMTPeak → PMTPeak → Bool) :
    ∀ peaks : List PMTPeak, ∃ groups : List (List PMTPeak),
      groups.flatten = peaks ∧ (∀ g ∈ groups, g ≠ []) ∧
      peaks.foldr (pileStep eq PMTPeak.plusEq) [] = groups.map mergeGroup
  | [] => ⟨[], rfl, by simp, rfl⟩
  | x :: xs => by
    obtain ⟨groups, hj, hne, hout⟩ := foldr_pileStep_groups eq xs
    rw [List.foldr_cons, hout]
    cases groups with
    | nil =>
      refine ⟨[[x]], ?_, by simp, ?_⟩
      · simp at hj
        simp [hj]
      · simp [pileStep, mergeGroup, groupLETime]
    | cons g gs =>
      have hg : g ≠ [] := hne g (List.mem_cons_self _ _)
      obtain ⟨y, rest, rfl⟩ := List.exists_cons_of_ne_nil hg
      by_cases he : eq (mergeGroup (y :: rest)) x = true
      · refine ⟨(x :: y :: rest) :: gs, ?_, ?_, ?_⟩
        · simp only [List.flatten_cons, List.cons_append, List.cons.injEq, true_and]
          simpa using hj
        · intro g hgm
          rcases List.mem_cons.mp hgm with rfl | hgm
          · simp
          · exact hne g (List.mem_cons_of_mem _ hgm)
        · simp only [List.map_cons, pileStep, he, if_true, List.cons.injEq, and_true]
          simp [PMTPeak.plusEq, mergeGroup, groupLETime]
      · refine ⟨[x] :: (y :: rest) :: gs, ?_, ?_, ?_⟩
        · simp only [List.flatten_cons, List.singleton_append, List.cons.injEq, true_and]
          simpa using hj
        · intro g hgm
          rcases List.mem_cons.mp hgm with rfl | hgm
          · simp
          · exact hne g hgm
        · simp only [List.map_cons, pileStep, he]
          simp [mergeGroup, groupLETime]

theorem sum_map_mergeGroup (groups : List (List PMTPeak)) :
    ((groups.map mergeGroup).map PMTPeak.fQdc).sum = (groups.flatten.map PMTPeak.fQdc).sum := by
  induction groups with
  | nil => rfl
  | cons g gs ih =>
    simp only [List.map_cons, List.sum_cons, List.flatten_cons, List.map_append, List.sum_append,
      ih, mergeGroup]

/-- C18: `PMTPeak::operator+=` sets the amplitude to the sum of the two
amplitudes and the leading time to the smaller of the two leading times; and
for every sequence of PMT-level peaks, whatever the overlap predicate, the
output of `PeakPilingUp` is obtained by cutting the input into consecutive
non-empty groups and replacing each group by one peak whose amplitude is the
sum of the group's amplitudes, so that every input peak is counted in exactly
one output peak and the sum of the amplitudes is the same before and after. -/
theorem PeakPilingUp_PMT_conserves_amplitude :
    (∀ a b : PMTPeak, (a.plusEq b).fQdc = a.fQdc + b.fQdc ∧
      (a.plusEq b).fLETime = min a.fLETime b.fLETime) ∧
    (∀ (eq : PMTPeak → PMTPeak → Bool) (peaks : List PMTPeak),
      ((PeakPilingUp eq PMTPeak.plusEq peaks).map PMTPeak.fQdc).sum
        = (peaks.map PMTPeak.fQdc).sum ∧
      ∃ groups : List (List PMTPeak),
        groups.flatten = peaks ∧ (∀ g ∈ groups, g ≠ []) ∧
        PeakPilingUp eq PMTPeak.plusEq peaks = groups.map mergeGroup ∧
        (PeakPilingUp eq PMTPeak.plusEq peaks).map PMTPeak.fQdc
          = groups.map (fun g => (g.map PMTPeak.fQdc).sum)) := by
  constructor
  · intro a b
    refine ⟨rfl, ?_⟩
    simp only [PMTPeak.plusEq]
    split_ifs with h
    · exact (min_eq_left (le_of_lt h)).symm
    · exact (min_eq_right (not_lt.mp h)).symm
  · intro eq peaks
    obtain ⟨groups, hj, hne, hout⟩ := foldr_pileStep_groups eq peaks
    rw [PeakPilingUp_eq_foldr, hout]
    refine ⟨?_, groups, hj, hne, rfl, ?_⟩
    · rw [sum_map_mergeGroup, hj]
    · simp [mergeGroup, Function.comp_def]

/-- C19: for every pulse and every random draw, `CreateSignal` sets
`qdcUnSat` to `ToUnSatQdc` of the value it stores in `qdc`, the smeared
amplitude: `qdc / (1 - fSaturationCoefficient * qdc)` when the saturation
correction is enabled and `qdc` otherwise. -/
theorem CreateSignal_qdcUnSat (par : Params) (side : ChannelSide) (peak : Peak)
    (rnd : TRandom3) :
    (CreateSignal par side peak rnd).1.qdcUnSat
        = ToUnSatQdc par (CreateSignal par side peak rnd).1.qdc ∧
    (CreateSignal par side peak rnd).1.qdc = (ToQdc par peak.fQdc rnd).1 ∧
    (par.fExperimentalDataIsCorrectedForSaturation = true →
      (CreateSignal par side peak rnd).1.qdcUnSat
        = (CreateSignal par side peak rnd).1.qdc
          / (1 - par.fSaturationCoefficient * (CreateSignal par side peak rnd).1.qdc)) ∧
    (par.fExperimentalDataIsCorrectedForSaturation = false →
      (CreateSignal par side peak rnd).1.qdcUnSat = (CreateSignal par side peak rnd).1.qdc) := by
  refine ⟨rfl, rfl, ?_, ?_⟩
  · intro h
    simp [CreateSignal, ToUnSatQdc, h]
  · intro h
    simp [CreateSignal, ToUnSatQdc, h]

end R3B.Digitizing.Neuland.Tamex

/-! # The fiber digitizer: the epsilon filter and the emission loop -/

namespace R3BFiberDigitizer

end R3BFiberDigitizer

/-! # The Tamex channel: monotonicity, the pass as a fold, draw order -/

namespace R3B.Digitizing.Neuland.Tamex

/-- C21: threshold monotonicity.  For every sequence of peaks and every two
parameter sets with `fPMTThresh` `t1 ≤ t2`, the number of peaks that survive
`ApplyThreshold` with `t2` is at most the number that survive with `t1`;
indeed the survivors for `t2` are a subsequence of those for `t1`. -/
theorem ApplyThreshold_monotone {α : Type} (GetQDC : α → ℚ) (par1 par2 : Params)
    (peaks : List α) (h : par1.fPMTThresh ≤ par2.fPMTThresh) :
    (ApplyThreshold GetQDC par2 peaks).length ≤ (ApplyThreshold GetQDC par1 peaks).length ∧
    (ApplyThreshold GetQDC par2 peaks).Sublist (ApplyThreshold GetQDC par1 peaks) := by
  have hsub : (ApplyThreshold GetQDC par2 peaks).Sublist (ApplyThreshold GetQDC par1 peaks) := by
    rw [ApplyThreshold_eq_filter, ApplyThreshold_eq_filter]
    apply List.monotone_filter_right
    intro a ha
    simp only [decide_eq_true_eq] at ha ⊢
    exact le_trans h ha
  exact ⟨hsub.length_le, hsub⟩

/-- C21, witness: peaks of amplitude 1, 2 and 3 with thresholds 1 and 3. -/
theorem ApplyThreshold_monotone_witness :
    (ApplyThreshold PMTPeak.fQdc { Params.sample with fPMTThresh := 3 }
        [⟨1, 0⟩, ⟨2, 20⟩, ⟨3, 40⟩]).length = 1 ∧
    (ApplyThreshold PMTPeak.fQdc Params.sample [⟨1, 0⟩, ⟨2, 20⟩, ⟨3, 40⟩]).length = 3 ∧
    (ApplyThreshold PMTPeak.fQdc { Params.sample with fPMTThresh := 3 }
        [⟨1, 0⟩, ⟨2, 20⟩, ⟨3, 40⟩]).length
      ≤ (ApplyThreshold PMTPeak.fQdc Params.sample [⟨1, 0⟩, ⟨2, 20⟩, ⟨3, 40⟩]).length :=
  ⟨by decide!, by decide!,
   (ApplyThreshold_monotone PMTPeak.fQdc Params.sample { Params.sample with fPMTThresh := 3 }
      [⟨1, 0⟩, ⟨2, 20⟩, ⟨3, 40⟩] (by decide!)).1⟩

theorem loopCounting_append {α : Type} (eq : α → α → Bool) (plusEq : α → α → α)
    (L : List α) :
    ∀ (c : α) (rest : List α) (tests : Nat),
      PeakPilingUp.loopCounting eq plusEq L.length (L ++ c :: rest) tests
        = (L.foldr (pileStep eq plusEq) (c :: rest), tests + L.length) := by
  induction L using List.reverseRecOn with
  | nil => intro c rest tests; simp [PeakPilingUp.loopCounting]
  | append_singleton L p ih =>
    intro c rest tests
    have h1 : (L ++ [p] ++ c :: rest)[L.length + 1]? = some c := by
      rw [List.append_assoc, List.getElem?_append_right (by omega)]
      simp
    have h0 : (L ++ [p] ++ c :: rest)[L.length]? = some p := by
      rw [List.append_assoc, List.getElem?_append_right (by omega)]
      simp
    have hlen : (L ++ [p]).length = L.length + 1 := by simp
    rw [hlen, PeakPilingUp.loopCounting, h1, h0]
    simp only [List.foldr_append, List.foldr_cons, List.foldr_nil, pileStep]
    have hset : ((L ++ [p] ++ c :: rest).set L.length (plusEq p c)).eraseIdx (L.length + 1)
        = L ++ plusEq p c :: rest := by
      simp [List.set_append_right, List.eraseIdx_append_of_length_le]
    have hadd : tests + 1 + L.length = tests + (L.length + 1) := by omega
    by_cases h : eq c p = true
    · simp only [h, if_true, hset]
      rw [ih, hadd]
    · have h2 : eq c p = false := by simpa using h
      simp only [h2, Bool.false_eq_true, if_false]
      rw [List.append_assoc, List.singleton_append, ih, hadd]

theorem counting_eq {α : Type} (eq : α → α → Bool) (plusEq : α → α → α) (peaks : List α) :
    PeakPilingUp.counting eq plusEq peaks
      = (PeakPilingUp eq plusEq peaks, peaks.length - 1) := by
  rw [PeakPilingUp_eq_foldr]
  induction peaks using List.reverseRecOn with
  | nil => simp [PeakPilingUp.counting]
  | append_singleton L c _ =>
    have := loopCounting_append eq plusEq L c [] 0
    simp [PeakPilingUp.counting, this, pileStep]

/-- C23: `PeakPilingUp` is one backward pass, equal to the fold from the right
with `pileStep`: each element is compared with the first element of the part
to its right as the pass has left it (its right neighbour, or the element
that absorbed that neighbour); on overlap the right one is accumulated into
the left one and removed, otherwise both stay.  Empty and single-element
sequences are returned unchanged, and a sequence of `n ≥ 1` elements incurs
exactly `n - 1` evaluations of the overlap predicate. -/
theorem PeakPilingUp_is_right_fold {α : Type} (eq : α → α → Bool) (plusEq : α → α → α)
    (peaks : List α) :
    PeakPilingUp eq plusEq peaks = peaks.foldr (pileStep eq plusEq) [] ∧
    (∀ (x : α) (xs : List α),
      PeakPilingUp eq plusEq (x :: xs)
        = match PeakPilingUp eq plusEq xs with
          | [] => [x]
          | y :: ys => if eq y x then plusEq x y :: ys else x :: y :: ys) ∧
    PeakPilingUp eq plusEq ([] : List α) = [] ∧
    (∀ x : α, PeakPilingUp eq plusEq [x] = [x]) ∧
    (PeakPilingUp.counting eq plusEq peaks).1 = PeakPilingUp eq plusEq peaks ∧
    (PeakPilingUp.counting eq plusEq peaks).2 = peaks.length - 1 := by
  refine ⟨PeakPilingUp_eq_foldr eq plusEq peaks, ?_, ?_, ?_, ?_, ?_⟩
  · intro x xs
    rw [PeakPilingUp_eq_foldr, PeakPilingUp_eq_foldr, List.foldr_cons]
    rfl
  · rw [PeakPilingUp_eq_foldr]; rfl
  · intro x
    rw [PeakPilingUp_eq_foldr]; rfl
  · rw [counting_eq]
  · rw [counting_eq]

/-- C24: `Peak::operator+=` sets the leading time to the minimum of the two
leading times, the trailing time to the maximum of the two trailing times, the
width to trailing minus leading, and the amplitude to `WidthToQdc` of that
width under the channel's parameters; the amplitudes of the operands play no
part, and merging `a` into `b` gives the same pulse as merging `b` into
`a`. -/
theorem Peak_plusEq_values (cal : Calibration) (par : Params) (a b : Peak) :
    (Peak.plusEq cal par a b).fLETime = min a.fLETime b.fLETime ∧
    (Peak.plusEq cal par a b).fTETime = max a.fTETime b.fTETime ∧
    (Peak.plusEq cal par a b).fWidth
      = (Peak.plusEq cal par a b).fTETime - (Peak.plusEq cal par a b).fLETime ∧
    (Peak.plusEq cal par a b).fQdc = cal.WidthToQdc (Peak.plusEq cal par a b).fWidth par ∧
    (∀ qa qb : ℚ, Peak.plusEq cal par { a with fQdc := qa } { b with fQdc := qb }
      = Peak.plusEq cal par a b) ∧
    Peak.plusEq cal par a b = Peak.plusEq cal par b a := by
  have hL : (if a.fLETime < b.fLETime then a.fLETime else b.fLETime)
      = min a.fLETime b.fLETime := by
    split_ifs with h
    · exact (min_eq_left (le_of_lt h)).symm
    · exact (min_eq_right (not_lt.mp h)).symm
  have hT : (if a.fTETime > b.fTETime then a.fTETime else b.fTETime)
      = max a.fTETime b.fTETime := by
    split_ifs with h
    · exact (max_eq_left (le_of_lt h)).symm
    · exact (max_eq_right (not_lt.mp h)).symm
  have hL2 : (if b.fLETime < a.fLETime then b.fLETime else a.fLETime)
      = min a.fLETime b.fLETime := by
    split_ifs with h
    · exact (min_eq_right (le_of_lt h)).symm
    · exact (min_eq_left (not_lt.mp h)).symm
  have hT2 : (if b.fTETime > a.fTETime then b.fTETime else a.fTETime)
      = max a.fTETime b.fTETime := by
    split_ifs with h
    · exact (max_eq_right (le_of_lt h)).symm
    · exact (max_eq_left (not_lt.mp h)).symm
  refine ⟨hL, hT, rfl, rfl, fun _ _ => rfl, ?_⟩
  simp only [Peak.plusEq, hL, hT, hL2, hT2]

theorem CreateSignal_eq (par : Params) (side : ChannelSide) (peak : Peak) (rnd : TRandom3) :
    CreateSignal par side peak rnd
      = (smearedSignal par side peak (rnd.deviates rnd.drawn) (rnd.deviates (rnd.drawn + 1)),
          { deviates := rnd.deviates, drawn := rnd.drawn + 2 }) := by
  simp [CreateSignal, ToQdc, ToTdc, TRandom3.Gaus, smearedSignal]

theorem createSignals_getElem (par : Params) (side : ChannelSide) :
    ∀ (peaks : List Peak) (rnd : TRandom3),
      (createSignals par side peaks rnd).2.deviates = rnd.deviates ∧
      ∀ k : Nat, (createSignals par side peaks rnd).1[k]?
        = (peaks[k]?).map (fun peak => smearedSignal par side peak
            (rnd.deviates (rnd.drawn + 2 * k)) (rnd.deviates (rnd.drawn + 2 * k + 1)))
  | [], rnd => by simp [createSignals]
  | peak :: rest, rnd => by
    have ih := createSignals_getElem par side rest
      { deviates := rnd.deviates, drawn := rnd.drawn + 2 }
    simp only [createSignals, CreateSignal_eq]
    refine ⟨ih.1, fun k => ?_⟩
    cases k with
    | zero => simp
    | succ k =>
      simp only [List.getElem?_cons_succ, ih.2 k]
      have h1 : rnd.drawn + 2 + 2 * k = rnd.drawn + 2 * (k + 1) := by ring
      rw [h1]

/-- C25: the order of the random draws in `ConstructSignals`.  The channel
state after the call, with the pulses `fFQTPeaks` left by sorting, both
pile-up passes and the threshold filter, does not depend on the generator;
the deviates are drawn only afterwards, two for each pulse in sequence order,
the amplitude deviate first: with the pulses counted from 0, signal `k` is
built from pulse `k` with the deviate at position `drawn + 2k` of the stream
for the amplitude and the one at `drawn + 2k + 1` for the time, and `n`
pulses give `n` signals and advance the stream by exactly `2n`. -/
theorem ConstructSignals_draw_order (cal : Calibration) (ch : Channel) (rnd : TRandom3) :
    (∀ rnd2 : TRandom3, (ch.ConstructSignals cal rnd2).2.1 = (ch.ConstructSignals cal rnd).2.1) ∧
    (ch.ConstructSignals cal rnd).2.1.fFQTPeaks
      = PeakPilingUpFQT cal ch.par_ (ConstructFQTPeaks cal ch.par_ ch.fPMTPeaks).2 ∧
    (ch.ConstructSignals cal rnd).1.length = (ch.ConstructSignals cal rnd).2.1.fFQTPeaks.length ∧
    (ch.ConstructSignals cal rnd).2.2.drawn
      = rnd.drawn + 2 * (ch.ConstructSignals cal rnd).2.1.fFQTPeaks.length ∧
    (ch.ConstructSignals cal rnd).2.2.deviates = rnd.deviates ∧
    (∀ k : Nat, (ch.ConstructSignals cal rnd).1[k]?
      = ((ch.ConstructSignals cal rnd).2.1.fFQTPeaks[k]?).map
          (fun peak => smearedSignal ch.par_ ch.side peak
            (rnd.deviates (rnd.drawn + 2 * k)) (rnd.deviates (rnd.drawn + 2 * k + 1)))) ∧
    (∀ (peak : Peak) (zq zt : ℚ),
      (smearedSignal ch.par_ ch.side peak zq zt).qdc
          = peak.fQdc + ch.par_.fEResRel * peak.fQdc * zq ∧
      (smearedSignal ch.par_ ch.side peak zq zt).tdc
          = peak.fLETime + ch.par_.fTimeRes * zt) := by
  refine ⟨fun _ => rfl, rfl, ?_, ?_, ?_, ?_, ?_⟩
  · simp only [Channel.ConstructSignals]
    exact (createSignals_length _ _ _ _).1
  · simp only [Channel.ConstructSignals]
    exact (createSignals_length _ _ _ _).2
  · simp only [Channel.ConstructSignals]
    exact (createSignals_getElem _ _ _ _).1
  · intro k
    simp only [Channel.ConstructSignals]
    exact (createSignals_getElem _ _ _ _).2 k
  · intro peak zq zt
    simp [smearedSignal]

/-- C29: reverse saturation inverts the saturation correction.  For every raw
amplitude `x` and saturation coefficient `k` with `1 + k * x ≠ 0`, with the
correction enabled the PMT-level peak built from a hit of light `x` has
amplitude `x / (1 + k * x)` and `ToUnSatQdc` of it is `x`; with the correction
disabled both transforms are the identity. -/
theorem ToUnSatQdc_inverts_saturation (par : Params) (time x : ℚ)
    (h : 1 + par.fSaturationCoefficient * x ≠ 0) :
    (par.fExperimentalDataIsCorrectedForSaturation = true →
      (PMTPeak.ofHit ⟨time, x⟩ par).fQdc = x / (1 + par.fSaturationCoefficient * x) ∧
      ToUnSatQdc par (x / (1 + par.fSaturationCoefficient * x)) = x) ∧
    (par.fExperimentalDataIsCorrectedForSaturation = false →
      (PMTPeak.ofHit ⟨time, x⟩ par).fQdc = x ∧ ∀ q : ℚ, ToUnSatQdc par q = q) ∧
    ToUnSatQdc par (PMTPeak.ofHit ⟨time, x⟩ par).fQdc = x := by
  have hinv : x / (1 + par.fSaturationCoefficient * x)
      / (1 - par.fSaturationCoefficient * (x / (1 + par.fSaturationCoefficient * x))) = x := by
    have h2 : 1 - par.fSaturationCoefficient * (x / (1 + par.fSaturationCoefficient * x))
        = 1 / (1 + par.fSaturationCoefficient * x) := by
      field_simp
    rw [h2]
    field_simp
  refine ⟨fun hc => ?_, fun hc => ?_, ?_⟩
  · simp only [PMTPeak.ofHit, ToUnSatQdc, hc, if_true]
    exact ⟨trivial, hinv⟩
  · simp [PMTPeak.ofHit, ToUnSatQdc, hc]
  · cases hc : par.fExperimentalDataIsCorrectedForSaturation with
    | true => simp only [PMTPeak.ofHit, ToUnSatQdc, hc, if_true]; exact hinv
    | false => simp [PMTPeak.ofHit, ToUnSatQdc, hc]

/-- C29, witness: light 4 with saturation coefficient 1/4 is stored as the
amplitude 2, which `ToUnSatQdc` maps back to 4. -/
theorem ToUnSatQdc_inverts_saturation_witness :
    (PMTPeak.ofHit ⟨10, 4⟩ (Params.saturating (1 / 4))).fQdc = 2 ∧
    ToUnSatQdc (Params.saturating (1 / 4)) (PMTPeak.ofHit ⟨10, 4⟩ (Params.saturating (1 / 4))).fQdc
      = 4 :=
  ⟨by decide!,
   (ToUnSatQdc_inverts_saturation (Params.saturating (1 / 4)) 10 4 (by decide!)).2.2⟩

end R3B.Digitizing.Neuland.Tamex

/-! # The fiber digitizer: clusters per channel, emission, conservation, safety -/

namespace R3BFiberDigitizer

theorem emitChannel_eq_emittedOf (cfg : Config) (i : Nat) :
    ∀ (es ts ys tpre ypre : List ℚ), es.length = ts.length → ys.length = ts.length →
      tpre.length = ypre.length →
      emitChannel cfg i (tpre ++ ts) (ypre ++ ys) tpre.length es
        = some (emittedOf cfg i es ts ys)
  | [], ts, ys, _, _, _, _, _ => by
    cases ts <;> cases ys <;> simp [emitChannel, emittedOf]
  | e :: es, [], _, _, _, h1, _, _ => by simp at h1
  | e :: es, t :: ts, [], _, _, _, h2, _ => by simp at h2
  | e :: es, t :: ts, y :: ys, tpre, ypre, h1, h2, h3 => by
    have ih := emitChannel_eq_emittedOf cfg i es ts ys (tpre ++ [t]) (ypre ++ [y])
      (by simpa using h1) (by simpa using h2) (by simp [h3])
    have hl : (tpre ++ [t]).length = tpre.length + 1 := by simp
    rw [hl, List.append_assoc, List.append_assoc, List.singleton_append,
      List.singleton_append] at ih
    have hy : (ypre ++ y :: ys)[tpre.length]? = some y := by
      rw [h3, List.getElem?_append_right (le_refl _)]
      simp
    have ht : (tpre ++ t :: ts)[tpre.length]? = some t := by
      rw [List.getElem?_append_right (le_refl _)]
      simp
    by_cases he : e > 0.0000001
    · simp only [emitChannel, he, if_true, hy, ht, ih, emittedOf]
    · simp only [emitChannel, he, if_false, ih, emittedOf]

theorem Clusters.emit_eq (cfg : Config) (i : Nat) (cl : Clusters) (h : cl.Aligned) :
    emitChannel cfg i cl.time cl.y 0 cl.energy = some (cl.emitted cfg i) := by
  have := emitChannel_eq_emittedOf cfg i cl.energy cl.time cl.y [] [] h.1 h.2 rfl
  simpa using this

theorem emitFrom_eq_emittedFrom (cfg : Config) :
    ∀ (cs : List Clusters) (i : Nat), (∀ cl ∈ cs, cl.Aligned) →
      emitFrom cfg i (cs.map Clusters.energy) (cs.map Clusters.time) (cs.map Clusters.y)
        = some (emittedFrom cfg i cs)
  | [], _, _ => by simp [emitFrom, emittedFrom]
  | cl :: rest, i, h => by
    have ih := emitFrom_eq_emittedFrom cfg rest (i + 1)
      (fun c hc => h c (List.mem_cons_of_mem _ hc))
    simp only [List.map_cons, emitFrom, ih,
      Clusters.emit_eq cfg i cl (h cl (List.mem_cons_self _ _)), emittedFrom]

theorem Clusters.register_aligned (cl : Clusters) (Hit : TempHit) (hne : cl.Nonempty)
    (h : cl.Aligned) : (cl.register Hit).Aligned := by
  obtain ⟨h1, h2, h3⟩ := hne
  obtain ⟨ha, hb⟩ := h
  have l1 : cl.energy.length ≠ 0 := fun h => h1 (List.length_eq_zero.mp h)
  have l2 : cl.time.length ≠ 0 := fun h => h2 (List.length_eq_zero.mp h)
  have l3 : cl.y.length ≠ 0 := fun h => h3 (List.length_eq_zero.mp h)
  simp only [Clusters.register, Clusters.Aligned]
  split_ifs <;> simp <;> omega

theorem foldl_register_shape :
    ∀ (hits : List TempHit) (cl : Clusters), cl.Nonempty → cl.Aligned →
      (hits.foldl Clusters.register cl).Nonempty ∧ (hits.foldl Clusters.register cl).Aligned
  | [], _, h1, h2 => ⟨h1, h2⟩
  | Hit :: rest, cl, h1, h2 =>
    foldl_register_shape rest (cl.register Hit) (Clusters.register_nonempty cl Hit)
      (Clusters.register_aligned cl Hit h1 h2)

theorem channelClusters_shape (c : Nat) (hits : List TempHit) :
    (channelClusters c hits).Nonempty ∧ (channelClusters c hits).Aligned := by
  apply foldl_register_shape
  · simp [Clusters.Nonempty, Clusters.placeholder]
  · simp [Clusters.Aligned, Clusters.placeholder]

theorem registerHits_init_range (NumOfFibers : Nat) (hits : List TempHit)
    (hr : ∀ h ∈ hits, 0 ≤ h.fiberID ∧ h.fiberID < NumOfFibers) :
    registerHits (Storage.init NumOfFibers) hits
      = some (Storage.ofClusters
          ((List.range' 0 NumOfFibers).map (fun c => channelClusters c hits))) := by
  obtain ⟨cs1, h1, hlen, hch⟩ := registerHits_init NumOfFibers hits hr
  rw [h1]
  congr 2
  apply List.ext_getElem?
  intro k
  by_cases hk : k < NumOfFibers
  · rw [hch k hk, List.getElem?_map, List.getElem?_range' _ _ hk]
    simp [channelClusters, channelHits]
  · rw [List.getElem?_eq_none (by omega), List.getElem?_eq_none (by simp; omega)]

theorem Digitize_eq_emitted (cfg : Config) (Points : List TempHit) (NumOfFibers : Nat)
    (hr : ∀ h ∈ Points, 0 ≤ h.fiberID ∧ h.fiberID < NumOfFibers) (hne : Points ≠ []) :
    Digitize cfg Points NumOfFibers
      = some (emittedFrom cfg 0
          ((List.range' 0 NumOfFibers).map (fun c => channelClusters c (sortHits Points)))) := by
  have hperm : (sortHits Points).Perm Points := List.perm_insertionSort _ _
  have hr2 : ∀ h ∈ sortHits Points, 0 ≤ h.fiberID ∧ h.fiberID < NumOfFibers :=
    fun h hh => hr h (hperm.subset hh)
  have hl : Points.length ≠ 0 := fun h => hne (List.length_eq_zero.mp h)
  simp only [Digitize, hl, if_false, registerHits_init_range NumOfFibers _ hr2, emit,
    Storage.ofClusters]
  apply emitFrom_eq_emittedFrom
  intro cl hcl
  obtain ⟨c, _, rfl⟩ := List.mem_map.mp hcl
  exact (channelClusters_shape c _).2

theorem Storage.channel_ofClusters (cs : List Clusters) (c : Nat) :
    (Storage.ofClusters cs).channel c = cs[c]? := by
  simp only [Storage.channel, Storage.ofClusters, List.getElem?_map]
  cases cs[c]? <;> rfl

theorem registerHits_channel (NumOfFibers c : Nat) (hits : List TempHit)
    (hr : ∀ h ∈ hits, 0 ≤ h.fiberID ∧ h.fiberID < NumOfFibers) (hc : c < NumOfFibers) :
    ∃ s, registerHits (Storage.init NumOfFibers) hits = some s ∧
      s.channel c = some (channelClusters c hits) ∧
      clusterCount (registerHits (Storage.init NumOfFibers) hits) c
        = (channelClusters c hits).time.length := by
  rw [registerHits_init_range NumOfFibers hits hr]
  refine ⟨_, rfl, ?_, ?_⟩
  · rw [Storage.channel_ofClusters, List.getElem?_map, List.getElem?_range' _ _ hc]
    simp
  · simp only [clusterCount, Storage.ofClusters, List.getElem?_map,
      List.getElem?_range' _ _ hc]
    simp

theorem Clusters.register_length_le (cl : Clusters) (Hit : TempHit) :
    cl.time.length ≤ (cl.register Hit).time.length := by
  simp only [Clusters.register]
  split_ifs <;> simp <;> omega

theorem Clusters.register_back_le (cl : Clusters) (Hit : TempHit) :
    (cl.register Hit).time.getLastD 0 ≤ Hit.Time := by
  simp only [Clusters.register]
  split_ifs with h1 h2
  · simp
  · simp only [List.getLastD_concat]
    exact not_lt.mp h2
  · simp

theorem Clusters.register_merge (cl : Clusters) (Hit : TempHit) (hne : cl.time ≠ [])
    (hlen : (cl.register Hit).time.length = cl.time.length) :
    Hit.Time - cl.time.getLastD 0 < 30 ∧
    (cl.register Hit).time.getLastD 0 ≤ cl.time.getLastD 0 := by
  have hl : cl.time.length ≠ 0 := fun h => hne (List.length_eq_zero.mp h)
  simp only [Clusters.register] at hlen ⊢
  split_ifs at hlen ⊢ with h1 h2
  · exact ⟨h1, by simp only [List.getLastD_concat]; exact le_of_lt h2⟩
  · exact ⟨h1, by simp⟩
  · simp at hlen

theorem foldl_register_length_le :
    ∀ (run : List TempHit) (cl : Clusters),
      cl.time.length ≤ (run.foldl Clusters.register cl).time.length
  | [], _ => le_refl _
  | Hit :: rest, cl =>
    le_trans (Clusters.register_length_le cl Hit)
      (foldl_register_length_le rest (cl.register Hit))

theorem foldl_register_no_push :
    ∀ (run : List TempHit) (cl : Clusters), cl.time ≠ [] →
      (run.foldl Clusters.register cl).time.length = cl.time.length →
      ∀ h ∈ run, h.Time - cl.time.getLastD 0 < 30
  | [], _, _, _ => by simp
  | Hit :: rest, cl, hne, hlen => by
    have h1 := Clusters.register_length_le cl Hit
    have h2 := foldl_register_length_le rest (cl.register Hit)
    rw [List.foldl_cons] at hlen
    have hl1 : (cl.register Hit).time.length = cl.time.length := by omega
    have hm := Clusters.register_merge cl Hit hne hl1
    have hne1 : (cl.register Hit).time ≠ [] := (Clusters.register_nonempty cl Hit).2.1
    have ih := foldl_register_no_push rest (cl.register Hit) hne1 (by omega)
    intro h hh
    rcases List.mem_cons.mp hh with rfl | hh
    · exact hm.1
    · have := ih h hh
      linarith [hm.2]

theorem foldl_register_push (cl : Clusters) (h1 hk : TempHit) (mid : List TempHit)
    (hspan : 30 ≤ hk.Time - h1.Time) :
    (cl.register h1).time.length
      < ((h1 :: (mid ++ [hk])).foldl Clusters.register cl).time.length := by
  have hne1 : (cl.register h1).time ≠ [] := (Clusters.register_nonempty cl h1).2.1
  have hle := foldl_register_length_le (mid ++ [hk]) (cl.register h1)
  rw [List.foldl_cons]
  by_contra hcon
  have heq : ((mid ++ [hk]).foldl Clusters.register (cl.register h1)).time.length
      = (cl.register h1).time.length := by omega
  have := foldl_register_no_push (mid ++ [hk]) (cl.register h1) hne1 heq hk (by simp)
  have hb := Clusters.register_back_le cl h1
  linarith

theorem channelHits_append (c : Nat) (A B : List TempHit) :
    channelHits c (A ++ B) = channelHits c A ++ channelHits c B := by
  simp [channelHits]

theorem channelHits_accepted (c : Nat) (h : TempHit) (hE : ¬ h.Energy < 0.0000001)
    (hid : h.fiberID = (c : ℤ)) (rest : List TempHit) :
    channelHits c (h :: rest) = h :: channelHits c rest := by
  simp [channelHits, List.filter_cons, hE, hid, not_lt.mp hE]

theorem channelClusters_push_between (c : Nat) (done mid : List TempHit) (h1 hk : TempHit)
    (hE1 : ¬ h1.Energy < 0.0000001) (hEk : ¬ hk.Energy < 0.0000001)
    (hc1 : h1.fiberID = (c : ℤ)) (hck : hk.fiberID = (c : ℤ))
    (hspan : 30 ≤ hk.Time - h1.Time) :
    (channelClusters c (done ++ [h1])).time.length
      < (channelClusters c (done ++ h1 :: (mid ++ [hk]))).time.length := by
  simp only [channelClusters, channelHits_append, List.foldl_append]
  rw [channelHits_accepted c h1 hE1 hc1, channelHits_accepted c h1 hE1 hc1,
    channelHits_append, channelHits_accepted c hk hEk hck]
  have hnil : channelHits c [] = [] := rfl
  rw [hnil]
  simp only [List.foldl_cons, List.foldl_nil]
  have := foldl_register_push
    ((channelHits c done).foldl Clusters.register Clusters.placeholder) h1 hk
    (channelHits c mid) hspan
  simpa [List.foldl_append] using this

theorem mem_prefix_of_mem (done mid : List TempHit) (h1 hk h : TempHit)
    (hh : h ∈ done ++ [h1]) : h ∈ done ++ h1 :: (mid ++ [hk]) := by
  rcases List.mem_append.mp hh with hh | hh
  · exact List.mem_append_left _ hh
  · exact List.mem_append_right _ (by
      rw [List.mem_singleton.mp hh]; exact List.mem_cons_self _ _)

/-- C22 (amended): there is no gate walking in the fiber digitizer.  The gate
is measured from the stored time of the channel's latest cluster, which a
merge can only move to an earlier time.  For every event with channel ids in
range and every processing order `done ++ h1 :: mid ++ [hk]` of its hits in
which `h1` and `hk` are hits of amplitude at least 1e-7 on channel `c` with
`hk` 30 ns or more after `h1`, channel `c` holds more clusters after `hk` has
been registered than after `h1` has: a new cluster is started in between, so
`h1` and `hk` are never merged into one cluster, however close the hits in
between follow one another. -/
theorem registerHits_no_gate_walking (NumOfFibers c : Nat) (done mid : List TempHit)
    (h1 hk : TempHit)
    (hr : ∀ h ∈ done ++ h1 :: (mid ++ [hk]), 0 ≤ h.fiberID ∧ h.fiberID < NumOfFibers)
    (hE1 : ¬ h1.Energy < 0.0000001) (hEk : ¬ hk.Energy < 0.0000001)
    (hc1 : h1.fiberID = (c : ℤ)) (hck : hk.fiberID = (c : ℤ))
    (hspan : 30 ≤ hk.Time - h1.Time) :
    clusterCount (registerHits (Storage.init NumOfFibers) (done ++ [h1])) c
      < clusterCount (registerHits (Storage.init NumOfFibers) (done ++ h1 :: (mid ++ [hk]))) c := by
  have hc : c < NumOfFibers := by
    have := hr h1 (by simp)
    omega
  obtain ⟨_, _, _, hcount1⟩ := registerHits_channel NumOfFibers c (done ++ [h1])
    (fun h hh => hr h (mem_prefix_of_mem done mid h1 hk h hh)) hc
  obtain ⟨_, _, _, hcount2⟩ := registerHits_channel NumOfFibers c _ hr hc
  rw [hcount1, hcount2]
  exact channelClusters_push_between c done mid h1 hk hE1 hEk hc1 hck hspan

/-- C22, witness: the event `walkingPoints` with hits at 0, 20 and 40: after
the first hit channel 10 holds one cluster, after the third it holds two, with
energies 0.5 + 0.3 and 0.2 and times 0 and 40. -/
theorem registerHits_no_gate_walking_witness :
    clusterCount (registerHits (Storage.init 512) [⟨10, 0.5, 0, 1⟩]) 10 = 1 ∧
    clusterCount (registerHits (Storage.init 512) (sortHits walkingPoints)) 10 = 2 ∧
    (registerHits (Storage.init 512) (sortHits walkingPoints)).bind (fun s => s.channel 10)
      = some { energy := [0.5 + 0.3, 0.2], time := [0, 40], y := [1, 3] } ∧
    clusterCount (registerHits (Storage.init 512) ([] ++ [⟨10, 0.5, 0, 1⟩])) 10
      < clusterCount (registerHits (Storage.init 512)
          ([] ++ ⟨10, 0.5, 0, 1⟩ :: ([⟨10, 0.3, 20, 2⟩] ++ [⟨10, 0.2, 40, 3⟩]))) 10 :=
  ⟨by decide!, by decide!, by decide!,
   registerHits_no_gate_walking 512 10 [] [⟨10, 0.3, 20, 2⟩] ⟨10, 0.5, 0, 1⟩ ⟨10, 0.2, 40, 3⟩
    (by decide!) (by decide!) (by decide!) (by decide!) (by decide!) (by decide!)⟩

/-- C22, counterexample: the claim has no instance.  There is no event with
channel ids in range and no processing order of it in which two hits of
amplitude at least 1e-7 on one channel, the second more than 30 ns after the
first, end up in the same cluster, that is, in which the channel holds as many
clusters after the second as after the first (this without any condition on
the hits in between, so in particular when each follows the one before by
less than 30 ns).  In the event `walkingPoints`, with hits at 0, 20 and 40 on
channel 10, the third hit starts a second cluster. -/
theorem registerHits_gate_walking_counterexample :
    (¬ ∃ (NumOfFibers c : Nat) (done mid : List TempHit) (h1 hk : TempHit),
        (∀ h ∈ done ++ h1 :: (mid ++ [hk]), 0 ≤ h.fiberID ∧ h.fiberID < NumOfFibers) ∧
        ¬ h1.Energy < 0.0000001 ∧ ¬ hk.Energy < 0.0000001 ∧
        h1.fiberID = (c : ℤ) ∧ hk.fiberID = (c : ℤ) ∧ 30 < hk.Time - h1.Time ∧
        clusterCount (registerHits (Storage.init NumOfFibers)
            (done ++ h1 :: (mid ++ [hk]))) c
          = clusterCount (registerHits (Storage.init NumOfFibers) (done ++ [h1])) c) ∧
    sortHits walkingPoints = walkingPoints ∧
    clusterCount (registerHits (Storage.init 512) (sortHits walkingPoints)) 10 = 2 := by
  refine ⟨?_, by decide!, by decide!⟩
  rintro ⟨n, c, done, mid, h1, hk, hr, hE1, hEk, hc1, hck, hspan, heq⟩
  have hc : c < n := by
    have := hr h1 (by simp)
    omega
  obtain ⟨_, _, _, hcount1⟩ := registerHits_channel n c (done ++ [h1])
    (fun h hh => hr h (mem_prefix_of_mem done mid h1 hk h hh)) hc
  obtain ⟨_, _, _, hcount2⟩ := registerHits_channel n c _ hr hc
  rw [hcount1, hcount2] at heq
  have := channelClusters_push_between c done mid h1 hk hE1 hEk hc1 hck (le_of_lt hspan)
  omega

theorem Clusters.register_keeps_first (e0 t0 y0 : ℚ) (es ts ys : List ℚ)
    (hes : es ≠ []) (hts : ts ≠ []) (hys : ys ≠ []) (Hit : TempHit) :
    ∃ es1 ts1 ys1 : List ℚ, es1 ≠ [] ∧ ts1 ≠ [] ∧ ys1 ≠ [] ∧
      ({ energy := e0 :: es, time := t0 :: ts, y := y0 :: ys } : Clusters).register Hit
        = { energy := e0 :: es1, time := t0 :: ts1, y := y0 :: ys1 } := by
  obtain ⟨e1, es1, rfl⟩ := List.exists_cons_of_ne_nil hes
  obtain ⟨t1, ts1, rfl⟩ := List.exists_cons_of_ne_nil hts
  obtain ⟨y1, ys1, rfl⟩ := List.exists_cons_of_ne_nil hys
  simp only [Clusters.register]
  by_cases hg : Hit.Time - (t0 :: t1 :: ts1).getLastD 0 < 30
  · rw [if_pos hg]
    exact ⟨(e1 :: es1).dropLast ++ [(e0 :: e1 :: es1).getLastD 0 + Hit.Energy],
      (t1 :: ts1).dropLast ++ [if (t0 :: t1 :: ts1).getLastD 0 > Hit.Time then Hit.Time
        else (t0 :: t1 :: ts1).getLastD 0],
      (y1 :: ys1).dropLast ++ [if (t0 :: t1 :: ts1).getLastD 0 > Hit.Time then Hit.Y
        else (y0 :: y1 :: ys1).getLastD 0],
      by simp, by simp, by simp, rfl⟩
  · rw [if_neg hg]
    exact ⟨(e1 :: es1) ++ [Hit.Energy], (t1 :: ts1) ++ [Hit.Time], (y1 :: ys1) ++ [Hit.Y],
      by simp, by simp, by simp, rfl⟩

theorem foldl_register_keeps_first (e0 t0 y0 : ℚ) :
    ∀ (rest : List TempHit) (es ts ys : List ℚ), es ≠ [] → ts ≠ [] → ys ≠ [] →
      ∃ es1 ts1 ys1 : List ℚ,
        rest.foldl Clusters.register { energy := e0 :: es, time := t0 :: ts, y := y0 :: ys }
          = { energy := e0 :: es1, time := t0 :: ts1, y := y0 :: ys1 }
  | [], es, ts, ys, _, _, _ => ⟨es, ts, ys, rfl⟩
  | Hit :: rest, es, ts, ys, hes, hts, hys => by
    obtain ⟨es1, ts1, ys1, h1, h2, h3, heq⟩ :=
      Clusters.register_keeps_first e0 t0 y0 es ts ys hes hts hys Hit
    rw [List.foldl_cons, heq]
    exact foldl_register_keeps_first e0 t0 y0 rest es1 ts1 ys1 h1 h2 h3

theorem Clusters.register_placeholder_cases (Hit : TempHit) :
    (Hit.Time < 99999 → Clusters.placeholder.register Hit
      = { energy := [Hit.Energy], time := [Hit.Time], y := [Hit.Y] }) ∧
    (99999 ≤ Hit.Time → Hit.Time < 100029 → Clusters.placeholder.register Hit
      = { energy := [Hit.Energy], time := [99999], y := [0] }) ∧
    (100029 ≤ Hit.Time → Clusters.placeholder.register Hit
      = { energy := [0, Hit.Energy], time := [99999, Hit.Time], y := [0, Hit.Y] }) := by
  rw [show Clusters.placeholder
      = ({ energy := [0], time := [99999], y := [0] } : Clusters) from rfl,
    Clusters.register_single]
  refine ⟨fun h => ?_, fun h1 h2 => ?_, fun h => ?_⟩
  · have hg : Hit.Time - 99999 < 30 := by linarith
    simp [hg, h]
  · have hg : Hit.Time - 99999 < 30 := by linarith
    have hn : ¬ (99999 > Hit.Time) := not_lt.mpr h1
    simp [hg, hn]
  · have hg : ¬ (Hit.Time - 99999 < 30) := by
      intro hh
      linarith
    simp [hg]

/-- C27: the placeholder edge case of the fiber digitizer.  Let the hits of an
event, in the order in which the registration loop meets them, have channel
ids in range, and let `h` be the first hit of amplitude at least 1e-7 on
channel `c`, followed on that channel by `rest`.  The loop succeeds, and the
vectors of channel `c` are those obtained by registering `rest` after `h`,
where `h` leaves: for `h.Time < 99999` one cluster with the energy, time and
position of `h`; for `99999 ≤ h.Time < 100029` one cluster with the energy of
`h` but the time 99999 and the position 0 of the placeholder; for
`h.Time ≥ 100029` the placeholder followed by a cluster with the values of
`h`.  In the last case the placeholder stays the first cluster, with energy
0, whatever follows, and the emission loop skips it. -/
theorem registerHits_placeholder_edge_case (cfg : Config) (NumOfFibers c : Nat)
    (hits : List TempHit) (h : TempHit) (rest : List TempHit)
    (hr : ∀ x ∈ hits, 0 ≤ x.fiberID ∧ x.fiberID < NumOfFibers)
    (hfirst : channelHits c hits = h :: rest) :
    ∃ s, registerHits (Storage.init NumOfFibers) hits = some s ∧
      (h.Time < 99999 → s.channel c = some (rest.foldl Clusters.register
        { energy := [h.Energy], time := [h.Time], y := [h.Y] })) ∧
      (99999 ≤ h.Time → h.Time < 100029 → s.channel c = some (rest.foldl Clusters.register
        { energy := [h.Energy], time := [99999], y := [0] })) ∧
      (100029 ≤ h.Time →
        s.channel c = some (rest.foldl Clusters.register
          { energy := [0, h.Energy], time := [99999, h.Time], y := [0, h.Y] }) ∧
        ∃ es ts ys : List ℚ,
          s.channel c = some { energy := 0 :: es, time := 99999 :: ts, y := 0 :: ys } ∧
          emitChannel cfg c (99999 :: ts) (0 :: ys) 0 (0 :: es)
            = some (emittedOf cfg c es ts ys)) := by
  have hmem : h ∈ channelHits c hits := by rw [hfirst]; exact List.mem_cons_self _ _
  have hmem2 := List.mem_filter.mp hmem
  have hid : h.fiberID = (c : ℤ) := by
    have := hmem2.2
    simp only [Bool.and_eq_true, decide_eq_true_eq] at this
    exact this.2
  have hc : c < NumOfFibers := by
    have := hr h hmem2.1
    omega
  obtain ⟨s, hs, hch, _⟩ := registerHits_channel NumOfFibers c hits hr hc
  have hcl : channelClusters c hits
      = rest.foldl Clusters.register (Clusters.placeholder.register h) := by
    simp only [channelClusters, hfirst, List.foldl_cons]
  obtain ⟨hA, hB, hC⟩ := Clusters.register_placeholder_cases h
  refine ⟨s, hs, fun ht => ?_, fun h1 h2 => ?_, fun ht => ?_⟩
  · rw [hch, hcl, hA ht]
  · rw [hch, hcl, hB h1 h2]
  · have hfin : s.channel c = some (rest.foldl Clusters.register
        { energy := [0, h.Energy], time := [99999, h.Time], y := [0, h.Y] }) := by
      rw [hch, hcl, hC ht]
    refine ⟨hfin, ?_⟩
    obtain ⟨es, ts, ys, heq⟩ := foldl_register_keeps_first 0 99999 0 rest
      [h.Energy] [h.Time] [h.Y] (by simp) (by simp) (by simp)
    refine ⟨es, ts, ys, by rw [hfin, heq], ?_⟩
    have hal := (channelClusters_shape c hits).2
    rw [hcl, hC ht, heq] at hal
    have hem := Clusters.emit_eq cfg c _ hal
    have h0 : ¬ ((0 : ℚ) > 0.0000001) := by norm_num
    simpa [Clusters.emitted, emittedOf, h0] using hem

/-- C27, witness: first hits on channel 10 at times 100000 and 100040, the
second followed by a hit at 100050. -/
theorem registerHits_placeholder_edge_case_witness :
    ((registerHits (Storage.init 512) [⟨10, 0.5, 100000, 1⟩]).bind (fun s => s.channel 10)
      = some { energy := [0.5], time := [99999], y := [0] }) ∧
    ((registerHits (Storage.init 512) [⟨10, 0.5, 100040, 1⟩, ⟨10, 0.3, 100050, 2⟩]).bind
        (fun s => s.channel 10)
      = some { energy := [0, 0.5 + 0.3], time := [99999, 100040], y := [0, 1] }) ∧
    Exec Config.default [⟨10, 0.5, 100040, 1⟩, ⟨10, 0.3, 100050, 2⟩]
      = some [{ detId := 1, x := xpos Config.default 10, yMean := 1, elossMean := 0.5 + 0.3,
                timeMean := 100040, fiberId := 10 }] ∧
    ∃ s, registerHits (Storage.init 512) [⟨10, 0.5, 100000, 1⟩] = some s ∧
      s.channel 10 = some { energy := [0.5], time := [99999], y := [0] } := by
  refine ⟨by decide!, by decide!, by decide!, ?_⟩
  obtain ⟨s, hs, _, hB, _⟩ := registerHits_placeholder_edge_case Config.default 512 10
    [⟨10, 0.5, 100000, 1⟩] ⟨10, 0.5, 100000, 1⟩ [] (by decide!) (by decide!)
  exact ⟨s, hs, hB (by decide!) (by decide!)⟩

theorem registerHits_append :
    ∀ (A B : List TempHit) (s : Storage),
      registerHits s (A ++ B) = (registerHits s A).bind (fun s1 => registerHits s1 B)
  | [], _, _ => rfl
  | Hit :: A, B, s => by
    simp only [List.cons_append, registerHits]
    cases registerHit s Hit with
    | none => rfl
    | some s1 => exact registerHits_append A B s1

/-- C30: indexing in the fiber digitizer is safe when every hit's channel id
lies in `[0, NumOfFibers)`.  After every number `k` of iterations of the
registration loop the storage is defined, has `NumOfFibers` channels, and in
each of them none of the three vectors is empty and the three have the same
length; each channel holds at least the placeholder and its number of
clusters never decreases; the next iteration, the emission loop and so the
whole of `Digitize` are defined. -/
theorem Digitize_indexing_safe (cfg : Config) (Points : List TempHit) (NumOfFibers : Nat)
    (hr : ∀ h ∈ Points, 0 ≤ h.fiberID ∧ h.fiberID < NumOfFibers) :
    (∀ k : Nat, ∃ cs : List Clusters,
      registerHits (Storage.init NumOfFibers) ((sortHits Points).take k)
        = some (Storage.ofClusters cs) ∧
      cs.length = NumOfFibers ∧ ∀ cl ∈ cs, cl.Nonempty ∧ cl.Aligned) ∧
    (∀ (k : Nat) (Hit : TempHit), (sortHits Points)[k]? = some Hit →
      ∃ s s1, registerHits (Storage.init NumOfFibers) ((sortHits Points).take k) = some s ∧
        registerHit s Hit = some s1) ∧
    (∀ k c : Nat, c < NumOfFibers →
      1 ≤ clusterCount (registerHits (Storage.init NumOfFibers) ((sortHits Points).take k)) c ∧
      clusterCount (registerHits (Storage.init NumOfFibers) ((sortHits Points).take k)) c
        ≤ clusterCount
            (registerHits (Storage.init NumOfFibers) ((sortHits Points).take (k + 1))) c) ∧
    (∃ s out, registerHits (Storage.init NumOfFibers) (sortHits Points) = some s ∧
      emit cfg s = some out) ∧
    ∃ out, Digitize cfg Points NumOfFibers = some out := by
  have hperm : (sortHits Points).Perm Points := List.perm_insertionSort _ _
  have hr2 : ∀ h ∈ sortHits Points, 0 ≤ h.fiberID ∧ h.fiberID < NumOfFibers :=
    fun h hh => hr h (hperm.subset hh)
  have hrk : ∀ k, ∀ h ∈ (sortHits Points).take k, 0 ≤ h.fiberID ∧ h.fiberID < NumOfFibers :=
    fun k h hh => hr2 h (List.mem_of_mem_take hh)
  have hstep : ∀ k : Nat, ∃ cs : List Clusters,
      registerHits (Storage.init NumOfFibers) ((sortHits Points).take k)
        = some (Storage.ofClusters cs) ∧
      cs.length = NumOfFibers ∧ ∀ cl ∈ cs, cl.Nonempty ∧ cl.Aligned := by
    intro k
    refine ⟨_, registerHits_init_range NumOfFibers _ (hrk k), by simp, ?_⟩
    intro cl hcl
    obtain ⟨c, _, rfl⟩ := List.mem_map.mp hcl
    exact channelClusters_shape c _
  have hall : ∃ s out, registerHits (Storage.init NumOfFibers) (sortHits Points) = some s ∧
      emit cfg s = some out := by
    refine ⟨_, emittedFrom cfg 0
      ((List.range' 0 NumOfFibers).map (fun c => channelClusters c (sortHits Points))),
      registerHits_init_range NumOfFibers _ hr2, ?_⟩
    simp only [emit, Storage.ofClusters]
    apply emitFrom_eq_emittedFrom
    intro cl hcl
    obtain ⟨c, _, rfl⟩ := List.mem_map.mp hcl
    exact (channelClusters_shape c _).2
  refine ⟨hstep, ?_, ?_, hall, ?_⟩
  · intro k Hit hk
    obtain ⟨cs, hcs, _, _⟩ := hstep k
    obtain ⟨cs1, hcs1, _, _⟩ := hstep (k + 1)
    have htake : (sortHits Points).take (k + 1) = (sortHits Points).take k ++ [Hit] := by
      rw [List.take_succ, hk]
      rfl
    rw [htake, registerHits_append, hcs] at hcs1
    simp only [Option.some_bind, registerHits] at hcs1
    cases hreg : registerHit (Storage.ofClusters cs) Hit with
    | none => rw [hreg] at hcs1; exact Option.noConfusion hcs1
    | some s1 => exact ⟨Storage.ofClusters cs, s1, hcs, hreg⟩
  · intro k c hc
    obtain ⟨_, _, _, h1⟩ := registerHits_channel NumOfFibers c _ (hrk k) hc
    obtain ⟨_, _, _, h2⟩ := registerHits_channel NumOfFibers c _ (hrk (k + 1)) hc
    rw [h1, h2]
    constructor
    · have hne := (channelClusters_shape c ((sortHits Points).take k)).1.2.1
      exact Nat.one_le_iff_ne_zero.mpr (fun h => hne (List.length_eq_zero.mp h))
    · cases hk : (sortHits Points)[k]? with
      | none =>
        have hlen : (sortHits Points).length ≤ k := by
          by_contra hcon
          rw [List.getElem?_eq_getElem (not_le.mp hcon)] at hk
          exact Option.noConfusion hk
        rw [List.take_of_length_le hlen, List.take_of_length_le (by omega)]
      | some Hit =>
        have htake : (sortHits Points).take (k + 1) = (sortHits Points).take k ++ [Hit] := by
          rw [List.take_succ, hk]
          rfl
        rw [htake]
        simp only [channelClusters, channelHits_append, List.foldl_append]
        exact foldl_register_length_le _ _
  · by_cases hP : Points = []
    · exact ⟨[], by rw [hP]; rfl⟩
    · exact ⟨_, Digitize_eq_emitted cfg Points NumOfFibers hr hP⟩

/-- C30, witness: the event `gatePoints 29` with the 512 channels of the
constructor. -/
theorem Digitize_indexing_safe_witness :
    ∃ out, Digitize Config.default (gatePoints 29) 512 = some out :=
  (Digitize_indexing_safe Config.default (gatePoints 29) 512 (by decide!)).2.2.2.2

theorem emittedOf_eloss (cfg : Config) (i : Nat) :
    ∀ (es ts ys : List ℚ), es.length = ts.length → ys.length = ts.length →
      (emittedOf cfg i es ts ys).map FiberHit.elossMean = passing es
  | [], ts, ys, _, _ => by
    cases ts <;> cases ys <;> simp [emittedOf, passing]
  | e :: es, [], _, h1, _ => by simp at h1
  | e :: es, t :: ts, [], _, h2 => by simp at h2
  | e :: es, t :: ts, y :: ys, h1, h2 => by
    have ih := emittedOf_eloss cfg i es ts ys (by simpa using h1) (by simpa using h2)
    simp only [passing] at ih ⊢
    by_cases he : e > 0.0000001
    · simp [emittedOf, he, List.filter_cons, ih]
    · simp [emittedOf, he, List.filter_cons, ih]

theorem passing_sum_of_clean :
    ∀ es : List ℚ, (∀ e ∈ es, e = 0 ∨ e > 0.0000001) → (passing es).sum = es.sum
  | [], _ => rfl
  | e :: es, h => by
    have ih := passing_sum_of_clean es (fun x hx => h x (List.mem_cons_of_mem _ hx))
    simp only [passing] at ih ⊢
    rcases h e (List.mem_cons_self _ _) with h0 | hp
    · subst h0
      have hn : ¬ ((0.0000001 : ℚ) < 0) := by norm_num
      simp [List.filter_cons, hn, ih]
    · simp [List.filter_cons, hp, ih]

theorem concat_of_ne_nil (l : List ℚ) (h : l ≠ []) :
    ∃ front back, l = front ++ [back] ∧ l.dropLast = front ∧ l.getLastD 0 = back := by
  rcases List.eq_nil_or_concat l with h0 | ⟨front, back, hl⟩
  · exact absurd h0 h
  · rw [List.concat_eq_append] at hl
    exact ⟨front, back, hl, by rw [hl, List.dropLast_concat],
      by rw [hl, List.getLastD_concat]⟩

theorem Clusters.register_energy (cl : Clusters) (Hit : TempHit) (hne : cl.Nonempty)
    (hcl : cl.Clean) (hE : Hit.Energy > 0.0000001) :
    (cl.register Hit).Clean ∧
    (cl.register Hit).energy.sum = cl.energy.sum + Hit.Energy ∧
    (passing (cl.register Hit).energy).length ≤ (passing cl.energy).length + 1 := by
  obtain ⟨front, back, hl, hd, hb⟩ := concat_of_ne_nil cl.energy hne.1
  have hback : back = 0 ∨ back > 0.0000001 := hcl back (by rw [hl]; simp)
  have hfront : ∀ e ∈ front, e = 0 ∨ e > 0.0000001 :=
    fun e he => hcl e (by rw [hl]; exact List.mem_append_left _ he)
  have hreg : (cl.register Hit).energy
      = if Hit.Time - cl.time.getLastD 0 < 30 then front ++ [back + Hit.Energy]
        else cl.energy ++ [Hit.Energy] := by
    simp only [Clusters.register]
    by_cases hg : Hit.Time - cl.time.getLastD 0 < 30
    · rw [if_pos hg, if_pos hg]
      simp only [hd, hb]
    · rw [if_neg hg, if_neg hg]
  simp only [Clusters.Clean, hreg]
  by_cases hg : Hit.Time - cl.time.getLastD 0 < 30
  · rw [if_pos hg]
    refine ⟨?_, ?_, ?_⟩
    · intro e he
      rcases List.mem_append.mp he with he | he
      · exact hfront e he
      · right
        rw [List.mem_singleton.mp he]
        rcases hback with h0 | hp <;> linarith
    · rw [hl]
      simp only [List.sum_append, List.sum_cons, List.sum_nil]
      ring
    · rw [hl]
      simp only [passing, List.filter_append, List.length_append]
      have : (List.filter (fun e => decide (e > 0.0000001)) [back + Hit.Energy]).length ≤ 1 :=
        le_trans (List.length_filter_le _ _) (by simp)
      omega
  · rw [if_neg hg]
    refine ⟨?_, ?_, ?_⟩
    · intro e he
      rcases List.mem_append.mp he with he | he
      · exact hcl e he
      · right
        rw [List.mem_singleton.mp he]
        exact hE
    · simp
    · simp only [passing, List.filter_append, List.length_append]
      have : (List.filter (fun e => decide (e > 0.0000001)) [Hit.Energy]).length ≤ 1 :=
        le_trans (List.length_filter_le _ _) (by simp)
      omega

theorem foldl_register_energy :
    ∀ (L : List TempHit) (cl : Clusters), cl.Nonempty → cl.Clean →
      (∀ h ∈ L, h.Energy > 0.0000001) →
      (L.foldl Clusters.register cl).Clean ∧
      (L.foldl Clusters.register cl).energy.sum = cl.energy.sum + (L.map TempHit.Energy).sum ∧
      (passing (L.foldl Clusters.register cl).energy).length
        ≤ (passing cl.energy).length + L.length
  | [], _, _, hcl, _ => ⟨hcl, by simp, by simp⟩
  | Hit :: rest, cl, hne, hcl, hE => by
    obtain ⟨h1, h2, h3⟩ := Clusters.register_energy cl Hit hne hcl
      (hE Hit (List.mem_cons_self _ _))
    obtain ⟨i1, i2, i3⟩ := foldl_register_energy rest (cl.register Hit)
      (Clusters.register_nonempty cl Hit) h1 (fun h hh => hE h (List.mem_cons_of_mem _ hh))
    refine ⟨i1, ?_, ?_⟩
    · rw [List.foldl_cons, i2, h2]
      simp only [List.map_cons, List.sum_cons]
      ring
    · rw [List.foldl_cons]
      simp only [List.length_cons]
      omega

theorem channelClusters_emitted (cfg : Config) (c : Nat) (hits : List TempHit)
    (hstrict : ∀ h ∈ hits, ¬ h.Energy < 0.0000001 → h.Energy > 0.0000001) :
    (((channelClusters c hits).emitted cfg c).map FiberHit.elossMean).sum
      = ((channelHits c hits).map TempHit.Energy).sum ∧
    ((channelClusters c hits).emitted cfg c).length ≤ (channelHits c hits).length := by
  have hE : ∀ h ∈ channelHits c hits, h.Energy > 0.0000001 := by
    intro h hh
    have hm := List.mem_filter.mp hh
    have := hm.2
    simp only [Bool.and_eq_true, decide_eq_true_eq] at this
    exact hstrict h hm.1 this.1
  obtain ⟨h1, h2, h3⟩ := foldl_register_energy (channelHits c hits) Clusters.placeholder
    (by simp [Clusters.Nonempty, Clusters.placeholder])
    (by intro e he; left; simpa [Clusters.placeholder] using he) hE
  have h1 : (channelClusters c hits).Clean := h1
  have h2 : (channelClusters c hits).energy.sum
      = Clusters.placeholder.energy.sum + ((channelHits c hits).map TempHit.Energy).sum := h2
  have h3 : (passing (channelClusters c hits).energy).length
      ≤ (passing Clusters.placeholder.energy).length + (channelHits c hits).length := h3
  have hal := (channelClusters_shape c hits).2
  have hel := emittedOf_eloss cfg c (channelClusters c hits).energy (channelClusters c hits).time
    (channelClusters c hits).y hal.1 hal.2
  constructor
  · rw [Clusters.emitted, hel, passing_sum_of_clean _ h1, h2]
    simp [Clusters.placeholder]
  · have hlen : ((channelClusters c hits).emitted cfg c).length
        = (passing (channelClusters c hits).energy).length := by
      rw [← hel, Clusters.emitted, List.length_map]
    rw [hlen]
    have h0 : (passing Clusters.placeholder.energy).length = 0 := by
      norm_num [passing, Clusters.placeholder]
    omega

theorem emittedFrom_range (cfg : Config) (g : Nat → Clusters) :
    ∀ (n i : Nat),
      ((emittedFrom cfg i ((List.range' i n).map g)).map FiberHit.elossMean).sum
        = ((List.range' i n).map
            (fun c => (((g c).emitted cfg c).map FiberHit.elossMean).sum)).sum ∧
      (emittedFrom cfg i ((List.range' i n).map g)).length
        = ((List.range' i n).map (fun c => ((g c).emitted cfg c).length)).sum
  | 0, _ => by simp [emittedFrom]
  | n + 1, i => by
    obtain ⟨ih1, ih2⟩ := emittedFrom_range cfg g n (i + 1)
    simp only [List.range'_succ, List.map_cons, emittedFrom, List.map_append, List.sum_append,
      List.sum_cons, List.length_append, ih1, ih2]
    exact ⟨trivial, trivial⟩

theorem sum_indicator_range' {M : Type} [AddCommMonoid M] (v : M) (k : Nat) :
    ∀ (n s : Nat), s ≤ k → k < s + n →
      ((List.range' s n).map (fun c => if k = c then v else 0)).sum = v
  | 0, s, h1, h2 => by omega
  | n + 1, s, h1, h2 => by
    simp only [List.range'_succ, List.map_cons, List.sum_cons]
    by_cases hk : k = s
    · have hz : ((List.range' (s + 1) n).map (fun c => if k = c then v else 0)).sum = 0 := by
        rw [← List.sum_map_zero (l := List.range' (s + 1) n)]
        congr 1
        apply List.map_congr_left
        intro c hc
        have := (List.mem_range'_1.mp hc).1
        have : k ≠ c := by omega
        simp [this]
      rw [hz, if_pos hk, add_zero]
    · rw [if_neg hk, zero_add]
      exact sum_indicator_range' v k n (s + 1) (by omega) (by omega)

theorem sum_channelHits {M : Type} [AddCommMonoid M] (f : TempHit → M) (n : Nat) :
    ∀ (L : List TempHit), (∀ h ∈ L, 0 ≤ h.fiberID ∧ h.fiberID < n) →
      ((List.range' 0 n).map (fun c => ((channelHits c L).map f).sum)).sum
        = ((acceptedHits L).map f).sum
  | [], _ => by simp [channelHits, acceptedHits]
  | h :: L, hr => by
    have ih := sum_channelHits f n L (fun x hx => hr x (List.mem_cons_of_mem _ hx))
    have hh := hr h (List.mem_cons_self _ _)
    by_cases hE : h.Energy < 0.0000001
    · have h1 : ∀ c, channelHits c (h :: L) = channelHits c L := by
        intro c
        simp [channelHits, List.filter_cons, hE, not_le.mpr hE]
      have h2 : acceptedHits (h :: L) = acceptedHits L := by
        simp [acceptedHits, List.filter_cons, hE, not_le.mpr hE]
      simp only [h1, h2, ih]
    · have h2 : acceptedHits (h :: L) = h :: acceptedHits L := by
        simp [acceptedHits, List.filter_cons, hE, not_lt.mp hE]
      have h1 : ∀ c : Nat, ((channelHits c (h :: L)).map f).sum
          = (if h.fiberID.toNat = c then f h else 0) + ((channelHits c L).map f).sum := by
        intro c
        by_cases hc : h.fiberID = (c : ℤ)
        · have : h.fiberID.toNat = c := by rw [hc]; simp
          rw [channelHits_accepted c h hE hc, if_pos this]
          simp
        · have : ¬ h.fiberID.toNat = c := by
            intro hcon
            apply hc
            rw [← hcon]
            exact (Int.toNat_of_nonneg hh.1).symm
          rw [if_neg this, zero_add]
          simp [channelHits, List.filter_cons, hc]
      simp only [h1, h2, List.sum_map_add, ih, List.map_cons, List.sum_cons]
      rw [sum_indicator_range' (f h) h.fiberID.toNat n 0 (Nat.zero_le _) (by omega)]

/-- C28: amplitude conservation in the fiber digitizer.  For every event whose
hits all have a channel id in `[0, NumOfFibers)` and in which every hit of
amplitude at least 1e-7 has an amplitude strictly above 1e-7, `Digitize`
succeeds, the sum of the amplitude means of the output hits equals the sum of
the amplitudes of the input hits of amplitude at least 1e-7, and there are at
most as many output hits as such input hits. -/
theorem Digitize_conserves_amplitude (cfg : Config) (Points : List TempHit)
    (NumOfFibers : Nat)
    (hr : ∀ h ∈ Points, 0 ≤ h.fiberID ∧ h.fiberID < NumOfFibers)
    (hstrict : ∀ h ∈ Points, ¬ h.Energy < 0.0000001 → h.Energy > 0.0000001) :
    ∃ out, Digitize cfg Points NumOfFibers = some out ∧
      (out.map FiberHit.elossMean).sum = ((acceptedHits Points).map TempHit.Energy).sum ∧
      out.length ≤ (acceptedHits Points).length := by
  by_cases hP : Points = []
  · subst hP
    exact ⟨[], rfl, rfl, le_refl _⟩
  · have hperm : (sortHits Points).Perm Points := List.perm_insertionSort _ _
    have hr2 : ∀ h ∈ sortHits Points, 0 ≤ h.fiberID ∧ h.fiberID < NumOfFibers :=
      fun h hh => hr h (hperm.subset hh)
    have hs2 : ∀ h ∈ sortHits Points, ¬ h.Energy < 0.0000001 → h.Energy > 0.0000001 :=
      fun h hh => hstrict h (hperm.subset hh)
    have hacc : (acceptedHits (sortHits Points)).Perm (acceptedHits Points) :=
      hperm.filter _
    obtain ⟨e1, e2⟩ := emittedFrom_range cfg (fun c => channelClusters c (sortHits Points))
      NumOfFibers 0
    refine ⟨_, Digitize_eq_emitted cfg Points NumOfFibers hr hP, ?_, ?_⟩
    · rw [e1]
      have : (List.range' 0 NumOfFibers).map
            (fun c => (((channelClusters c (sortHits Points)).emitted cfg c).map
              FiberHit.elossMean).sum)
          = (List.range' 0 NumOfFibers).map
            (fun c => ((channelHits c (sortHits Points)).map TempHit.Energy).sum) := by
        apply List.map_congr_left
        intro c _
        exact (channelClusters_emitted cfg c _ hs2).1
      rw [this, sum_channelHits TempHit.Energy NumOfFibers _ hr2]
      exact (hacc.map _).sum_eq
    · rw [e2]
      have hle : ((List.range' 0 NumOfFibers).map
            (fun c => ((channelClusters c (sortHits Points)).emitted cfg c).length)).sum
          ≤ ((List.range' 0 NumOfFibers).map
            (fun c => ((channelHits c (sortHits Points)).map (fun _ => 1)).sum)).sum := by
        apply List.sum_le_sum
        intro c _
        have := (channelClusters_emitted cfg c _ hs2).2
        simpa using this
      have hsum := sum_channelHits (fun _ => (1 : ℕ)) NumOfFibers _ hr2
      rw [hsum] at hle
      have hlen : ((acceptedHits (sortHits Points)).map (fun _ => (1 : ℕ))).sum
          = (acceptedHits Points).length := by
        simp [hacc.length_eq]
      omega

/-- C28, witness: the event `gatePoints 31`, with accepted amplitudes 0.3, 0.2
and 0.5 on two channels: three output hits whose amplitude means sum to 1. -/
theorem Digitize_conserves_amplitude_witness :
    ((Digitize Config.default (gatePoints 31) 512).map
        (fun out => (out.length, (out.map FiberHit.elossMean).sum)) = some (3, 1)) ∧
    ∃ out, Digitize Config.default (gatePoints 31) 512 = some out ∧
      (out.map FiberHit.elossMean).sum
        = ((acceptedHits (gatePoints 31)).map TempHit.Energy).sum ∧
      out.length ≤ (acceptedHits (gatePoints 31)).length :=
  ⟨by decide!,
   Digitize_conserves_amplitude Config.default (gatePoints 31) 512 (by decide!) (by decide!)⟩

end R3BFiberDigitizer

/-! # Rounding to double -/

namespace IEEE754

open R3BFiberDigitizer

theorem ilog2Aux_spec_ge : ∀ (fuel : Nat) (a : ℚ) (acc : ℤ), 1 ≤ a → a < 2 ^ (fuel + 1) →
    (2 : ℚ) ^ (ilog2Aux fuel a acc - acc) ≤ a ∧ a < (2 : ℚ) ^ (ilog2Aux fuel a acc - acc + 1)
  | 0, a, acc, h1, h2 => by
    simp only [ilog2Aux, sub_self, zpow_zero, zero_add, zpow_one]
    norm_num at h2
    exact ⟨h1, h2⟩
  | fuel + 1, a, acc, h1, h2 => by
    by_cases h : 2 ≤ a
    · have ih := ilog2Aux_spec_ge fuel (a / 2) (acc + 1) (by linarith)
        (by rw [pow_succ] at h2; linarith)
      simp only [ilog2Aux, if_pos h]
      obtain ⟨ih1, ih2⟩ := ih
      have e1 : ilog2Aux fuel (a / 2) (acc + 1) - acc
          = (ilog2Aux fuel (a / 2) (acc + 1) - (acc + 1)) + 1 := by ring
      constructor
      · rw [e1, zpow_add_one₀ (by norm_num)]
        linarith
      · rw [e1, zpow_add_one₀ (by norm_num)]
        linarith
    · have h3 : ¬ a < 1 := not_lt.mpr h1
      simp only [ilog2Aux, if_neg h, if_neg h3, sub_self, zpow_zero, zero_add, zpow_one]
      exact ⟨h1, not_le.mp h⟩

theorem ilog2Aux_spec_lt : ∀ (fuel : Nat) (a : ℚ) (acc : ℤ), a < 1 →
    (2 : ℚ) ^ (-(fuel : ℤ)) ≤ a →
    (2 : ℚ) ^ (ilog2Aux fuel a acc - acc) ≤ a ∧ a < (2 : ℚ) ^ (ilog2Aux fuel a acc - acc + 1)
  | 0, a, acc, h1, h2 => by
    norm_num at h2
    linarith
  | fuel + 1, a, acc, h1, h2 => by
    have h : ¬ 2 ≤ a := by linarith
    simp only [ilog2Aux, if_neg h, if_pos h1]
    have h2' : (2 : ℚ) ^ (-(fuel : ℤ)) ≤ a * 2 := by
      have : (2 : ℚ) ^ (-(fuel : ℤ)) = 2 ^ (-((fuel + 1 : ℕ) : ℤ)) * 2 := by
        rw [← zpow_add_one₀ (by norm_num)]
        congr 1
        push_cast
        ring
      rw [this]
      linarith
    have e1 : ∀ r : ℤ, r - acc = (r - (acc - 1)) - 1 := fun r => by ring
    have key : (2 : ℚ) ^ (ilog2Aux fuel (a * 2) (acc - 1) - (acc - 1)) ≤ a * 2 ∧
        a * 2 < (2 : ℚ) ^ (ilog2Aux fuel (a * 2) (acc - 1) - (acc - 1) + 1) := by
      by_cases h4 : a * 2 < 1
      · exact ilog2Aux_spec_lt fuel (a * 2) (acc - 1) h4 h2'
      · refine ilog2Aux_spec_ge fuel (a * 2) (acc - 1) (not_lt.mp h4) ?_
        have : (2 : ℚ) ≤ 2 ^ (fuel + 1) := by
          calc (2 : ℚ) = 2 ^ 1 := by norm_num
            _ ≤ 2 ^ (fuel + 1) := pow_le_pow_right₀ (by norm_num) (by omega)
        linarith
    obtain ⟨k1, k2⟩ := key
    rw [e1]
    constructor
    · rw [zpow_sub_one₀ (by norm_num)]
      linarith
    · rw [sub_add_cancel]
      rw [zpow_add_one₀ (by norm_num)] at k2
      linarith

theorem ilog2_spec (q : ℚ) (hq : q ≠ 0) :
    (2 : ℚ) ^ (ilog2 q) ≤ |q| ∧ |q| < (2 : ℚ) ^ (ilog2 q + 1) := by
  have hpos : 0 < |q| := abs_pos.mpr hq
  have habs : |q| = (q.num.natAbs : ℚ) / (q.den : ℚ) := by
    have h1 : |q| = |(q.num : ℚ)| / |(q.den : ℚ)| := by
      rw [← abs_div, Rat.num_div_den]
    rw [h1, Nat.abs_cast, ← Int.cast_abs, Int.abs_eq_natAbs, Int.cast_natCast]
  have hden : (0 : ℚ) < q.den := by exact_mod_cast q.den_pos
  have hden1 : (1 : ℚ) ≤ q.den := by exact_mod_cast q.den_pos
  have hnum1 : (1 : ℚ) ≤ q.num.natAbs := by
    have : 0 < q.num.natAbs := Int.natAbs_pos.mpr (Rat.num_ne_zero.mpr hq)
    exact_mod_cast this
  have hpow : ∀ n : ℕ, (n : ℚ) < 2 ^ n := fun n => by exact_mod_cast Nat.lt_two_pow n
  have key := (show
      (2 : ℚ) ^ (ilog2Aux (q.num.natAbs + q.den) |q| 0 - 0) ≤ |q| ∧
      |q| < (2 : ℚ) ^ (ilog2Aux (q.num.natAbs + q.den) |q| 0 - 0 + 1) from by
    by_cases h1 : |q| < 1
    · refine ilog2Aux_spec_lt _ _ _ h1 ?_
      have h2 : (2 : ℚ) ^ (-((q.num.natAbs + q.den : ℕ) : ℤ)) ≤ 1 / (q.den : ℚ) := by
        rw [zpow_neg, zpow_natCast, ← one_div]
        apply one_div_le_one_div_of_le hden
        calc (q.den : ℚ) ≤ 2 ^ q.den := le_of_lt (hpow _)
          _ ≤ 2 ^ (q.num.natAbs + q.den) := pow_le_pow_right₀ (by norm_num) (by omega)
      refine le_trans h2 ?_
      rw [habs]
      exact div_le_div_of_nonneg_right hnum1 (le_of_lt hden)
    · refine ilog2Aux_spec_ge _ _ _ (not_lt.mp h1) ?_
      have h2 : |q| ≤ (q.num.natAbs : ℚ) := by
        rw [habs]
        exact div_le_self (by positivity) hden1
      calc |q| ≤ (q.num.natAbs : ℚ) := h2
        _ < 2 ^ q.num.natAbs := hpow _
        _ ≤ 2 ^ (q.num.natAbs + q.den + 1) := pow_le_pow_right₀ (by norm_num) (by omega))
  simpa [ilog2] using key

theorem ilog2_le_of_abs_le (x y : ℚ) (hx : x ≠ 0) (hy : y ≠ 0) (h : |x| ≤ |y|) :
    ilog2 x ≤ ilog2 y := by
  obtain ⟨hx1, _⟩ := ilog2_spec x hx
  obtain ⟨_, hy2⟩ := ilog2_spec y hy
  have : (2 : ℚ) ^ (ilog2 x) < 2 ^ (ilog2 y + 1) := lt_of_le_of_lt (le_trans hx1 h) hy2
  have := (zpow_lt_zpow_iff_right₀ (by norm_num : (1 : ℚ) < 2)).mp this
  omega

theorem roundHalfEven_intCast (n : ℤ) : roundHalfEven (n : ℚ) = n := by
  simp [roundHalfEven]

theorem roundHalfEven_bounds (q : ℚ) : ⌊q⌋ ≤ roundHalfEven q ∧ roundHalfEven q ≤ ⌊q⌋ + 1 := by
  simp only [roundHalfEven]
  split_ifs <;> constructor <;> omega

theorem roundHalfEven_mono {x y : ℚ} (h : x ≤ y) : roundHalfEven x ≤ roundHalfEven y := by
  have hf : ⌊x⌋ ≤ ⌊y⌋ := Int.floor_mono h
  rcases lt_or_eq_of_le hf with hlt | heq
  · have := (roundHalfEven_bounds x).2
    have := (roundHalfEven_bounds y).1
    omega
  · have hr : x - ⌊x⌋ ≤ y - ⌊y⌋ := by rw [heq]; linarith
    simp only [roundHalfEven, heq]
    rw [heq] at hr
    split_ifs <;> first | omega | (exfalso; linarith)

theorem binary64_zero : binary64 0 = 0 := by simp [binary64]

theorem binary64_of_ne (q : ℚ) (hq : q ≠ 0) :
    binary64 q = roundHalfEven (q / 2 ^ (max (ilog2 q) (-1022) - 52))
      * 2 ^ (max (ilog2 q) (-1022) - 52) := by
  simp [binary64, hq]

theorem binary64_nonneg {q : ℚ} (h : 0 ≤ q) : 0 ≤ binary64 q := by
  by_cases hq : q = 0
  · rw [hq, binary64_zero]
  · rw [binary64_of_ne q hq]
    have hu : (0 : ℚ) < 2 ^ (max (ilog2 q) (-1022) - 52) := by positivity
    have h1 : roundHalfEven 0 ≤ roundHalfEven (q / 2 ^ (max (ilog2 q) (-1022) - 52)) :=
      roundHalfEven_mono (div_nonneg h (le_of_lt hu))
    have h0 : roundHalfEven 0 = 0 := by simpa using roundHalfEven_intCast 0
    rw [h0] at h1
    have : (0 : ℚ) ≤ (roundHalfEven (q / 2 ^ (max (ilog2 q) (-1022) - 52)) : ℚ) := by
      exact_mod_cast h1
    positivity

theorem binary64_nonpos {q : ℚ} (h : q ≤ 0) : binary64 q ≤ 0 := by
  by_cases hq : q = 0
  · rw [hq, binary64_zero]
  · rw [binary64_of_ne q hq]
    have hu : (0 : ℚ) < 2 ^ (max (ilog2 q) (-1022) - 52) := by positivity
    have h1 : roundHalfEven (q / 2 ^ (max (ilog2 q) (-1022) - 52)) ≤ roundHalfEven 0 :=
      roundHalfEven_mono (div_nonpos_of_nonpos_of_nonneg h (le_of_lt hu))
    have h0 : roundHalfEven 0 = 0 := by simpa using roundHalfEven_intCast 0
    rw [h0] at h1
    have : (roundHalfEven (q / 2 ^ (max (ilog2 q) (-1022) - 52)) : ℚ) ≤ 0 := by
      exact_mod_cast h1
    exact mul_nonpos_of_nonpos_of_nonneg this (le_of_lt hu)

theorem two_zpow_split (e : ℤ) : (2 : ℚ) ^ (e + 1) = 2 ^ (53 : ℕ) * 2 ^ (e - 52) := by
  rw [← zpow_natCast, ← zpow_add₀ (by norm_num)]
  congr 1
  norm_num
  ring

theorem two_zpow_split52 (e : ℤ) : (2 : ℚ) ^ e = 2 ^ (52 : ℕ) * 2 ^ (e - 52) := by
  rw [← zpow_natCast, ← zpow_add₀ (by norm_num)]
  congr 1
  norm_num

theorem binary64_abs_le (q : ℚ) (hq : q ≠ 0) :
    -(2 : ℚ) ^ (max (ilog2 q) (-1022) + 1) ≤ binary64 q ∧
    binary64 q ≤ (2 : ℚ) ^ (max (ilog2 q) (-1022) + 1) := by
  obtain ⟨_, h2⟩ := ilog2_spec q hq
  have hu : (0 : ℚ) < 2 ^ (max (ilog2 q) (-1022) - 52) := by positivity
  have h3 : |q| < (2 : ℚ) ^ (max (ilog2 q) (-1022) + 1) :=
    lt_of_lt_of_le h2 (zpow_le_zpow_right₀ (by norm_num) (by omega))
  rw [two_zpow_split] at h3 ⊢
  rw [binary64_of_ne q hq]
  have hq1 := abs_lt.mp h3
  have hc : ((2 ^ 53 : ℤ) : ℚ) = 2 ^ (53 : ℕ) := by norm_num
  have hc2 : (((-(2 ^ 53) : ℤ)) : ℚ) = -2 ^ (53 : ℕ) := by norm_num
  constructor
  · have : ((-(2 ^ 53) : ℤ) : ℚ) ≤ q / 2 ^ (max (ilog2 q) (-1022) - 52) := by
      rw [hc2, le_div_iff₀ hu]
      linarith
    have := roundHalfEven_mono this
    rw [roundHalfEven_intCast] at this
    have h5 : ((-(2 ^ 53) : ℤ) : ℚ) ≤ (roundHalfEven (q / 2 ^ (max (ilog2 q) (-1022) - 52)) : ℚ) := by
      exact_mod_cast this
    rw [hc2] at h5
    have := mul_le_mul_of_nonneg_right h5 (le_of_lt hu)
    linarith
  · have : q / 2 ^ (max (ilog2 q) (-1022) - 52) ≤ ((2 ^ 53 : ℤ) : ℚ) := by
      rw [hc, div_le_iff₀ hu]
      linarith
    have := roundHalfEven_mono this
    rw [roundHalfEven_intCast] at this
    have h5 : (roundHalfEven (q / 2 ^ (max (ilog2 q) (-1022) - 52)) : ℚ) ≤ ((2 ^ 53 : ℤ) : ℚ) := by
      exact_mod_cast this
    rw [hc] at h5
    exact mul_le_mul_of_nonneg_right h5 (le_of_lt hu)

theorem binary64_ge_pow (q : ℚ) (hq : 0 < q) (he : -1022 ≤ ilog2 q) :
    (2 : ℚ) ^ (ilog2 q) ≤ binary64 q := by
  obtain ⟨h1, _⟩ := ilog2_spec q (ne_of_gt hq)
  rw [abs_of_pos hq] at h1
  rw [binary64_of_ne q (ne_of_gt hq), max_eq_left he]
  have hu : (0 : ℚ) < 2 ^ (ilog2 q - 52) := by positivity
  have hc : ((2 ^ 52 : ℤ) : ℚ) = 2 ^ (52 : ℕ) := by norm_num
  have : ((2 ^ 52 : ℤ) : ℚ) ≤ q / 2 ^ (ilog2 q - 52) := by
    rw [hc, le_div_iff₀ hu, ← two_zpow_split52]
    exact h1
  have := roundHalfEven_mono this
  rw [roundHalfEven_intCast] at this
  have h5 : ((2 ^ 52 : ℤ) : ℚ) ≤ (roundHalfEven (q / 2 ^ (ilog2 q - 52)) : ℚ) := by
    exact_mod_cast this
  rw [hc] at h5
  nth_rewrite 1 [two_zpow_split52 (ilog2 q)]
  exact mul_le_mul_of_nonneg_right h5 (le_of_lt hu)

theorem binary64_le_neg_pow (q : ℚ) (hq : q < 0) (he : -1022 ≤ ilog2 q) :
    binary64 q ≤ -(2 : ℚ) ^ (ilog2 q) := by
  obtain ⟨h1, _⟩ := ilog2_spec q (ne_of_lt hq)
  rw [abs_of_neg hq] at h1
  rw [binary64_of_ne q (ne_of_lt hq), max_eq_left he]
  have hu : (0 : ℚ) < 2 ^ (ilog2 q - 52) := by positivity
  have hc : ((-(2 ^ 52) : ℤ) : ℚ) = -2 ^ (52 : ℕ) := by norm_num
  have : q / 2 ^ (ilog2 q - 52) ≤ ((-(2 ^ 52) : ℤ) : ℚ) := by
    rw [hc, div_le_iff₀ hu, neg_mul, ← two_zpow_split52]
    linarith
  have := roundHalfEven_mono this
  rw [roundHalfEven_intCast] at this
  have h5 : (roundHalfEven (q / 2 ^ (ilog2 q - 52)) : ℚ) ≤ ((-(2 ^ 52) : ℤ) : ℚ) := by
    exact_mod_cast this
  rw [hc] at h5
  have := mul_le_mul_of_nonneg_right h5 (le_of_lt hu)
  rw [neg_mul, ← two_zpow_split52] at this
  exact this

theorem binary64_same_ulp (x y : ℚ) (hx : x ≠ 0) (hy : y ≠ 0) (h : x ≤ y)
    (he : max (ilog2 x) (-1022) = max (ilog2 y) (-1022)) : binary64 x ≤ binary64 y := by
  rw [binary64_of_ne x hx, binary64_of_ne y hy, he]
  have hu : (0 : ℚ) < 2 ^ (max (ilog2 y) (-1022) - 52) := by positivity
  have : x / 2 ^ (max (ilog2 y) (-1022) - 52) ≤ y / 2 ^ (max (ilog2 y) (-1022) - 52) :=
    div_le_div_of_nonneg_right h (le_of_lt hu)
  have := roundHalfEven_mono this
  have h5 : (roundHalfEven (x / 2 ^ (max (ilog2 y) (-1022) - 52)) : ℚ)
      ≤ (roundHalfEven (y / 2 ^ (max (ilog2 y) (-1022) - 52)) : ℚ) := by exact_mod_cast this
  exact mul_le_mul_of_nonneg_right h5 (le_of_lt hu)

/-- Rounding to `double` is monotone. -/
theorem binary64_monotone : Monotone binary64 := by
  intro x y h
  by_cases hx : x = 0
  · rw [hx, binary64_zero]
    exact binary64_nonneg (hx ▸ h)
  by_cases hy : y = 0
  · rw [hy, binary64_zero]
    exact binary64_nonpos (hy ▸ h)
  rcases lt_or_gt_of_ne hx with hxn | hxp
  · rcases lt_or_gt_of_ne hy with hyn | hyp
    · have habs : |y| ≤ |x| := by rw [abs_of_neg hxn, abs_of_neg hyn]; linarith
      have hle := ilog2_le_of_abs_le y x hy hx habs
      by_cases he : max (ilog2 x) (-1022) = max (ilog2 y) (-1022)
      · exact binary64_same_ulp x y hx hy h he
      · have hlt : max (ilog2 y) (-1022) < ilog2 x := by
          rcases le_total (ilog2 x) (-1022) with h1 | h1
          · exfalso; apply he
            rw [max_eq_right h1, max_eq_right (le_trans hle h1)]
          · rw [max_eq_left h1] at he
            have : max (ilog2 y) (-1022) ≤ ilog2 x := max_le hle h1
            omega
        have h1 := binary64_le_neg_pow x hxn (by have := le_max_right (ilog2 y) (-1022); omega)
        have h2 := (binary64_abs_le y hy).1
        have h3 : (2 : ℚ) ^ (max (ilog2 y) (-1022) + 1) ≤ 2 ^ (ilog2 x) :=
          zpow_le_zpow_right₀ (by norm_num) (by omega)
        linarith
    · exact le_trans (binary64_nonpos (le_of_lt hxn)) (binary64_nonneg (le_of_lt hyp))
  · have hyp : 0 < y := lt_of_lt_of_le hxp h
    have habs : |x| ≤ |y| := by rw [abs_of_pos hxp, abs_of_pos hyp]; exact h
    have hle := ilog2_le_of_abs_le x y hx hy habs
    by_cases he : max (ilog2 x) (-1022) = max (ilog2 y) (-1022)
    · exact binary64_same_ulp x y hx hy h he
    · have hlt : max (ilog2 x) (-1022) < ilog2 y := by
        rcases le_total (ilog2 y) (-1022) with h1 | h1
        · exfalso; apply he
          rw [max_eq_right h1, max_eq_right (le_trans hle h1)]
        · rw [max_eq_left h1] at he
          have : max (ilog2 x) (-1022) ≤ ilog2 y := max_le hle h1
          omega
      have h1 := binary64_ge_pow y hyp (by have := le_max_right (ilog2 x) (-1022); omega)
      have h2 := (binary64_abs_le x hx).2
      have h3 : (2 : ℚ) ^ (max (ilog2 x) (-1022) + 1) ≤ 2 ^ (ilog2 y) :=
        zpow_le_zpow_right₀ (by norm_num) (by omega)
      linarith

end IEEE754

/-! # The pile-up pass in double arithmetic -/

namespace R3B.Digitizing.Neuland.Tamex

theorem PeakPilingUpRounded_id (cal : Calibration) (par : Params) (peaks : List Peak) :
    PeakPilingUpRounded id cal par peaks = PeakPilingUpFQT cal par peaks := rfl

theorem Peak.ofPMTPeakRounded_built (fl : ℚ → ℚ) (cal : Calibration) (par : Params)
    (pmtPeak : PMTPeak) :
    (Peak.ofPMTPeakRounded fl cal par pmtPeak).fTETime
        = fl ((Peak.ofPMTPeakRounded fl cal par pmtPeak).fLETime
            + (Peak.ofPMTPeakRounded fl cal par pmtPeak).fWidth) ∧
    Peak.ofPMTPeakRounded id cal par pmtPeak = Peak.ofPMTPeak cal par pmtPeak :=
  ⟨rfl, rfl⟩

theorem PeakPilingUpRounded_eq_foldr (fl : ℚ → ℚ) (cal : Calibration) (par : Params)
    (peaks : List Peak) :
    PeakPilingUpRounded fl cal par peaks
      = peaks.foldr (pileStep (Peak.overlapsRounded fl) (Peak.plusEqRounded fl cal par)) [] :=
  PeakPilingUp_eq_foldr _ _ _

theorem Peak.overlapsRounded_comm (fl : ℚ → ℚ) (a b : Peak) :
    Peak.overlapsRounded fl a b = Peak.overlapsRounded fl b a := by
  simp only [Peak.overlapsRounded]
  exact Bool.and_comm _ _

theorem pileStep_length_le {α : Type} (eq : α → α → Bool) (plusEq : α → α → α) (x : α) :
    ∀ acc : List α, (pileStep eq plusEq x acc).length ≤ acc.length + 1
  | [] => by simp [pileStep]
  | y :: ys => by
    simp only [pileStep]
    split_ifs <;> simp

theorem foldr_pileStep_length_le {α : Type} (eq : α → α → Bool) (plusEq : α → α → α) :
    ∀ l : List α, (l.foldr (pileStep eq plusEq) []).length ≤ l.length
  | [] => by simp
  | x :: xs => by
    have ih := foldr_pileStep_length_le eq plusEq xs
    have := pileStep_length_le eq plusEq x (xs.foldr (pileStep eq plusEq) [])
    simp only [List.foldr_cons, List.length_cons]
    omega

theorem foldr_pileStep_of_length {α : Type} (eq : α → α → Bool) (plusEq : α → α → α) :
    ∀ l : List α, (l.foldr (pileStep eq plusEq) []).length = l.length →
      l.Chain' (fun a b => eq b a = false)
  | [], _ => by simp
  | x :: xs, h => by
    have hle := foldr_pileStep_length_le eq plusEq xs
    have hstep := pileStep_length_le eq plusEq x (xs.foldr (pileStep eq plusEq) [])
    simp only [List.foldr_cons, List.length_cons] at h
    have hlen : (xs.foldr (pileStep eq plusEq) []).length = xs.length := by omega
    have ih := foldr_pileStep_of_length eq plusEq xs hlen
    have hfix := foldr_pileStep_fixed eq plusEq xs ih
    rw [hfix] at h
    cases xs with
    | nil => simp
    | cons y ys =>
      refine List.chain'_cons.mpr ⟨?_, ih⟩
      by_contra hne
      have hov : eq y x = true := by simpa using hne
      simp [pileStep, hov] at h

theorem PeakPilingUp_fixed_iff {α : Type} (eq : α → α → Bool) (plusEq : α → α → α)
    (l : List α) :
    PeakPilingUp eq plusEq l = l ↔ l.Chain' (fun a b => eq b a = false) := by
  rw [PeakPilingUp_eq_foldr]
  constructor
  · intro h
    exact foldr_pileStep_of_length eq plusEq l (by rw [h])
  · exact foldr_pileStep_fixed eq plusEq l

theorem chain'_and_mem {α : Type} (R : α → α → Prop) (P : α → Prop) :
    ∀ l : List α, l.Chain' R → (∀ p ∈ l, P p) → l.Chain' (fun a b => R a b ∧ P a ∧ P b)
  | [], _, _ => by simp
  | [x], _, _ => by simp
  | x :: y :: ys, hC, hP => by
    have ih := chain'_and_mem R P (y :: ys) (List.Chain'.tail hC)
      (fun p hp => hP p (List.mem_cons_of_mem _ hp))
    exact List.chain'_cons.mpr
      ⟨⟨(List.chain'_cons.mp hC).1, hP x (List.mem_cons_self _ _),
        hP y (List.mem_cons_of_mem _ (List.mem_cons_self _ _))⟩, ih⟩

theorem Peak.Piled.mono (fl : ℚ → ℚ) (x : Peak) (xs : List Peak) (p : Peak)
    (h : p.Piled fl xs) : p.Piled fl (x :: xs) := by
  obtain ⟨h1, h2, ⟨c, hc, hcL⟩, ⟨b, hb, hbT⟩, h5⟩ := h
  exact ⟨h1, h2, ⟨c, List.mem_cons_of_mem _ hc, hcL⟩, ⟨b, List.mem_cons_of_mem _ hb, hbT⟩, h5⟩

theorem foldr_pileStep_rounded (fl : ℚ → ℚ) (hmono : Monotone fl) (h0 : fl 0 = 0)
    (cal : Calibration) (par : Params) :
    ∀ peaks : List Peak,
      (∀ p ∈ peaks, fl p.fLETime = p.fLETime) → (∀ p ∈ peaks, 0 ≤ p.fWidth) →
      (∀ p ∈ peaks, p.fTETime = fl (p.fLETime + p.fWidth)) →
      peaks.Pairwise Peak.before →
      (∀ p ∈ peaks.foldr (pileStep (Peak.overlapsRounded fl) (Peak.plusEqRounded fl cal par)) [],
        p.Piled fl peaks) ∧
      (peaks.foldr (pileStep (Peak.overlapsRounded fl) (Peak.plusEqRounded fl cal par)) []).Chain'
        (fun a b => a.fTETime < b.fLETime)
  | [], _, _, _, _ => by simp
  | x :: xs, hrep, hw, hwf, hs => by
    obtain ⟨ihp, ihc⟩ := foldr_pileStep_rounded fl hmono h0 cal par xs
      (fun p hp => hrep p (List.mem_cons_of_mem _ hp))
      (fun p hp => hw p (List.mem_cons_of_mem _ hp))
      (fun p hp => hwf p (List.mem_cons_of_mem _ hp)) (List.Pairwise.of_cons hs)
    have hx : ∀ q ∈ xs, x.before q := fun q hq => List.rel_of_pairwise_cons hs hq
    have hxin : x ∈ x :: xs := List.mem_cons_self _ _
    have hxP : x.Piled fl (x :: xs) :=
      ⟨hrep x hxin, hw x hxin, ⟨x, hxin, rfl⟩, ⟨x, hxin, rfl⟩, Or.inl (hwf x hxin)⟩
    have hxLT : x.fLETime ≤ x.fTETime := by
      rw [hwf x hxin]
      have := hmono (show x.fLETime ≤ x.fLETime + x.fWidth by linarith [hw x hxin])
      rw [hrep x hxin] at this
      exact this
    rw [List.foldr_cons]
    generalize List.foldr (pileStep (Peak.overlapsRounded fl) (Peak.plusEqRounded fl cal par))
      [] xs = out at *
    cases out with
    | nil =>
      refine ⟨?_, by simp [pileStep]⟩
      intro p hp
      simp only [pileStep, List.mem_singleton] at hp
      subst hp
      exact hxP
    | cons y ys =>
      obtain ⟨hyrep, hyw, ⟨c, hc, hcL⟩, ⟨b, hb, hbT⟩, _⟩ := ihp y (List.mem_cons_self _ _)
      have hxL : x.fLETime ≤ y.fLETime := by rw [hcL]; exact (hx c hc).1
      have hxT : x.fTETime ≤ y.fTETime := by rw [hbT]; exact (hx b hb).2
      have hsecond : x.fLETime ≤ fl (y.fLETime + y.fWidth) := by
        have := hmono (show y.fLETime ≤ y.fLETime + y.fWidth by linarith)
        rw [hyrep] at this
        linarith
      by_cases hov : Peak.overlapsRounded fl y x = true
      · have hstep : pileStep (Peak.overlapsRounded fl) (Peak.plusEqRounded fl cal par) x (y :: ys)
            = Peak.plusEqRounded fl cal par x y :: ys := by simp [pileStep, hov]
        have hmL : (Peak.plusEqRounded fl cal par x y).fLETime = x.fLETime := by
          simp only [Peak.plusEqRounded]
          split_ifs with h1
          · rfl
          · exact le_antisymm (not_lt.mp h1) hxL
        have hmT : (Peak.plusEqRounded fl cal par x y).fTETime = y.fTETime := by
          simp only [Peak.plusEqRounded]
          split_ifs with h1
          · exact absurd hxT (not_le.mpr h1)
          · rfl
        have hmW : (Peak.plusEqRounded fl cal par x y).fWidth
            = fl ((Peak.plusEqRounded fl cal par x y).fTETime
                - (Peak.plusEqRounded fl cal par x y).fLETime) := rfl
        rw [hstep]
        constructor
        · intro p hp
          rcases List.mem_cons.mp hp with rfl | hp
          · refine ⟨?_, ?_, ⟨x, hxin, hmL⟩, ⟨b, List.mem_cons_of_mem _ hb, ?_⟩, Or.inr hmW⟩
            · rw [hmL]; exact hrep x hxin
            · rw [hmW, hmL, hmT]
              have := hmono (show (0 : ℚ) ≤ y.fTETime - x.fLETime by linarith)
              rw [h0] at this
              exact this
            · rw [hmT]; exact hbT
          · exact Peak.Piled.mono fl x xs p (ihp p (List.mem_cons_of_mem _ hp))
        · cases ys with
          | nil => simp
          | cons z zs =>
            refine List.chain'_cons.mpr ⟨?_, List.Chain'.tail ihc⟩
            rw [hmT]
            exact (List.chain'_cons.mp ihc).1
      · have hov2 : Peak.overlapsRounded fl y x = false := by simpa using hov
        have hstep : pileStep (Peak.overlapsRounded fl) (Peak.plusEqRounded fl cal par) x (y :: ys)
            = x :: y :: ys := by simp [pileStep, hov2]
        rw [hstep]
        constructor
        · intro p hp
          rcases List.mem_cons.mp hp with rfl | hp
          · exact hxP
          · exact Peak.Piled.mono fl x xs p (ihp p hp)
        · refine List.chain'_cons.mpr ⟨?_, ihc⟩
          simp only [Peak.overlapsRounded, Bool.and_eq_false_iff, decide_eq_false_iff_not,
            not_le] at hov2
          rcases hov2 with h | h
          · rw [hwf x hxin]; exact h
          · exact absurd hsecond (not_le.mpr h)

theorem PeakPilingUpRounded_disjoint (fl : ℚ → ℚ) (cal : Calibration) (par : Params)
    (peaks : List Peak) (hmono : Monotone fl) (h0 : fl 0 = 0)
    (hrep : ∀ p ∈ peaks, fl p.fLETime = p.fLETime)
    (hw : ∀ p ∈ peaks, 0 ≤ p.fWidth)
    (hwf : ∀ p ∈ peaks, p.fTETime = fl (p.fLETime + p.fWidth))
    (hLE : peaks.Sorted (fun a b => a.fLETime ≤ b.fLETime))
    (hTE : peaks.Sorted (fun a b => a.fTETime ≤ b.fTETime)) :
    (∀ p ∈ PeakPilingUpRounded fl cal par peaks, p.Piled fl peaks) ∧
    (PeakPilingUpRounded fl cal par peaks).Chain' (fun a b => a.fTETime < b.fLETime) := by
  rw [PeakPilingUpRounded_eq_foldr]
  exact foldr_pileStep_rounded fl hmono h0 cal par peaks hrep hw hwf (List.Pairwise.and hLE hTE)

theorem PeakPilingUpRounded_no_overlap (fl : ℚ → ℚ) (cal : Calibration) (par : Params)
    (peaks : List Peak) (hmono : Monotone fl) (h0 : fl 0 = 0)
    (hrep : ∀ p ∈ peaks, fl p.fLETime = p.fLETime)
    (hw : ∀ p ∈ peaks, 0 ≤ p.fWidth)
    (hwf : ∀ p ∈ peaks, p.fTETime = fl (p.fLETime + p.fWidth))
    (hLE : peaks.Sorted (fun a b => a.fLETime ≤ b.fLETime))
    (hTE : peaks.Sorted (fun a b => a.fTETime ≤ b.fTETime))
    (hgap : ∀ a ∈ peaks, ∀ b ∈ peaks, ∀ c ∈ peaks, b.fTETime < c.fLETime →
      fl (a.fLETime + fl (b.fTETime - a.fLETime)) < c.fLETime) :
    (PeakPilingUpRounded fl cal par peaks).Chain'
      (fun a b => Peak.overlapsRounded fl b a = false) := by
  obtain ⟨hP, hC⟩ := PeakPilingUpRounded_disjoint fl cal par peaks hmono h0 hrep hw hwf hLE hTE
  refine List.Chain'.imp ?_ (chain'_and_mem _ _ _ hC hP)
  rintro p q ⟨hpq, hp, hq⟩
  obtain ⟨_, _, ⟨a, ha, haL⟩, ⟨b, hb, hbT⟩, hform⟩ := hp
  obtain ⟨_, _, ⟨c, hc, hcL⟩, _, _⟩ := hq
  simp only [Peak.overlapsRounded, Bool.and_eq_false_iff, decide_eq_false_iff_not, not_le]
  left
  rcases hform with h | h
  · rw [← h]; exact hpq
  · rw [h, haL, hbT, hcL]
    exact hgap a ha b hb c hc (by rw [← hbT, ← hcL]; exact hpq)

/-- C1 (amended): in the arithmetic rounded by any monotone `fl` with
`fl 0 = 0` (rounding to `double` is one, exact arithmetic another), for every
sequence of pulses as the constructor builds them (leading time a value of the
arithmetic, width not negative, `fTETime` the rounded sum
`fLETime + fWidth`) that is sorted by leading-edge time and also by
trailing-edge time, any two adjacent pulses of the output of `PeakPilingUp`
are disjoint in time: the left one's `fTETime` is less than the right one's
`fLETime`.  If moreover no leading time of the input lies within the rounding
error above a trailing time (whenever a pulse begins after a trailing time
`t`, it also begins after the result of rounding `t - s` and adding it again
to a leading time `s`), then no two adjacent pulses of the output satisfy the
overlap predicate `Peak::operator==`, in either order of its arguments. -/
theorem PeakPilingUp_no_adjacent_overlap (fl : ℚ → ℚ) (cal : Calibration) (par : Params)
    (peaks : List Peak) (hmono : Monotone fl) (h0 : fl 0 = 0)
    (hrep : ∀ p ∈ peaks, fl p.fLETime = p.fLETime)
    (hw : ∀ p ∈ peaks, 0 ≤ p.fWidth)
    (hwf : ∀ p ∈ peaks, p.fTETime = fl (p.fLETime + p.fWidth))
    (hLE : peaks.Sorted (fun a b => a.fLETime ≤ b.fLETime))
    (hTE : peaks.Sorted (fun a b => a.fTETime ≤ b.fTETime)) :
    (PeakPilingUpRounded fl cal par peaks).Chain' (fun a b => a.fTETime < b.fLETime) ∧
    ((∀ a ∈ peaks, ∀ b ∈ peaks, ∀ c ∈ peaks, b.fTETime < c.fLETime →
        fl (a.fLETime + fl (b.fTETime - a.fLETime)) < c.fLETime) →
      (PeakPilingUpRounded fl cal par peaks).Chain'
        (fun a b => Peak.overlapsRounded fl a b = false ∧
          Peak.overlapsRounded fl b a = false)) := by
  refine ⟨(PeakPilingUpRounded_disjoint fl cal par peaks hmono h0 hrep hw hwf hLE hTE).2, ?_⟩
  intro hgap
  refine List.Chain'.imp ?_
    (PeakPilingUpRounded_no_overlap fl cal par peaks hmono h0 hrep hw hwf hLE hTE hgap)
  intro a b h
  exact ⟨by rw [Peak.overlapsRounded_comm]; exact h, h⟩

/-- C1, witness: the amended statement in `double` arithmetic.  At
`separatedPulses` the first two pulses are merged and the output has no two
adjacent pulses that satisfy `operator==`.  At `adjoiningPulses`, where the
third pulse begins one unit in the last place after the second ends, the two
pulses of the output are disjoint in time, and `operator==` holds of them:
the merged width 2.2, added again to the leading time 0.7, gives the leading
time of the third pulse. -/
theorem PeakPilingUp_no_adjacent_overlap_witness :
    (PeakPilingUpRounded IEEE754.binary64 Calibration.unit Params.sample
        separatedPulses).length = 2 ∧
    (PeakPilingUpRounded IEEE754.binary64 Calibration.unit Params.sample separatedPulses).Chain'
        (fun a b => Peak.overlapsRounded IEEE754.binary64 a b = false ∧
          Peak.overlapsRounded IEEE754.binary64 b a = false) ∧
    (PeakPilingUpRounded IEEE754.binary64 Calibration.unit Params.sample adjoiningPulses).Chain'
        (fun a b => a.fTETime < b.fLETime) ∧
    List.zipWith (fun a b => Peak.overlapsRounded IEEE754.binary64 b a)
        (PeakPilingUpRounded IEEE754.binary64 Calibration.unit Params.sample adjoiningPulses)
        (PeakPilingUpRounded IEEE754.binary64 Calibration.unit Params.sample
          adjoiningPulses).tail = [true] :=
  ⟨by decide!,
   (PeakPilingUp_no_adjacent_overlap IEEE754.binary64 Calibration.unit Params.sample
      separatedPulses IEEE754.binary64_monotone IEEE754.binary64_zero
      (by decide!) (by decide!) (by decide!) (by decide!) (by decide!)).2 (by decide!),
   (PeakPilingUp_no_adjacent_overlap IEEE754.binary64 Calibration.unit Params.sample
      adjoiningPulses IEEE754.binary64_monotone IEEE754.binary64_zero
      (by decide!) (by decide!) (by decide!) (by decide!) (by decide!)).1,
   by decide!⟩

/-- C3 (amended): `PeakPilingUp` returns a sequence unchanged exactly when no
two adjacent pulses of it satisfy `Peak::operator==`, so it is idempotent on
exactly those inputs whose output has no such pair.  That is so, in the
arithmetic rounded by any monotone `fl` with `fl 0 = 0`, for every sequence of
pulses as the constructor builds them that is sorted by leading-edge time and
also by trailing-edge time and in which no leading time lies within the
rounding error above a trailing time (a condition that is void in exact
arithmetic). -/
theorem PeakPilingUp_idempotent (fl : ℚ → ℚ) (cal : Calibration) (par : Params)
    (peaks : List Peak) (hmono : Monotone fl) (h0 : fl 0 = 0)
    (hrep : ∀ p ∈ peaks, fl p.fLETime = p.fLETime)
    (hw : ∀ p ∈ peaks, 0 ≤ p.fWidth)
    (hwf : ∀ p ∈ peaks, p.fTETime = fl (p.fLETime + p.fWidth))
    (hLE : peaks.Sorted (fun a b => a.fLETime ≤ b.fLETime))
    (hTE : peaks.Sorted (fun a b => a.fTETime ≤ b.fTETime))
    (hgap : ∀ a ∈ peaks, ∀ b ∈ peaks, ∀ c ∈ peaks, b.fTETime < c.fLETime →
      fl (a.fLETime + fl (b.fTETime - a.fLETime)) < c.fLETime) :
    PeakPilingUpRounded fl cal par (PeakPilingUpRounded fl cal par peaks)
      = PeakPilingUpRounded fl cal par peaks ∧
    (∀ l : List Peak, PeakPilingUpRounded fl cal par l = l ↔
      l.Chain' (fun a b => Peak.overlapsRounded fl b a = false)) := by
  have hiff : ∀ l : List Peak, PeakPilingUpRounded fl cal par l = l ↔
      l.Chain' (fun a b => Peak.overlapsRounded fl b a = false) :=
    fun l => PeakPilingUp_fixed_iff _ _ l
  exact ⟨(hiff _).mpr
    (PeakPilingUpRounded_no_overlap fl cal par peaks hmono h0 hrep hw hwf hLE hTE hgap), hiff⟩

/-- C3, witness: the amended statement in `double` arithmetic at
`separatedPulses`, where the first pass merges two pulses and the second
changes nothing.  At `adjoiningPulses`, where the third pulse begins one unit
in the last place after the second ends, the second pass merges the two
pulses the first has left. -/
theorem PeakPilingUp_idempotent_witness :
    (PeakPilingUpRounded IEEE754.binary64 Calibration.unit Params.sample separatedPulses).length
        < separatedPulses.length ∧
    PeakPilingUpRounded IEEE754.binary64 Calibration.unit Params.sample
        (PeakPilingUpRounded IEEE754.binary64 Calibration.unit Params.sample separatedPulses)
      = PeakPilingUpRounded IEEE754.binary64 Calibration.unit Params.sample separatedPulses ∧
    (PeakPilingUpRounded IEEE754.binary64 Calibration.unit Params.sample
        (PeakPilingUpRounded IEEE754.binary64 Calibration.unit Params.sample
          adjoiningPulses)).length = 1 :=
  ⟨by decide!,
   (PeakPilingUp_idempotent IEEE754.binary64 Calibration.unit Params.sample separatedPulses
      IEEE754.binary64_monotone IEEE754.binary64_zero
      (by decide!) (by decide!) (by decide!) (by decide!) (by decide!) (by decide!)).1,
   by decide!⟩

theorem foldr_pileStep_chain_rounded (fl : ℚ → ℚ) (hmono : Monotone fl) (h0 : fl 0 = 0)
    (cal : Calibration) (par : Params) :
    ∀ peaks : List Peak, peaks ≠ [] →
      (∀ p ∈ peaks, fl p.fLETime = p.fLETime) → (∀ p ∈ peaks, 0 ≤ p.fWidth) →
      (∀ p ∈ peaks, p.fTETime = fl (p.fLETime + p.fWidth)) →
      peaks.Sorted (fun a b => a.fLETime ≤ b.fLETime) →
      peaks.Chain' (fun a b => Peak.overlapsRounded fl b a = true) →
      ∃ p : Peak,
        peaks.foldr (pileStep (Peak.overlapsRounded fl) (Peak.plusEqRounded fl cal par)) []
          = [p] ∧
        fl p.fLETime = p.fLETime ∧ 0 ≤ p.fWidth ∧
        (∀ q ∈ peaks, p.fLETime ≤ q.fLETime ∧ q.fTETime ≤ p.fTETime) ∧
        (∃ q ∈ peaks, p.fLETime = q.fLETime) ∧ (∃ q ∈ peaks, p.fTETime = q.fTETime)
  | [], hne, _, _, _, _, _ => absurd rfl hne
  | [x], _, hrep, hw, _, _, _ => by
    have hxin : x ∈ [x] := List.mem_cons_self _ _
    refine ⟨x, rfl, hrep x hxin, hw x hxin, ?_, ⟨x, hxin, rfl⟩, ⟨x, hxin, rfl⟩⟩
    intro q hq
    rw [List.mem_singleton.mp hq]
    exact ⟨le_refl _, le_refl _⟩
  | x :: s :: rest, _, hrep, hw, hwf, hLE, hch => by
    obtain ⟨y, hy, hyrep, hyw, hyb, ⟨c, hc, hcL⟩, ⟨b, hb, hbT⟩⟩ :=
      foldr_pileStep_chain_rounded fl hmono h0 cal par (s :: rest) (List.cons_ne_nil _ _)
        (fun p hp => hrep p (List.mem_cons_of_mem _ hp))
        (fun p hp => hw p (List.mem_cons_of_mem _ hp))
        (fun p hp => hwf p (List.mem_cons_of_mem _ hp))
        (List.Sorted.of_cons hLE) (List.Chain'.tail hch)
    have hxin : x ∈ x :: s :: rest := List.mem_cons_self _ _
    have hxLT : x.fLETime ≤ x.fTETime := by
      rw [hwf x hxin]
      have := hmono (show x.fLETime ≤ x.fLETime + x.fWidth by linarith [hw x hxin])
      rw [hrep x hxin] at this
      exact this
    have hxs : x.fLETime ≤ s.fLETime := List.rel_of_sorted_cons hLE s (List.mem_cons_self _ _)
    have hys : y.fLETime = s.fLETime := by
      apply le_antisymm (hyb s (List.mem_cons_self _ _)).1
      rw [hcL]
      rcases List.mem_cons.mp hc with rfl | hc2
      · exact le_refl _
      · exact List.rel_of_sorted_cons (List.Sorted.of_cons hLE) c hc2
    have hxy : x.fLETime ≤ y.fLETime := by rw [hys]; exact hxs
    have hsx : Peak.overlapsRounded fl s x = true := (List.chain'_cons.mp hch).1
    simp only [Peak.overlapsRounded, Bool.and_eq_true, decide_eq_true_eq] at hsx
    have hov : Peak.overlapsRounded fl y x = true := by
      simp only [Peak.overlapsRounded, Bool.and_eq_true, decide_eq_true_eq]
      refine ⟨by rw [hys]; exact hsx.1, ?_⟩
      have := hmono (show y.fLETime ≤ y.fLETime + y.fWidth by linarith)
      rw [hyrep] at this
      linarith
    have hstep : (x :: s :: rest).foldr
        (pileStep (Peak.overlapsRounded fl) (Peak.plusEqRounded fl cal par)) []
        = [Peak.plusEqRounded fl cal par x y] := by
      rw [List.foldr_cons, hy]
      simp [pileStep, hov]
    have hmL : (Peak.plusEqRounded fl cal par x y).fLETime = x.fLETime := by
      simp only [Peak.plusEqRounded]
      split_ifs with h1
      · rfl
      · exact le_antisymm (not_lt.mp h1) hxy
    have hmT : (Peak.plusEqRounded fl cal par x y).fTETime = max x.fTETime y.fTETime := by
      simp only [Peak.plusEqRounded]
      split_ifs with h1
      · exact (max_eq_left (le_of_lt h1)).symm
      · exact (max_eq_right (not_lt.mp h1)).symm
    have hmW : (Peak.plusEqRounded fl cal par x y).fWidth
        = fl ((Peak.plusEqRounded fl cal par x y).fTETime
            - (Peak.plusEqRounded fl cal par x y).fLETime) := rfl
    refine ⟨_, hstep, ?_, ?_, ?_, ⟨x, hxin, hmL⟩, ?_⟩
    · rw [hmL]; exact hrep x hxin
    · rw [hmW, hmL, hmT]
      have := hmono (show (0 : ℚ) ≤ max x.fTETime y.fTETime - x.fLETime by
        have := le_max_left x.fTETime y.fTETime
        linarith)
      rw [h0] at this
      exact this
    · intro q hq
      rw [hmL, hmT]
      rcases List.mem_cons.mp hq with rfl | hq2
      · exact ⟨le_refl _, le_max_left _ _⟩
      · exact ⟨List.rel_of_sorted_cons hLE q hq2, le_trans (hyb q hq2).2 (le_max_right _ _)⟩
    · rw [hmT]
      rcases le_total x.fTETime y.fTETime with h | h
      · exact ⟨b, List.mem_cons_of_mem _ hb, by rw [max_eq_right h]; exact hbT⟩
      · exact ⟨x, hxin, by rw [max_eq_left h]⟩

/-- C26 (amended): chain closure of the pile-up pass for chains sorted by
leading-edge time.  In the arithmetic rounded by any monotone `fl` with
`fl 0 = 0` (rounding to `double` is one), for every non-empty sequence of
pulses as the constructor builds them (leading time a value of the
arithmetic, width not negative, `fTETime` the rounded sum
`fLETime + fWidth`) that is sorted by leading-edge time and in which every two
consecutive pulses satisfy `Peak::operator==`, `PeakPilingUp` returns exactly
one pulse; its leading time is the minimum of all the leading times and its
trailing time the maximum of all the trailing times. -/
theorem PeakPilingUp_chain_closure (fl : ℚ → ℚ) (cal : Calibration) (par : Params)
    (peaks : List Peak) (hmono : Monotone fl) (h0 : fl 0 = 0)
    (hne : peaks ≠ [])
    (hrep : ∀ p ∈ peaks, fl p.fLETime = p.fLETime)
    (hw : ∀ p ∈ peaks, 0 ≤ p.fWidth)
    (hwf : ∀ p ∈ peaks, p.fTETime = fl (p.fLETime + p.fWidth))
    (hLE : peaks.Sorted (fun a b => a.fLETime ≤ b.fLETime))
    (hch : peaks.Chain' (fun a b => Peak.overlapsRounded fl b a = true)) :
    ∃ p : Peak, PeakPilingUpRounded fl cal par peaks = [p] ∧
      (∀ q ∈ peaks, p.fLETime ≤ q.fLETime) ∧ (∃ q ∈ peaks, p.fLETime = q.fLETime) ∧
      (∀ q ∈ peaks, q.fTETime ≤ p.fTETime) ∧ (∃ q ∈ peaks, p.fTETime = q.fTETime) := by
  obtain ⟨p, hp, _, _, hb, hL, hT⟩ :=
    foldr_pileStep_chain_rounded fl hmono h0 cal par peaks hne hrep hw hwf hLE hch
  rw [PeakPilingUpRounded_eq_foldr]
  exact ⟨p, hp, fun q hq => (hb q hq).1, hL, fun q hq => (hb q hq).2, hT⟩

/-- C26, witness: in `double` arithmetic the three pulses of `ascendingChain`,
each beginning where the one before ends, are merged into one pulse, from the
`double` nearest 0.8 to the `double` nearest 4.3. -/
theorem PeakPilingUp_chain_closure_witness :
    ((PeakPilingUpRounded IEEE754.binary64 Calibration.unit Params.sample ascendingChain).map
        (fun p => (p.fLETime, p.fTETime))
      = [(IEEE754.binary64 0.8, IEEE754.binary64 4.3)]) ∧
    ∃ p : Peak,
      PeakPilingUpRounded IEEE754.binary64 Calibration.unit Params.sample ascendingChain = [p] ∧
      (∀ q ∈ ascendingChain, p.fLETime ≤ q.fLETime) ∧
      (∃ q ∈ ascendingChain, p.fLETime = q.fLETime) ∧
      (∀ q ∈ ascendingChain, q.fTETime ≤ p.fTETime) ∧
      (∃ q ∈ ascendingChain, p.fTETime = q.fTETime) :=
  ⟨by decide!,
   PeakPilingUp_chain_closure IEEE754.binary64 Calibration.unit Params.sample ascendingChain
    IEEE754.binary64_monotone IEEE754.binary64_zero
    (by decide!) (by decide!) (by decide!) (by decide!) (by decide!)
    (by
      show List.Chain' _ [doublePulse 0.8 1.1, doublePulse 1.1 3.9, doublePulse 3.9 4.3]
      exact List.chain'_cons.mpr
        ⟨by decide!, List.chain'_cons.mpr ⟨by decide!, List.chain'_singleton _⟩⟩)⟩

/-- C26, counterexample: the three pulses of `descendingChain`, from 3.9 to
4.3, from 1.1 to 3.9 and from 0.8 to 1.1 (the nearest `double` each).  Every
field is a `double`, `fTETime = fLETime + fWidth` holds exactly, and every two
consecutive pulses satisfy `operator==`, in exact and in `double` arithmetic.
In `double` arithmetic `PeakPilingUp` returns two pulses: merging the last two
gives the width 3.0999999999999996, the rounded difference of 3.9 and 0.8,
and 0.8 plus that width is below the leading time 3.9 of the first pulse.  In
exact arithmetic the pass returns one pulse. -/
theorem PeakPilingUp_chain_closure_counterexample :
    descendingChain ≠ [] ∧
    (∀ p ∈ descendingChain, p.fTETime = p.fLETime + p.fWidth ∧
      IEEE754.binary64 p.fLETime = p.fLETime ∧ IEEE754.binary64 p.fWidth = p.fWidth ∧
      IEEE754.binary64 p.fTETime = p.fTETime) ∧
    List.zipWith (fun a b => Peak.overlapsRounded IEEE754.binary64 b a)
      descendingChain descendingChain.tail = [true, true] ∧
    List.zipWith (fun a b => Peak.overlaps b a) descendingChain descendingChain.tail
      = [true, true] ∧
    (PeakPilingUpRounded IEEE754.binary64 Calibration.unit Params.sample
      descendingChain).length = 2 ∧
    (PeakPilingUpFQT Calibration.unit Params.sample descendingChain).length = 1 := by
  refine ⟨by decide!, by decide!, by decide!, by decide!, by decide!, by decide!⟩

end R3B.Digitizing.Neuland.Tamex

/-! # The failures of the Tamex channel -/

namespace R3B.Digitizing.Neuland.Tamex

end R3B.Digitizing.Neuland.Tamex

/-! # The registration loop of the fiber digitizer in double arithmetic -/

namespace R3BFiberDigitizer

theorem registerHitsRounded_id :
    ∀ (hits : List TempHit) (s : Storage), registerHitsRounded id s hits = registerHits s hits
  | [], _ => rfl
  | Hit :: rest, s => by
    have h1 : registerHitRounded id s Hit = registerHit s Hit := rfl
    simp only [registerHitsRounded, registerHits, h1]
    cases registerHit s Hit with
    | none => rfl
    | some s1 => exact registerHitsRounded_id rest s1

theorem registerHitRounded_ofClusters (fl : ℚ → ℚ) (cs : List Clusters) (Hit : TempHit) (i : Nat) (cl : Clusters)
    (hE : ¬ Hit.Energy < 0.0000001) (hid : Hit.fiberID = i) (hcs : cs[i]? = some cl)
    (hne : cl.Nonempty) :
    registerHitRounded fl (Storage.ofClusters cs) Hit
      = some (Storage.ofClusters (cs.set i (cl.registerRounded fl Hit))) := by
  obtain ⟨hne1, hne2, hne3⟩ := hne
  have hnat : Hit.fiberID.toNat = i := by rw [hid]; simp
  have hneg : ¬ Hit.fiberID < 0 := by rw [hid]; simp
  simp only [registerHitRounded, if_neg hE, if_neg hneg, hnat, Storage.ofClusters]
  rw [getBack_map Clusters.time cs i cl hcs hne2]
  simp only [Option.bind_eq_bind, Option.some_bind]
  by_cases hg : fl (Hit.Time - cl.time.getLastD 0) < 30
  · simp only [if_pos hg, Clusters.registerRounded]
    rw [getBack_map Clusters.energy cs i cl hcs hne1, getBack_map Clusters.y cs i cl hcs hne3]
    simp only [Option.some_bind]
    rw [setBack_map Clusters.energy cs i cl
        { energy := cl.energy.dropLast ++ [fl (cl.energy.getLastD 0 + Hit.Energy)]
          time := cl.time.dropLast ++
            [if cl.time.getLastD 0 > Hit.Time then Hit.Time else cl.time.getLastD 0]
          y := cl.y.dropLast ++
            [if cl.time.getLastD 0 > Hit.Time then Hit.Y else cl.y.getLastD 0] } _ hcs hne1 rfl,
      setBack_map Clusters.y cs i cl
        { energy := cl.energy.dropLast ++ [fl (cl.energy.getLastD 0 + Hit.Energy)]
          time := cl.time.dropLast ++
            [if cl.time.getLastD 0 > Hit.Time then Hit.Time else cl.time.getLastD 0]
          y := cl.y.dropLast ++
            [if cl.time.getLastD 0 > Hit.Time then Hit.Y else cl.y.getLastD 0] } _ hcs hne3 rfl,
      setBack_map Clusters.time cs i cl
        { energy := cl.energy.dropLast ++ [fl (cl.energy.getLastD 0 + Hit.Energy)]
          time := cl.time.dropLast ++
            [if cl.time.getLastD 0 > Hit.Time then Hit.Time else cl.time.getLastD 0]
          y := cl.y.dropLast ++
            [if cl.time.getLastD 0 > Hit.Time then Hit.Y else cl.y.getLastD 0] } _ hcs hne2 rfl]
    rfl
  · simp only [if_neg hg, Clusters.registerRounded]
    rw [pushBack_map Clusters.energy cs i cl
        { energy := cl.energy ++ [Hit.Energy], time := cl.time ++ [Hit.Time],
          y := cl.y ++ [Hit.Y] } _ hcs rfl,
      pushBack_map Clusters.time cs i cl
        { energy := cl.energy ++ [Hit.Energy], time := cl.time ++ [Hit.Time],
          y := cl.y ++ [Hit.Y] } _ hcs rfl,
      pushBack_map Clusters.y cs i cl
        { energy := cl.energy ++ [Hit.Energy], time := cl.time ++ [Hit.Time],
          y := cl.y ++ [Hit.Y] } _ hcs rfl]
    rfl

theorem Clusters.registerRounded_nonempty (fl : ℚ → ℚ) (cl : Clusters) (Hit : TempHit) :
    (cl.registerRounded fl Hit).Nonempty := by
  simp only [Clusters.registerRounded, Clusters.Nonempty]
  split_ifs <;> simp

theorem Clusters.stepRounded_nonempty (fl : ℚ → ℚ) (c : Nat) (cl : Clusters) (Hit : TempHit) (h : cl.Nonempty) :
    (Clusters.stepRounded fl c cl Hit).Nonempty := by
  unfold Clusters.stepRounded
  split_ifs
  · exact h
  · exact Clusters.registerRounded_nonempty fl cl Hit

theorem registerHitRounded_step (fl : ℚ → ℚ) (cs : List Clusters) (Hit : TempHit)
    (hr : 0 ≤ Hit.fiberID ∧ Hit.fiberID < cs.length) (hne : ∀ cl ∈ cs, cl.Nonempty) :
    ∃ cs1, registerHitRounded fl (Storage.ofClusters cs) Hit = some (Storage.ofClusters cs1) ∧
      cs1.length = cs.length ∧
      ∀ c, cs1[c]? = (cs[c]?).map (fun cl => Clusters.stepRounded fl c cl Hit) := by
  by_cases hE : Hit.Energy < 0.0000001
  · refine ⟨cs, by simp [registerHitRounded, hE], rfl, fun c => ?_⟩
    simp [Clusters.stepRounded, hE]
  · have hi : Hit.fiberID.toNat < cs.length := by omega
    have hid : Hit.fiberID = (Hit.fiberID.toNat : ℤ) := (Int.toNat_of_nonneg hr.1).symm
    have hcs : cs[Hit.fiberID.toNat]? = some cs[Hit.fiberID.toNat] :=
      List.getElem?_eq_getElem hi
    refine ⟨cs.set Hit.fiberID.toNat (cs[Hit.fiberID.toNat].registerRounded fl Hit),
      registerHitRounded_ofClusters fl cs Hit _ _ hE hid hcs (hne _ (List.getElem_mem _)),
      List.length_set _ _ _, fun c => ?_⟩
    rw [List.getElem?_set]
    by_cases hc : Hit.fiberID.toNat = c
    · subst hc
      simp [hi, Clusters.stepRounded, hE, ← hid]
    · have hc2 : Hit.fiberID ≠ (c : ℤ) := by
        intro h
        apply hc
        rw [h]
        simp
      rw [if_neg hc]
      cases cs[c]? with
      | none => rfl
      | some cl => simp [Clusters.stepRounded, hc2]

theorem registerHitsRounded_channels (fl : ℚ → ℚ) :
    ∀ (hits : List TempHit) (cs : List Clusters),
      (∀ h ∈ hits, 0 ≤ h.fiberID ∧ h.fiberID < cs.length) → (∀ cl ∈ cs, cl.Nonempty) →
      ∃ cs1, registerHitsRounded fl (Storage.ofClusters cs) hits = some (Storage.ofClusters cs1) ∧
        cs1.length = cs.length ∧
        ∀ c, cs1[c]? = (cs[c]?).map (fun cl => hits.foldl (Clusters.stepRounded fl c) cl)
  | [], cs, _, _ => ⟨cs, rfl, rfl, fun c => by simp⟩
  | Hit :: rest, cs, hr, hne => by
    obtain ⟨cs1, h1, hlen1, hch1⟩ :=
      registerHitRounded_step fl cs Hit (hr Hit (List.mem_cons_self _ _)) hne
    have hne1 : ∀ cl ∈ cs1, cl.Nonempty := by
      intro cl hcl
      obtain ⟨c, hc⟩ := List.mem_iff_getElem?.mp hcl
      rw [hch1 c] at hc
      cases hcc : cs[c]? with
      | none => rw [hcc] at hc; simp at hc
      | some cl0 =>
        rw [hcc] at hc
        simp only [Option.map_some', Option.some.injEq] at hc
        rw [← hc]
        exact Clusters.stepRounded_nonempty fl c cl0 Hit (hne cl0 (List.mem_iff_getElem?.mpr ⟨c, hcc⟩))
    obtain ⟨cs2, h2, hlen2, hch2⟩ := registerHitsRounded_channels fl rest cs1
      (fun h hh => by rw [hlen1]; exact hr h (List.mem_cons_of_mem _ hh)) hne1
    refine ⟨cs2, by simp [registerHitsRounded, h1, h2], hlen2.trans hlen1, fun c => ?_⟩
    rw [hch2 c, hch1 c]
    cases cs[c]? <;> simp

theorem foldl_stepRounded_eq_filter (fl : ℚ → ℚ) (c : Nat) :
    ∀ (hits : List TempHit) (cl : Clusters),
      hits.foldl (Clusters.stepRounded fl c) cl
        = (hits.filter (fun h : TempHit =>
            decide (¬ h.Energy < 0.0000001) && decide (h.fiberID = (c : ℤ)))).foldl
            (Clusters.registerRounded fl) cl
  | [], _ => rfl
  | Hit :: rest, cl => by
    rw [List.foldl_cons, foldl_stepRounded_eq_filter fl c rest]
    by_cases h1 : Hit.fiberID = c
    · by_cases h2 : Hit.Energy < 0.0000001
      · simp [List.filter_cons, Clusters.stepRounded, h1, h2]
      · simp [List.filter_cons, Clusters.stepRounded, h1, h2, not_lt.mp h2]
    · simp [List.filter_cons, Clusters.stepRounded, h1]

theorem registerHitsRounded_init (fl : ℚ → ℚ) (NumOfFibers : Nat) (hits : List TempHit)
    (hr : ∀ h ∈ hits, 0 ≤ h.fiberID ∧ h.fiberID < NumOfFibers) :
    ∃ cs1, registerHitsRounded fl (Storage.init NumOfFibers) hits = some (Storage.ofClusters cs1) ∧
      cs1.length = NumOfFibers ∧
      ∀ c, c < NumOfFibers → cs1[c]? = some
        ((hits.filter (fun h : TempHit =>
            decide (¬ h.Energy < 0.0000001) && decide (h.fiberID = (c : ℤ)))).foldl
            (Clusters.registerRounded fl) Clusters.placeholder) := by
  obtain ⟨cs1, h1, hlen, hch⟩ := registerHitsRounded_channels fl hits
    (List.replicate NumOfFibers Clusters.placeholder)
    (by simpa using hr)
    (by
      intro cl hcl
      rw [List.eq_of_mem_replicate hcl]
      simp [Clusters.Nonempty, Clusters.placeholder])
  refine ⟨cs1, by rw [Storage.init_eq_ofClusters]; exact h1, by simpa using hlen, fun c hc => ?_⟩
  rw [hch c, List.getElem?_replicate, if_pos hc, Option.map_some', foldl_stepRounded_eq_filter fl]

theorem Clusters.registerRounded_placeholder (fl : ℚ → ℚ) (hmono : Monotone fl) (h0 : fl 0 = 0)
    (Hit : TempHit) (ht : Hit.Time < 99999) :
    Clusters.placeholder.registerRounded fl Hit
      = { energy := [fl (0 + Hit.Energy)], time := [Hit.Time], y := [Hit.Y] } := by
  have h1 : fl (Hit.Time - 99999) < 30 := by
    have := hmono (show Hit.Time - 99999 ≤ 0 by linarith)
    rw [h0] at this
    linarith
  simp [Clusters.registerRounded, Clusters.placeholder, List.getLastD, h1, ht]

theorem Clusters.registerRounded_single (fl : ℚ → ℚ) (e t y : ℚ) (Hit : TempHit) :
    ({ energy := [e], time := [t], y := [y] } : Clusters).registerRounded fl Hit
      = if fl (Hit.Time - t) < 30 then
          { energy := [fl (e + Hit.Energy)]
            time := [if t > Hit.Time then Hit.Time else t]
            y := [if t > Hit.Time then Hit.Y else y] }
        else { energy := [e, Hit.Energy], time := [t, Hit.Time], y := [y, Hit.Y] } := by
  simp [Clusters.registerRounded, List.getLastD]

/-- C5 (amended): the time gate of the fiber digitizer is strict, and it is
applied to the rounded difference of the two times.  In the arithmetic
rounded by any monotone `fl` with `fl 0 = 0` and `fl 30 = 30` (rounding to
`double` is one), let the hits of an event have channel ids in
`[0, NumOfFibers)`, let `h1` and `h2` be the only hits on channel `c`, both of
amplitude at least 1e-7, `h1` at a time below 99999 and `h2` not before `h1`,
and let `sorted` be any arrangement of the hits in time order (what
`std::sort` returns).  Then the registration loop succeeds and leaves channel
`c` with one cluster, at the time of `h1`, when the rounded difference
`fl (h2.Time - h1.Time)` is below 30, and with two clusters otherwise.  The
rounded difference is at least 30 whenever the exact difference is (in
particular when it is exactly 30), and it is below 30 whenever the exact
difference is at most some value of the arithmetic that is below 30 (such as
29). -/
theorem registerHits_time_gate (fl : ℚ → ℚ) (hmono : Monotone fl) (h0 : fl 0 = 0)
    (h30 : fl 30 = 30) (NumOfFibers c : Nat) (Points sorted : List TempHit)
    (h1 h2 : TempHit)
    (hrange : ∀ h ∈ Points, 0 ≤ h.fiberID ∧ h.fiberID < NumOfFibers)
    (hperm : sorted.Perm Points)
    (hsorted : sorted.Sorted (fun lhs rhs => lhs.Time ≤ rhs.Time))
    (hchan : (Points.filter (fun h => decide (h.fiberID = (c : ℤ)))).Perm [h1, h2])
    (hE1 : ¬ h1.Energy < 0.0000001) (hE2 : ¬ h2.Energy < 0.0000001)
    (ht : h1.Time < 99999) (hd : h1.Time ≤ h2.Time) :
    ∃ s, registerHitsRounded fl (Storage.init NumOfFibers) sorted = some s ∧
      (fl (h2.Time - h1.Time) < 30 →
        s.time[c]? = some [h1.Time] ∧ (s.energy[c]?).map List.length = some 1 ∧
        (s.y[c]? = some [h1.Y] ∨ s.y[c]? = some [h2.Y])) ∧
      (30 ≤ fl (h2.Time - h1.Time) →
        s.time[c]? = some [h1.Time, h2.Time] ∧ (s.energy[c]?).map List.length = some 2 ∧
        s.y[c]? = some [h1.Y, h2.Y]) ∧
      (30 ≤ h2.Time - h1.Time → 30 ≤ fl (h2.Time - h1.Time)) ∧
      (∀ r : ℚ, fl r = r → r < 30 → h2.Time - h1.Time ≤ r → fl (h2.Time - h1.Time) < 30) := by
  have hmem1 : h1 ∈ Points.filter (fun h => decide (h.fiberID = (c : ℤ))) :=
    hchan.symm.subset (List.mem_cons_self _ _)
  have hc : c < NumOfFibers := by
    have hm := List.mem_filter.mp hmem1
    have hr := hrange h1 hm.1
    have hid : h1.fiberID = (c : ℤ) := by simpa using hm.2
    omega
  obtain ⟨cs1, hreg, _, hch⟩ := registerHitsRounded_init fl NumOfFibers sorted
    (fun h hh => hrange h (hperm.subset hh))
  have hcc := hch c hc
  have hF : (sorted.filter (fun h => decide (h.fiberID = (c : ℤ)))).Perm [h1, h2] :=
    (hperm.filter _).trans hchan
  have hacc : (sorted.filter (fun h : TempHit =>
      decide (¬ h.Energy < 0.0000001) && decide (h.fiberID = (c : ℤ))))
      = sorted.filter (fun h => decide (h.fiberID = (c : ℤ))) := by
    rw [← List.filter_filter]
    apply List.filter_eq_self.mpr
    intro a ha
    have : a ∈ [h1, h2] := hF.subset ha
    simp only [List.mem_cons, List.mem_singleton, List.not_mem_nil, or_false] at this
    rcases this with rfl | rfl
    · simpa using hE1
    · simpa using hE2
  have hFs : (sorted.filter (fun h => decide (h.fiberID = (c : ℤ)))).Sorted
      (fun lhs rhs => lhs.Time ≤ rhs.Time) := hsorted.filter _
  rw [hacc] at hcc
  have hlast1 : 30 ≤ h2.Time - h1.Time → 30 ≤ fl (h2.Time - h1.Time) := by
    intro h
    have := hmono h
    rw [h30] at this
    exact this
  have hlast2 : ∀ r : ℚ, fl r = r → r < 30 → h2.Time - h1.Time ≤ r →
      fl (h2.Time - h1.Time) < 30 := by
    intro r hr hr30 hle
    have := hmono hle
    rw [hr] at this
    linarith
  refine ⟨Storage.ofClusters cs1, hreg, ?_, ?_, hlast1, hlast2⟩
  · intro hlt
    simp only [Storage.ofClusters, List.getElem?_map, hcc, Option.map_some']
    rcases perm_pair hF with hF2 | hF2
    · rw [hF2]
      simp only [List.foldl_cons, List.foldl_nil,
        Clusters.registerRounded_placeholder fl hmono h0 h1 ht, Clusters.registerRounded_single]
      have hng : ¬ h1.Time > h2.Time := not_lt.mpr hd
      simp [hlt, hng]
    · rw [hF2] at hFs
      have hle : h2.Time ≤ h1.Time := List.rel_of_sorted_cons hFs h1 (List.mem_cons_self _ _)
      have ht2' : h2.Time = h1.Time := le_antisymm hle hd
      have ht' : h2.Time < 99999 := by rw [ht2']; exact ht
      rw [hF2]
      simp only [List.foldl_cons, List.foldl_nil,
        Clusters.registerRounded_placeholder fl hmono h0 h2 ht', Clusters.registerRounded_single]
      rw [ht2']
      simp [h0]
  · intro hge
    simp only [Storage.ofClusters, List.getElem?_map, hcc, Option.map_some']
    rcases perm_pair hF with hF2 | hF2
    · rw [hF2]
      simp only [List.foldl_cons, List.foldl_nil,
        Clusters.registerRounded_placeholder fl hmono h0 h1 ht, Clusters.registerRounded_single]
      simp [not_lt.mpr hge]
    · rw [hF2] at hFs
      have hle : h2.Time ≤ h1.Time := List.rel_of_sorted_cons hFs h1 (List.mem_cons_self _ _)
      have ht2' : h2.Time = h1.Time := le_antisymm hle hd
      rw [ht2', sub_self, h0] at hge
      norm_num at hge

/-- C5, witness: in `double` arithmetic, the events `gatePoints d` for `d` =
29, 30 and 31, sorted as the model sorts them: one cluster on channel 10 for
29, two for 30 and 31. -/
theorem registerHits_time_gate_witness :
    ((registerHitsRounded IEEE754.binary64 (Storage.init 512) (sortHits (gatePoints 29))).map
        (fun s : Storage => s.time[10]?) = some (some [(100 : ℚ)])) ∧
    ((registerHitsRounded IEEE754.binary64 (Storage.init 512) (sortHits (gatePoints 30))).map
        (fun s : Storage => s.time[10]?) = some (some [(100 : ℚ), 100 + 30])) ∧
    ((registerHitsRounded IEEE754.binary64 (Storage.init 512) (sortHits (gatePoints 31))).map
        (fun s : Storage => s.time[10]?) = some (some [(100 : ℚ), 100 + 31])) := by
  refine ⟨?_, ?_, ?_⟩
  · obtain ⟨s, hs, hlt, _, _, hr⟩ := registerHits_time_gate IEEE754.binary64
      IEEE754.binary64_monotone IEEE754.binary64_zero (by decide!) 512 10 (gatePoints 29)
      (sortHits (gatePoints 29)) ⟨10, 0.5, 100, 1⟩ ⟨10, 0.3, 100 + 29, 2⟩
      (by decide!) (by decide!) (by decide!) (by decide!) (by decide!) (by decide!)
      (by decide!) (by decide!)
    obtain ⟨ht, _, _⟩ := hlt (hr 29 (by decide!) (by norm_num) (by norm_num))
    rw [hs, Option.map_some', ht]
  · obtain ⟨s, hs, _, hge, hr, _⟩ := registerHits_time_gate IEEE754.binary64
      IEEE754.binary64_monotone IEEE754.binary64_zero (by decide!) 512 10 (gatePoints 30)
      (sortHits (gatePoints 30)) ⟨10, 0.5, 100, 1⟩ ⟨10, 0.3, 100 + 30, 2⟩
      (by decide!) (by decide!) (by decide!) (by decide!) (by decide!) (by decide!)
      (by decide!) (by decide!)
    obtain ⟨ht, _, _⟩ := hge (hr (by norm_num))
    rw [hs, Option.map_some', ht]
  · obtain ⟨s, hs, _, hge, hr, _⟩ := registerHits_time_gate IEEE754.binary64
      IEEE754.binary64_monotone IEEE754.binary64_zero (by decide!) 512 10 (gatePoints 31)
      (sortHits (gatePoints 31)) ⟨10, 0.5, 100, 1⟩ ⟨10, 0.3, 100 + 31, 2⟩
      (by decide!) (by decide!) (by decide!) (by decide!) (by decide!) (by decide!)
      (by decide!) (by decide!)
    obtain ⟨ht, _, _⟩ := hge (hr (by norm_num))
    rw [hs, Option.map_some', ht]

/-- C5, counterexample: the two hits of `edgePoints`, both of amplitude above
1e-7 on channel 10, the first at the `double` nearest 0.2 and the second at
the `double` nearest 30.2.  The second follows the first by less than 30 (by
30 less 7.2e-16), and the difference the code computes in `double` arithmetic
is exactly 30: the hits are not merged, and channel 10 ends with two
clusters, at the times of the two hits. -/
theorem registerHits_time_gate_counterexample :
    edgePoints.Sorted (fun lhs rhs => lhs.Time ≤ rhs.Time) ∧
    (∀ h ∈ edgePoints, h.fiberID = 10 ∧ ¬ h.Energy < 0.0000001 ∧
      IEEE754.binary64 h.Time = h.Time ∧ h.Time < 99999) ∧
    edgePoints.map TempHit.Time
      = [3602879701896397 / 18014398509481984, 8500544296661811 / 281474976710656] ∧
    (0 : ℚ) ≤ IEEE754.binary64 30.2 - IEEE754.binary64 0.2 ∧
    IEEE754.binary64 30.2 - IEEE754.binary64 0.2 < 30 ∧
    IEEE754.binary64 (IEEE754.binary64 30.2 - IEEE754.binary64 0.2) = 30 ∧
    (registerHitsRounded IEEE754.binary64 (Storage.init 512) edgePoints).map
        (fun s : Storage => s.time[10]?)
      = some (some [IEEE754.binary64 0.2, IEEE754.binary64 30.2]) := by
  refine ⟨by decide!, by decide!, by decide!, by decide!, by decide!, by decide!, by decide!⟩

end R3BFiberDigitizer

/-! # The epsilon filter of the fiber digitizer and the order of equal times -/

namespace R3BFiberDigitizer

theorem SortedArrangement.filter (p : TempHit → Bool) (Points sorted : List TempHit)
    (h : SortedArrangement Points sorted) :
    SortedArrangement (Points.filter p) (sorted.filter p) :=
  ⟨h.1.filter p, h.2.filter p⟩

end R3BFiberDigitizer
